import Mathlib

/-!
# Verification of the `rtree` library (`RTreeG2`)

Shallow embedding of `src/rtreeg2.go`: a 2-dimensional R-tree over axis-aligned
rectangles with payloads.  Go's in-place mutation is modelled by pure functions
returning the updated values; the generic coordinate type `N` (Go `number`) is
modelled by a linear ordered commutative ring; the generic payload type `T`
is modelled by a type with decidable equality (Go boxes payloads into
`interface{}` and compares with `==`).  Nodes carry their entries as lists of
`(rect, payload)` (leaf) or `(rect, child)` (branch) pairs, merging the
parallel arrays `rects`/`items`/`children` of the source; the `count` field of
a node is the list length.  The copy-on-write version tags (`cow` fields) are
omitted: they only control physical sharing, never the logical content.
-/

namespace RTree

/-- Source: `const maxEntries = 64`. -/
def maxEntries : Nat := 64

/-- Source: `const minEntries = maxEntries * 10 / 100` (= 6). -/
def minEntries : Nat := maxEntries * 10 / 100

/-- Source: `const orderBranches = true`. -/
def orderBranches : Bool := true

/-- Source: `const orderLeaves = true`. -/
def orderLeaves : Bool := true

/-- Source: `const quickChooser = false`. -/
def quickChooser : Bool := false

/-- Source: `type rect[N number] struct { min, max [2]N }`.  The two index-2
arrays are flattened into four scalar fields (`min0 = min[0]`, etc.). -/
structure rect (N : Type) where
  min0 : N
  min1 : N
  max0 : N
  max1 : N
deriving DecidableEq, Repr

variable {N : Type} [LinearOrderedCommRing N] {T : Type} [DecidableEq T] {α : Type} {β : Type}

namespace rect

/-- Source: `func (r *rect[N]) expand(b *rect[N])`; the result is the in-place
updated `r`. -/
def expand (r b : rect N) : rect N :=
  { min0 := if b.min0 < r.min0 then b.min0 else r.min0
    max0 := if b.max0 > r.max0 then b.max0 else r.max0
    min1 := if b.min1 < r.min1 then b.min1 else r.min1
    max1 := if b.max1 > r.max1 then b.max1 else r.max1 }

/-- Source: `func (r *rect[N]) area() N`. -/
def area (r : rect N) : N := (r.max0 - r.min0) * (r.max1 - r.min1)

/-- Source: `func (r *rect[N]) contains(b *rect[N]) bool`. -/
def contains (r b : rect N) : Bool :=
  if b.min0 < r.min0 ∨ b.max0 > r.max0 then false
  else if b.min1 < r.min1 ∨ b.max1 > r.max1 then false
  else true

/-- Source: `func (r *rect[N]) intersects(b *rect[N]) bool`. -/
def intersects (r b : rect N) : Bool :=
  if b.min0 > r.max0 ∨ b.max0 < r.min0 then false
  else if b.min1 > r.max1 ∨ b.max1 < r.min1 then false
  else true

/-- Source: `func fmin[N number](a, b N) N`. -/
def fmin (a b : N) : N := if a < b then a else b

/-- Source: `func fmax[N number](a, b N) N`. -/
def fmax (a b : N) : N := if a > b then a else b

/-- Source: `func (r *rect[N]) unionedArea(b *rect[N]) N`. -/
def unionedArea (r b : rect N) : N :=
  (fmax r.max0 b.max0 - fmin r.min0 b.min0) * (fmax r.max1 b.max1 - fmin r.min1 b.min1)

/-- Source: `func (r rect[N]) largestAxis() (axis int)`; the result axis 0/1 is
modelled as `false`/`true`. -/
def largestAxis (r : rect N) : Bool :=
  decide (r.max1 - r.min1 > r.max0 - r.min0)

/-- Source: `func (r *rect[N]) equals(b *rect[N]) bool`. -/
def equals (r b : rect N) : Bool :=
  if r.min0 < b.min0 ∨ r.min0 > b.min0 ∨
     r.min1 < b.min1 ∨ r.min1 > b.min1 ∨
     r.max0 < b.max0 ∨ r.max0 > b.max0 ∨
     r.max1 < b.max1 ∨ r.max1 > b.max1 then false
  else true

/-- Source: `func (r *rect[N]) onedge(b *rect[N]) bool`. -/
def onedge (r b : rect N) : Bool :=
  if r.min0 > b.min0 ∧ r.min1 > b.min1 ∧ r.max0 < b.max0 ∧ r.max1 < b.max1
  then false else true

/-- Axis-indexed access to the `min` coordinate (`min[axis]` in the source). -/
def minAx (r : rect N) (axis : Bool) : N := if axis then r.min1 else r.min0

/-- Axis-indexed access to the `max` coordinate (`max[axis]` in the source). -/
def maxAx (r : rect N) (axis : Bool) : N := if axis then r.max1 else r.max0

theorem fmin_eq (a b : N) : fmin a b = min a b := by
  rw [fmin, min_def]
  rcases lt_trichotomy a b with h | h | h
  · rw [if_pos h, if_pos h.le]
  · rw [if_neg (by simp [h]), if_pos h.le]; exact h.symm
  · rw [if_neg (asymm h), if_neg (not_le_of_lt h)]

theorem fmax_eq (a b : N) : fmax a b = max a b := by
  rw [fmax, max_def]
  rcases lt_trichotomy a b with h | h | h
  · rw [if_neg (asymm h), if_pos h.le]
  · rw [if_neg (by simp [h]), if_pos h.le]
  · rw [if_pos h, if_neg (not_le_of_lt h)]

theorem ite_min (a b : N) : (if b < a then b else a) = min a b := by
  rcases lt_trichotomy b a with h | h | h
  · rw [if_pos h, min_eq_right h.le]
  · rw [if_neg (by simp [h]), min_eq_left h.ge]
  · rw [if_neg (asymm h), min_eq_left h.le]

theorem ite_max (a b : N) : (if b > a then b else a) = max a b := by
  rcases lt_trichotomy a b with h | h | h
  · rw [if_pos h, max_eq_right h.le]
  · rw [if_neg (by simp [h]), max_eq_left h.ge]
  · rw [if_neg (asymm h), max_eq_left h.le]

theorem expand_def (r b : rect N) :
    expand r b = ⟨min r.min0 b.min0, min r.min1 b.min1, max r.max0 b.max0, max r.max1 b.max1⟩ := by
  simp only [expand, ite_min, ite_max]

theorem contains_iff (r b : rect N) :
    contains r b = true ↔ r.min0 ≤ b.min0 ∧ b.max0 ≤ r.max0 ∧ r.min1 ≤ b.min1 ∧ b.max1 ≤ r.max1 := by
  rw [contains]
  by_cases h₀ : b.min0 < r.min0 ∨ b.max0 > r.max0
  · rw [if_pos h₀]
    refine iff_of_false (by simp) ?_
    rintro ⟨h1, h2, _, _⟩
    rcases h₀ with h | h
    · exact absurd h1 (not_le_of_lt h)
    · exact absurd h2 (not_le_of_lt h)
  · rw [if_neg h₀]
    by_cases h₁ : b.min1 < r.min1 ∨ b.max1 > r.max1
    · rw [if_pos h₁]
      refine iff_of_false (by simp) ?_
      rintro ⟨_, _, h3, h4⟩
      rcases h₁ with h | h
      · exact absurd h3 (not_le_of_lt h)
      · exact absurd h4 (not_le_of_lt h)
    · rw [if_neg h₁]
      push_neg at h₀ h₁
      exact iff_of_true rfl ⟨h₀.1, h₀.2, h₁.1, h₁.2⟩

theorem intersects_iff (r b : rect N) :
    intersects r b = true ↔ b.min0 ≤ r.max0 ∧ r.min0 ≤ b.max0 ∧ b.min1 ≤ r.max1 ∧ r.min1 ≤ b.max1 := by
  rw [intersects]
  by_cases h₀ : b.min0 > r.max0 ∨ b.max0 < r.min0
  · rw [if_pos h₀]
    refine iff_of_false (by simp) ?_
    rintro ⟨h1, h2, _, _⟩
    rcases h₀ with h | h
    · exact absurd h1 (not_le_of_lt h)
    · exact absurd h2 (not_le_of_lt h)
  · rw [if_neg h₀]
    by_cases h₁ : b.min1 > r.max1 ∨ b.max1 < r.min1
    · rw [if_pos h₁]
      refine iff_of_false (by simp) ?_
      rintro ⟨_, _, h3, h4⟩
      rcases h₁ with h | h
      · exact absurd h3 (not_le_of_lt h)
      · exact absurd h4 (not_le_of_lt h)
    · rw [if_neg h₁]
      push_neg at h₀ h₁
      exact iff_of_true rfl ⟨h₀.1, h₀.2, h₁.1, h₁.2⟩

theorem equals_iff (r b : rect N) : equals r b = true ↔ r = b := by
  rw [equals]
  by_cases h : r.min0 < b.min0 ∨ r.min0 > b.min0 ∨
      r.min1 < b.min1 ∨ r.min1 > b.min1 ∨
      r.max0 < b.max0 ∨ r.max0 > b.max0 ∨
      r.max1 < b.max1 ∨ r.max1 > b.max1
  · rw [if_pos h]
    refine iff_of_false (by simp) ?_
    rintro rfl
    rcases h with h | h | h | h | h | h | h | h <;> exact absurd h (lt_irrefl _)
  · rw [if_neg h]
    push_neg at h
    obtain ⟨h1, h2, h3, h4, h5, h6, h7, h8⟩ := h
    refine iff_of_true rfl ?_
    cases r; cases b
    simp only [rect.mk.injEq]
    exact ⟨le_antisymm h2 h1, le_antisymm h4 h3, le_antisymm h6 h5, le_antisymm h8 h7⟩

theorem onedge_false_iff (r b : rect N) :
    onedge r b = false ↔ b.min0 < r.min0 ∧ b.min1 < r.min1 ∧ r.max0 < b.max0 ∧ r.max1 < b.max1 := by
  rw [onedge]
  by_cases h : r.min0 > b.min0 ∧ r.min1 > b.min1 ∧ r.max0 < b.max0 ∧ r.max1 < b.max1
  · rw [if_pos h]
    exact iff_of_true rfl ⟨h.1, h.2.1, h.2.2.1, h.2.2.2⟩
  · rw [if_neg h]
    refine iff_of_false (by simp) ?_
    intro hc
    exact h ⟨hc.1, hc.2.1, hc.2.2.1, hc.2.2.2⟩

theorem contains_refl (r : rect N) : contains r r = true := by
  rw [contains_iff]; exact ⟨le_refl _, le_refl _, le_refl _, le_refl _⟩

theorem contains_trans {a b c : rect N} (h₁ : contains a b = true) (h₂ : contains b c = true) :
    contains a c = true := by
  rw [contains_iff] at *
  obtain ⟨x1, x2, x3, x4⟩ := h₁; obtain ⟨y1, y2, y3, y4⟩ := h₂
  exact ⟨le_trans x1 y1, le_trans y2 x2, le_trans x3 y3, le_trans y4 x4⟩

/-- Intersection is monotone under containment: if `R` contains `r` and `r`
meets `q` then `R` meets `q`. -/
theorem intersects_of_contains {R r q : rect N} (hc : contains R r = true)
    (hi : intersects r q = true) : intersects R q = true := by
  rw [contains_iff] at hc; rw [intersects_iff] at *
  obtain ⟨c1, c2, c3, c4⟩ := hc; obtain ⟨i1, i2, i3, i4⟩ := hi
  exact ⟨le_trans i1 c2, le_trans c1 i2, le_trans i3 c4, le_trans c3 i4⟩

theorem intersects_comm (r b : rect N) : intersects r b = intersects b r := by
  rcases h₁ : intersects r b <;> rcases h₂ : intersects b r <;> try rfl
  · rw [intersects_iff] at h₂
    have h₃ : intersects r b = true := by
      rw [intersects_iff]; exact ⟨h₂.2.1, h₂.1, h₂.2.2.2, h₂.2.2.1⟩
    rw [h₁] at h₃; exact h₃
  · rw [intersects_iff] at h₁
    have h₃ : intersects b r = true := by
      rw [intersects_iff]; exact ⟨h₁.2.1, h₁.1, h₁.2.2.2, h₁.2.2.1⟩
    rw [h₂] at h₃; exact h₃.symm

theorem expand_comm (r b : rect N) : expand r b = expand b r := by
  rw [expand_def, expand_def]
  simp [min_comm, max_comm]

theorem expand_assoc (a b c : rect N) : expand (expand a b) c = expand a (expand b c) := by
  rw [expand_def, expand_def, expand_def, expand_def]
  simp [min_assoc, max_assoc]

theorem contains_expand_left (r b : rect N) : contains (expand r b) r = true := by
  rw [expand_def, contains_iff]
  exact ⟨min_le_left _ _, le_max_left _ _, min_le_left _ _, le_max_left _ _⟩

theorem contains_expand_right (r b : rect N) : contains (expand r b) b = true := by
  rw [expand_def, contains_iff]
  exact ⟨min_le_right _ _, le_max_right _ _, min_le_right _ _, le_max_right _ _⟩

theorem expand_eq_of_contains {r b : rect N} (h : contains r b = true) : expand r b = r := by
  rw [contains_iff] at h
  obtain ⟨h1, h2, h3, h4⟩ := h
  rw [expand_def]
  cases r
  simp only [rect.mk.injEq]
  exact ⟨min_eq_left h1, min_eq_left h3, max_eq_left h2, max_eq_left h4⟩

theorem contains_expand_of_contains {R a b : rect N} (ha : contains R a = true)
    (hb : contains R b = true) : contains R (expand a b) = true := by
  rw [contains_iff] at *
  rw [expand_def]
  exact ⟨le_min ha.1 hb.1, max_le ha.2.1 hb.2.1, le_min ha.2.2.1 hb.2.2.1,
    max_le ha.2.2.2 hb.2.2.2⟩

end rect

/-- The zero `rect`, i.e. the Go zero value `rect[N]{}`. -/
def zeroRect : rect N := ⟨0, 0, 0, 0⟩

/-- Source: `type node[N,T]` together with its two refinements `leafNode`
(tail array `items [maxEntries]T`) and `branchNode` (tail array
`children [maxEntries]*node`).  The parallel arrays `rects`/`items` resp.
`rects`/`children` (both of live length `count`) become a single list of
pairs. -/
inductive node (N : Type) (T : Type) where
  | leaf (items : List (rect N × T))
  | branch (children : List (rect N × node N T))
deriving Repr

namespace node

/-- The live entry count of a node (`node.count` in the source). -/
def length : node N T → Nat
  | leaf l => l.length
  | branch l => l.length

/-- Source: `func (n *node[N,T]) leaf() bool`. -/
def isLeaf : node N T → Bool
  | leaf _ => true
  | branch _ => false

end node

/-- Source: `func (n *node[N,T]) rect() rect[N]`: fold `expand` over
`rects[0..count)` starting from `rects[0]`.  The source never calls it on an
empty node; the `[]` case returns the zero rect (in Go it would read the
stale slot `rects[0]`, whose value is never observed). -/
def nrect : List (rect N) → rect N
  | [] => zeroRect
  | r :: rs => rs.foldl rect.expand r

/-- The stored child rectangles of a node's own entry list. -/
def rectsOf (l : List (rect N × α)) : List (rect N) := l.map Prod.fst

theorem nrect_cons (r : rect N) (rs : List (rect N)) :
    nrect (r :: rs) = rs.foldl rect.expand r := rfl

theorem foldl_expand_expand (a b : rect N) (l : List (rect N)) :
    l.foldl rect.expand (rect.expand a b) = rect.expand a (l.foldl rect.expand b) := by
  induction l generalizing b with
  | nil => rfl
  | cons c cs ih =>
    simp only [List.foldl_cons]
    rw [rect.expand_assoc, ih]

theorem nrect_cons_cons (r s : rect N) (rs : List (rect N)) :
    nrect (r :: s :: rs) = rect.expand r (nrect (s :: rs)) := by
  simp only [nrect, List.foldl_cons]
  exact foldl_expand_expand r s rs

theorem nrect_cons_ne (r : rect N) {rs : List (rect N)} (h : rs ≠ []) :
    nrect (r :: rs) = rect.expand r (nrect rs) := by
  cases rs with
  | nil => exact absurd rfl h
  | cons s ss => exact nrect_cons_cons r s ss

/-- The MBR of a nonempty list contains every member. -/
theorem nrect_contains_mem {l : List (rect N)} {a : rect N} (h : a ∈ l) :
    rect.contains (nrect l) a = true := by
  induction l with
  | nil => cases h
  | cons r rs ih =>
    cases rs with
    | nil =>
      rcases List.mem_singleton.mp h with rfl
      exact rect.contains_refl a
    | cons s ss =>
      rw [nrect_cons_cons]
      rcases List.mem_cons.mp h with rfl | hm
      · exact rect.contains_trans (rect.contains_expand_left _ _) (rect.contains_refl a)
      · exact rect.contains_trans (rect.contains_expand_right _ _) (ih hm)

/-- Any rectangle containing every member of a nonempty list contains its MBR. -/
theorem contains_nrect_of_forall {R : rect N} {l : List (rect N)}
    (hne : l ≠ []) (h : ∀ a ∈ l, rect.contains R a = true) :
    rect.contains R (nrect l) = true := by
  induction l with
  | nil => exact absurd rfl hne
  | cons r rs ih =>
    cases rs with
    | nil => exact h r (List.mem_singleton.mpr rfl)
    | cons s ss =>
      rw [nrect_cons_cons]
      refine rect.contains_expand_of_contains (h r (List.mem_cons_self _ _)) ?_
      exact ih (by simp) (fun a ha => h a (List.mem_cons_of_mem _ ha))

theorem nrect_append {l₁ l₂ : List (rect N)} (h₁ : l₁ ≠ []) (h₂ : l₂ ≠ []) :
    nrect (l₁ ++ l₂) = rect.expand (nrect l₁) (nrect l₂) := by
  induction l₁ with
  | nil => exact absurd rfl h₁
  | cons r rs ih =>
    cases rs with
    | nil =>
      simp only [List.singleton_append]
      rw [nrect_cons_ne r h₂]
      rfl
    | cons s ss =>
      have hne : (s :: ss) ++ l₂ ≠ [] := by simp
      rw [List.cons_append, nrect_cons_ne r hne, ih (by simp), nrect_cons_cons,
        rect.expand_assoc]

theorem expand_right_comm (a b c : rect N) :
    rect.expand (rect.expand a b) c = rect.expand (rect.expand a c) b := by
  rw [rect.expand_assoc, rect.expand_assoc, rect.expand_comm b c]

/-- The MBR is invariant under permutation of the list. -/
theorem nrect_perm {l₁ l₂ : List (rect N)} (h : l₁.Perm l₂) : nrect l₁ = nrect l₂ := by
  induction h with
  | nil => rfl
  | cons x h ih =>
    rename_i u v
    cases u with
    | nil =>
      have hv : v = [] := List.Perm.eq_nil h.symm
      subst hv; rfl
    | cons a as =>
      have hv : v ≠ [] := by
        intro hh; subst hh
        exact absurd (List.Perm.eq_nil h) (by simp)
      rw [nrect_cons_ne x (by simp), nrect_cons_ne x hv, ih]
  | swap x y l =>
    cases l with
    | nil =>
      rw [nrect_cons_cons, nrect_cons_cons]
      simp only [nrect]
      exact rect.expand_comm y x
    | cons a as =>
      rw [nrect_cons_cons, nrect_cons_cons, nrect_cons_cons, nrect_cons_cons,
        ← rect.expand_assoc, ← rect.expand_assoc, rect.expand_comm y x]
  | trans _ _ ih₁ ih₂ => rw [ih₁, ih₂]

mutual

/-- All `(rect, payload)` entries stored in the leaves below a node, in
left-to-right traversal order. -/
def Entries : node N T → List (rect N × T)
  | .leaf l => l
  | .branch l => entriesL l

/-- Entries below a list of branch children, in order. -/
def entriesL : List (rect N × node N T) → List (rect N × T)
  | [] => []
  | c :: cs => Entries c.2 ++ entriesL cs

end

mutual

/-- Source: `func (n *node[N,T]) deepCount() int`. -/
def deepCount : node N T → Nat
  | .leaf l => l.length
  | .branch l => deepCountL l

/-- Sum of `deepCount` over a list of branch children. -/
def deepCountL : List (rect N × node N T) → Nat
  | [] => 0
  | c :: cs => deepCount c.2 + deepCountL cs

end

/-- Source: `func (n *node[N,T]) swap(i, j int)`; swaps `rects[i]`/`rects[j]`
together with the parallel payload or child slot, i.e. the pairs. -/
def swapAt (l : List α) (i j : Nat) : List α :=
  match l[i]?, l[j]? with
  | some a, some b => (l.set i b).set j a
  | _, _ => l

/-- Shift entries right and write at the index, as the leaf-insert path of
`nodeInsert` does with its two `copy` calls. -/
def insertAt (i : Nat) (a : α) : List α → List α
  | [] => [a]
  | x :: xs =>
    match i with
    | 0 => a :: x :: xs
    | i + 1 => x :: insertAt i a xs

/-- Source: `func (n *node[N,T]) rsearch(key N) int`: the first index whose
rect's `min[0]` is not below `key` (or `count`). -/
def rsearch (key : N) : List (rect N × α) → Nat
  | [] => 0
  | e :: es => if e.1.min0 < key then rsearch key es + 1 else 0

/-- Source: `func (n *node[N,T]) issorted() bool`. -/
def issorted : List (rect N × α) → Bool
  | a :: b :: rest => if b.1.min0 < a.1.min0 then false else issorted (b :: rest)
  | _ => true

/-- Non-decreasing by `min[0]`: the ordering property `issorted` checks. -/
def sortedMin0 (l : List (rect N × α)) : Prop :=
  l.Pairwise (fun a b => a.1.min0 ≤ b.1.min0)

/-- Source: `func (n *node[N,T]) orderToLeft(idx int) int`; returns the
reordered entry list together with the final index. -/
def orderToLeft (l : List (rect N × α)) (i : Nat) : List (rect N × α) × Nat :=
  if _h0 : i = 0 then (l, i)
  else
    match l[i]?, l[i - 1]? with
    | some a, some b =>
      if a.1.min0 < b.1.min0 then orderToLeft (swapAt l i (i - 1)) (i - 1) else (l, i)
    | _, _ => (l, i)
termination_by i
decreasing_by omega

theorem swapAt_length (l : List α) (i j : Nat) : (swapAt l i j).length = l.length := by
  rw [swapAt]
  rcases h₁ : l[i]? with _ | a <;> rcases h₂ : l[j]? with _ | b <;> simp

/-- Source: `func (n *node[N,T]) orderToRight(idx int) int`; the guard
`i + 1 < l.length` is the loop condition `idx < int(n.count)-1`. -/
def orderToRight (l : List (rect N × α)) (i : Nat) : List (rect N × α) × Nat :=
  if _h : i + 1 < l.length then
    match l[i]?, l[i + 1]? with
    | some a, some b =>
      if b.1.min0 < a.1.min0 then orderToRight (swapAt l i (i + 1)) (i + 1) else (l, i)
    | _, _ => (l, i)
  else (l, i)
termination_by l.length - i
decreasing_by
  rw [swapAt_length]
  omega

/-- Source: `func (n *node[N,T]) qsort(s, e int, axis int, rev, max bool)`,
modelled on the sub-list it sorts: middle pivot, Lomuto-style partition of the
remaining elements by `lt · pivot`, recursion on both sides.  The in-place
index arithmetic is modelled at the level of the partition it computes. -/
def qsortBy (lt : α → α → Bool) (l : List α) : List α :=
  if hl : l.length < 2 then l
  else
    have hp : l.length / 2 < l.length := Nat.div_lt_self (by omega) (by omega)
    let p := l.get ⟨l.length / 2, hp⟩
    let rest := l.eraseIdx (l.length / 2)
    let part := rest.partition (fun a => lt a p)
    qsortBy lt part.1 ++ p :: qsortBy lt part.2
termination_by l.length
decreasing_by
  · have h1 : (List.partition (fun a => lt a (l.get ⟨l.length / 2, hp⟩))
        (l.eraseIdx (l.length / 2))).1.length ≤ (l.eraseIdx (l.length / 2)).length := by
      rw [List.partition_eq_filter_filter]
      exact List.length_filter_le _ _
    have h2 : (l.eraseIdx (l.length / 2)).length = l.length - 1 := by
      rw [List.length_eraseIdx l (l.length / 2), if_pos hp]
    omega
  · have h1 : (List.partition (fun a => lt a (l.get ⟨l.length / 2, hp⟩))
        (l.eraseIdx (l.length / 2))).2.length ≤ (l.eraseIdx (l.length / 2)).length := by
      rw [List.partition_eq_filter_filter]
      exact List.length_filter_le _ _
    have h2 : (l.eraseIdx (l.length / 2)).length = l.length - 1 := by
      rw [List.length_eraseIdx l (l.length / 2), if_pos hp]
    omega

/-- The `lt` used when sorting entries ascending by `min[0]` (source:
`node.sort()`, i.e. `qsort(0, c, 0, false, false)`). -/
def ltMin0 (a b : rect N × α) : Bool := decide (a.1.min0 < b.1.min0)

/-- `node.sort()` on an entry list. -/
def sortMin0 (l : List (rect N × α)) : List (rect N × α) := qsortBy ltMin0 l

/-- Source: `node.sortByAxis(axis, rev, max)` comparison for the two calls the
splitter makes (`rev = true`): descending by `min[axis]` or by `max[axis]`. -/
def ltRevAx (useMax : Bool) (axis : Bool) (a b : rect N × α) : Bool :=
  if useMax then decide (b.1.maxAx axis < a.1.maxAx axis)
  else decide (b.1.minAx axis < a.1.minAx axis)

theorem insertAt_perm (i : Nat) (a : α) (l : List α) : (insertAt i a l).Perm (a :: l) := by
  induction l generalizing i with
  | nil => rw [insertAt]
  | cons x xs ih =>
    cases i with
    | zero => rw [insertAt]
    | succ j =>
      rw [insertAt]
      exact ((ih j).cons x).trans (List.Perm.swap a x xs)

theorem rsearch_le_length (key : N) (l : List (rect N × α)) : rsearch key l ≤ l.length := by
  induction l with
  | nil => rw [rsearch]; simp
  | cons e es ih =>
    rw [rsearch]
    split
    · simpa using ih
    · simp

theorem sortedMin0_cons_iff {e : rect N × α} {l : List (rect N × α)} :
    sortedMin0 (e :: l) ↔ (∀ b ∈ l, e.1.min0 ≤ b.1.min0) ∧ sortedMin0 l := by
  rw [sortedMin0, List.pairwise_cons, sortedMin0]

theorem insertAt_rsearch_sorted {l : List (rect N × α)} (hs : sortedMin0 l)
    (ir : rect N) (d : α) :
    sortedMin0 (insertAt (rsearch ir.min0 l) (ir, d) l) := by
  induction l with
  | nil =>
    rw [rsearch, insertAt, sortedMin0]
    simp
  | cons e es ih =>
    rw [sortedMin0_cons_iff] at hs
    rw [rsearch]
    by_cases h : e.1.min0 < ir.min0
    · rw [if_pos h, insertAt]
      rw [sortedMin0_cons_iff]
      refine ⟨?_, ih hs.2⟩
      intro b hb
      have hmem : b ∈ (ir, d) :: es := (insertAt_perm _ _ _).mem_iff.mp hb
      rcases List.mem_cons.mp hmem with rfl | hbes
      · exact h.le
      · exact hs.1 b hbes
    · rw [if_neg h, insertAt]
      rw [sortedMin0_cons_iff]
      refine ⟨?_, ?_⟩
      · intro b hb
        rcases List.mem_cons.mp hb with rfl | hbes
        · exact le_of_not_lt h
        · exact le_trans (le_of_not_lt h) (hs.1 b hbes)
      · rw [sortedMin0_cons_iff]; exact hs

theorem issorted_iff (l : List (rect N × α)) : issorted l = true ↔ sortedMin0 l := by
  induction l with
  | nil => simp [issorted, sortedMin0]
  | cons a l ih =>
    cases l with
    | nil => simp [issorted, sortedMin0]
    | cons b rest =>
      rw [issorted]
      by_cases h : b.1.min0 < a.1.min0
      · rw [if_pos h]
        refine iff_of_false (by simp) ?_
        intro hs
        rw [sortedMin0_cons_iff] at hs
        exact absurd (hs.1 b (List.mem_cons_self _ _)) (not_le_of_lt h)
      · rw [if_neg h, ih]
        constructor
        · intro hs
          rw [sortedMin0_cons_iff]
          refine ⟨?_, hs⟩
          intro c hc
          rcases List.mem_cons.mp hc with rfl | hcr
          · exact le_of_not_lt h
          · rw [sortedMin0_cons_iff] at hs
            exact le_trans (le_of_not_lt h) (hs.1 c hcr)
        · intro hs
          rw [sortedMin0_cons_iff] at hs
          exact hs.2

theorem perm_cons_eraseIdx {l : List α} {i : Nat} (h : i < l.length) :
    l.Perm (l.get ⟨i, h⟩ :: l.eraseIdx i) := by
  induction l generalizing i with
  | nil => simp at h
  | cons x xs ih =>
    cases i with
    | zero => simp
    | succ j =>
      have hj : j < xs.length := by simpa using h
      have step : (x :: xs).Perm (x :: (xs.get ⟨j, hj⟩ :: xs.eraseIdx j)) := (ih hj).cons x
      refine step.trans ?_
      have : (x :: xs).get ⟨j + 1, h⟩ = xs.get ⟨j, hj⟩ := rfl
      rw [this]
      exact List.Perm.swap _ _ _

theorem qsortBy_perm (lt : α → α → Bool) (l : List α) : (qsortBy lt l).Perm l := by
  induction l using qsortBy.induct lt with
  | case1 l hl => rw [qsortBy, dif_pos hl]
  | case2 l hl hp p rest part ih1 ih2 =>
    rw [qsortBy, dif_neg hl]
    refine (List.Perm.append ih1 (List.Perm.cons _ ih2)).trans ?_
    refine List.perm_middle.trans ?_
    refine (List.Perm.cons _ ?_).trans (perm_cons_eraseIdx hp).symm
    unfold part
    rw [List.partition_eq_filter_filter]
    exact List.filter_append_perm _ _


theorem getElem?_append_cons_length (xs ys : List α) (e : α) :
    (xs ++ e :: ys)[xs.length]? = some e := by
  rw [List.getElem?_append_right (le_refl xs.length)]
  simp

theorem swapAt_cons (x : α) (l : List α) (i j : Nat) :
    swapAt (x :: l) (i + 1) (j + 1) = x :: swapAt l i j := by
  rw [swapAt, swapAt]
  simp only [List.getElem?_cons_succ]
  rcases h₁ : l[i]? with _ | a <;> rcases h₂ : l[j]? with _ | b <;> simp [List.set]

theorem swapAt_comm (l : List α) (i j : Nat) (h : i ≠ j) : swapAt l i j = swapAt l j i := by
  rw [swapAt, swapAt]
  rcases h₁ : l[i]? with _ | a <;> rcases h₂ : l[j]? with _ | b <;> simp
  exact List.set_comm _ _ _ h

theorem swapAt_append_cons₂ (xs ys : List α) (a b : α) :
    swapAt (xs ++ a :: b :: ys) xs.length (xs.length + 1) = xs ++ b :: a :: ys := by
  induction xs with
  | nil => simp [swapAt, List.set]
  | cons x xs ih =>
    have h : (x :: xs) ++ a :: b :: ys = x :: (xs ++ a :: b :: ys) := rfl
    rw [h]
    show swapAt _ (xs.length + 1) (xs.length + 1 + 1) = _
    rw [swapAt_cons, ih]
    rfl

theorem orderToLeft_zero (l : List (rect N × α)) : orderToLeft l 0 = (l, 0) := by
  rw [orderToLeft]
  simp

theorem orderToLeft_step (zs ys : List (rect N × α)) (a e : rect N × α)
    (hlt : e.1.min0 < a.1.min0) :
    orderToLeft (zs ++ a :: e :: ys) (zs.length + 1) =
      orderToLeft (zs ++ e :: a :: ys) zs.length := by
  rw [orderToLeft, dif_neg (Nat.succ_ne_zero _)]
  have h₁ : (zs ++ a :: e :: ys)[zs.length + 1]? = some e := by
    have h : zs ++ a :: e :: ys = (zs ++ [a]) ++ e :: ys := by simp
    have hlen : zs.length + 1 = (zs ++ [a]).length := by simp
    rw [h, hlen]
    exact getElem?_append_cons_length _ _ _
  have h₂ : (zs ++ a :: e :: ys)[zs.length + 1 - 1]? = some a := by
    simp only [Nat.add_sub_cancel]
    exact getElem?_append_cons_length _ _ _
  simp only [h₁, h₂]
  rw [if_pos hlt]
  have h₃ : swapAt (zs ++ a :: e :: ys) (zs.length + 1) (zs.length + 1 - 1) =
      zs ++ e :: a :: ys := by
    simp only [Nat.add_sub_cancel]
    rw [swapAt_comm _ _ _ (by omega), swapAt_append_cons₂]
  rw [h₃]
  simp

theorem orderToLeft_stop (zs ys : List (rect N × α)) (a e : rect N × α)
    (hge : ¬ e.1.min0 < a.1.min0) :
    orderToLeft (zs ++ a :: e :: ys) (zs.length + 1) = (zs ++ a :: e :: ys, zs.length + 1) := by
  rw [orderToLeft, dif_neg (Nat.succ_ne_zero _)]
  have h₁ : (zs ++ a :: e :: ys)[zs.length + 1]? = some e := by
    have h : zs ++ a :: e :: ys = (zs ++ [a]) ++ e :: ys := by simp
    have hlen : zs.length + 1 = (zs ++ [a]).length := by simp
    rw [h, hlen]
    exact getElem?_append_cons_length _ _ _
  have h₂ : (zs ++ a :: e :: ys)[zs.length + 1 - 1]? = some a := by
    simp only [Nat.add_sub_cancel]
    exact getElem?_append_cons_length _ _ _
  simp only [h₁, h₂]
  rw [if_neg hge]

/-- Full characterisation of `orderToLeft` started at the position of `e` in
`xs ++ e :: ys`: it bubbles `e` left past the maximal suffix `xs₂` of `xs`
whose entries have strictly larger `min[0]`. -/
theorem orderToLeft_spec (xs ys : List (rect N × α)) (e : rect N × α) :
    ∃ xs₁ xs₂, xs = xs₁ ++ xs₂ ∧
      orderToLeft (xs ++ e :: ys) xs.length = (xs₁ ++ e :: (xs₂ ++ ys), xs₁.length) ∧
      (∀ a ∈ xs₂, e.1.min0 < a.1.min0) ∧
      (∀ a, xs₁.getLast? = some a → ¬ e.1.min0 < a.1.min0) := by
  induction xs using List.reverseRecOn generalizing ys with
  | nil =>
    refine ⟨[], [], rfl, ?_, by simp, by simp⟩
    simpa using orderToLeft_zero (e :: ys)
  | append_singleton zs a ih =>
    have hl : (zs ++ [a]) ++ e :: ys = zs ++ a :: e :: ys := by simp
    have hlen : (zs ++ [a]).length = zs.length + 1 := by simp
    by_cases hlt : e.1.min0 < a.1.min0
    · obtain ⟨xs₁, xs₂, hzs, hres, hall, hlast⟩ := ih (a :: ys)
      refine ⟨xs₁, xs₂ ++ [a], by rw [hzs]; simp, ?_, ?_, hlast⟩
      · rw [hl, hlen, orderToLeft_step zs ys a e hlt, hres]
        simp
      · intro b hb
        rcases List.mem_append.mp hb with hb | hb
        · exact hall b hb
        · rcases List.mem_singleton.mp hb with rfl
          exact hlt
    · refine ⟨zs ++ [a], [], by simp, ?_, by simp, ?_⟩
      · rw [hl, hlen, orderToLeft_stop zs ys a e hlt, ← hl, ← hlen]
        simp
      · intro b hbl
        rw [List.getLast?_append_cons] at hbl
        simp only [List.getLast?_singleton, Option.some.injEq] at hbl
        subst hbl
        exact hlt

theorem orderToRight_last (xs : List (rect N × α)) (e : rect N × α) :
    orderToRight (xs ++ [e]) xs.length = (xs ++ [e], xs.length) := by
  rw [orderToRight, dif_neg (by simp)]

theorem orderToRight_stop (xs ys : List (rect N × α)) (e b : rect N × α)
    (hge : ¬ b.1.min0 < e.1.min0) :
    orderToRight (xs ++ e :: b :: ys) xs.length = (xs ++ e :: b :: ys, xs.length) := by
  rw [orderToRight, dif_pos (by simp)]
  have h₁ : (xs ++ e :: b :: ys)[xs.length]? = some e := getElem?_append_cons_length _ _ _
  have h₂ : (xs ++ e :: b :: ys)[xs.length + 1]? = some b := by
    have h : xs ++ e :: b :: ys = (xs ++ [e]) ++ b :: ys := by simp
    have hlen : xs.length + 1 = (xs ++ [e]).length := by simp
    rw [h, hlen]
    exact getElem?_append_cons_length _ _ _
  simp only [h₁, h₂]
  rw [if_neg hge]

theorem orderToRight_step (xs ys : List (rect N × α)) (e b : rect N × α)
    (hlt : b.1.min0 < e.1.min0) :
    orderToRight (xs ++ e :: b :: ys) xs.length =
      orderToRight (xs ++ b :: e :: ys) (xs.length + 1) := by
  rw [orderToRight, dif_pos (by simp)]
  have h₁ : (xs ++ e :: b :: ys)[xs.length]? = some e := getElem?_append_cons_length _ _ _
  have h₂ : (xs ++ e :: b :: ys)[xs.length + 1]? = some b := by
    have h : xs ++ e :: b :: ys = (xs ++ [e]) ++ b :: ys := by simp
    have hlen : xs.length + 1 = (xs ++ [e]).length := by simp
    rw [h, hlen]
    exact getElem?_append_cons_length _ _ _
  simp only [h₁, h₂]
  rw [if_pos hlt, swapAt_append_cons₂]

/-- Full characterisation of `orderToRight` started at the position of `e` in
`xs ++ e :: ys`: it bubbles `e` right past the maximal prefix `ys₁` of `ys`
whose entries have strictly smaller `min[0]`. -/
theorem orderToRight_spec (xs ys : List (rect N × α)) (e : rect N × α) :
    ∃ ys₁ ys₂, ys = ys₁ ++ ys₂ ∧
      orderToRight (xs ++ e :: ys) xs.length = ((xs ++ ys₁) ++ e :: ys₂, (xs ++ ys₁).length) ∧
      (∀ b ∈ ys₁, b.1.min0 < e.1.min0) ∧
      (∀ b, ys₂.head? = some b → ¬ b.1.min0 < e.1.min0) := by
  induction ys generalizing xs with
  | nil =>
    refine ⟨[], [], rfl, ?_, by simp, by simp⟩
    simpa using orderToRight_last xs e
  | cons b ys' ih =>
    by_cases hlt : b.1.min0 < e.1.min0
    · obtain ⟨ys₁, ys₂, hys, hres, hall, hhead⟩ := ih (xs ++ [b])
      have hlen : (xs ++ [b]).length = xs.length + 1 := by simp
      have hassoc : (xs ++ [b]) ++ e :: ys₂ = xs ++ b :: e :: ys₂ := by simp
      refine ⟨b :: ys₁, ys₂, by simp [hys], ?_, ?_, hhead⟩
      · rw [orderToRight_step xs ys' e b hlt, ← hlen]
        have h : xs ++ b :: e :: ys' = (xs ++ [b]) ++ e :: ys' := by simp
        rw [h, hres]
        simp
      · intro c hc
        rcases List.mem_cons.mp hc with rfl | hcm
        · exact hlt
        · exact hall c hcm
    · refine ⟨[], b :: ys', rfl, ?_, by simp, ?_⟩
      · rw [orderToRight_stop xs ys' e b hlt]
        simp
      · intro c hc
        simp only [List.head?_cons, Option.some.injEq] at hc
        subst hc
        exact hlt


/-- Sortedness of `qsortBy` for a strict comparison `lt`: the output is
pairwise ordered by the complementary relation `fun a b => lt b a = false`. -/
theorem qsortBy_pairwise (lt : α → α → Bool)
    (hasym : ∀ a b, lt a b = true → lt b a = false)
    (htrans : ∀ a b c, lt b a = false → lt c b = false → lt c a = false)
    (l : List α) : (qsortBy lt l).Pairwise (fun a b => lt b a = false) := by
  induction l using qsortBy.induct lt with
  | case1 l hl =>
    rw [qsortBy, dif_pos hl]
    match l, hl with
    | [], _ => exact List.Pairwise.nil
    | [x], _ => exact List.pairwise_singleton _ _
  | case2 l hl hp p rest part ih1 ih2 =>
    rw [qsortBy, dif_neg hl]
    rw [List.pairwise_append]
    have hmem1 : ∀ a ∈ qsortBy lt part.1, lt a p = true := by
      intro a ha
      have hm : a ∈ part.1 := (qsortBy_perm lt part.1).mem_iff.mp ha
      unfold part at hm
      rw [List.partition_eq_filter_filter] at hm
      simp only at hm
      exact (List.mem_filter.mp hm).2
    have hmem2 : ∀ a ∈ qsortBy lt part.2, lt a p = false := by
      intro a ha
      have h2 : a ∈ part.2 := (qsortBy_perm lt part.2).mem_iff.mp ha
      unfold part at h2
      rw [List.partition_eq_filter_filter] at h2
      simp only at h2
      have h3 := (List.mem_filter.mp h2).2
      simp only [Function.comp_apply, Bool.not_eq_true'] at h3
      exact h3
    refine ⟨ih1, ?_, ?_⟩
    · rw [List.pairwise_cons]
      exact ⟨fun b hb => hmem2 b hb, ih2⟩
    · intro a ha y hy
      have hpa : lt p a = false := hasym a p (hmem1 a ha)
      rcases List.mem_cons.mp hy with rfl | hy2
      · exact hpa
      · exact htrans a p y hpa (hmem2 y hy2)

/-- `node.sort()` produces a list non-decreasing by `min[0]`. -/
theorem sortMin0_sorted (l : List (rect N × α)) : sortedMin0 (sortMin0 l) := by
  have h := qsortBy_pairwise (α := rect N × α) ltMin0
    (by
      intro a b hab
      rw [ltMin0] at *
      simp only [decide_eq_true_eq] at hab
      simp only [decide_eq_false_iff_not]
      exact asymm hab)
    (by
      intro a b c hba hcb
      rw [ltMin0] at *
      simp only [decide_eq_false_iff_not] at *
      intro hlt
      exact hba (lt_of_le_of_lt (le_of_not_lt hcb) hlt))
    l
  rw [sortMin0, sortedMin0]
  refine h.imp ?_
  intro a b hab
  rw [ltMin0] at hab
  simp only [decide_eq_false_iff_not] at hab
  exact le_of_not_lt hab

theorem sortMin0_perm (l : List (rect N × α)) : (sortMin0 l).Perm l :=
  qsortBy_perm _ l


/-- `n.rect()` applied to a node's own entry list. -/
def node.rectOf : node N T → rect N
  | .leaf l => nrect (rectsOf l)
  | .branch l => nrect (rectsOf l)

/-- The underflow-repair loop of the splitter: while `into` has fewer than
`minEntries` entries, `moveRectAtIndexInto(src, src.count-1, into)` moves the
last entry of `src` to the end of `into` (swap-remove at the last index is a
plain pop).  The emptiness guard on `src` is not in the source; the loop can
never exhaust `src` there because both sides together hold `maxEntries`
entries. -/
def moveTailUntil (src into : List (rect N × α)) : List (rect N × α) × List (rect N × α) :=
  if h : into.length < minEntries ∧ 0 < src.length then
    moveTailUntil src.dropLast (into ++ [src.getLast (List.length_pos.mp h.2)])
  else (src, into)
termination_by src.length
decreasing_by
  simp [List.length_dropLast]
  omega

/-- Source: `func (tr *RTreeG2[N,T]) splitNodeLargestAxisEdgeSnap(r, left)`,
on the entry list of the node being split.  The swap-with-last distribution
loop is modelled by a partition: each entry stays left iff
`minDist < maxDist`; the in-loop swap-removes only permute the sides, which
the subsequent sorts reorder anyway.  `isleaf` feeds the
`orderBranches`/`orderLeaves` condition of the final ordering step. -/
def splitEntries (isleaf : Bool) (r : rect N) (l : List (rect N × α)) :
    List (rect N × α) × List (rect N × α) :=
  let axis := r.largestAxis
  let dist := l.partition (fun e => e.1.minAx axis - r.minAx axis < r.maxAx axis - e.1.maxAx axis)
  let rep :=
    if dist.1.length < minEntries then
      Prod.swap (moveTailUntil (qsortBy (ltRevAx false axis) dist.2) dist.1)
    else if dist.2.length < minEntries then
      moveTailUntil (qsortBy (ltRevAx true axis) dist.1) dist.2
    else dist
  if (orderBranches && !isleaf) || (orderLeaves && isleaf) then
    (if issorted rep.1 then rep.1 else sortMin0 rep.1, sortMin0 rep.2)
  else rep

/-- Source: `func (tr *RTreeG2[N,T]) splitNode(r, left) (right)`; the result
is the pair (mutated left node, new right sibling). -/
def splitNode (r : rect N) : node N T → node N T × node N T
  | .leaf l =>
    let s := splitEntries true r l
    (.leaf s.1, .leaf s.2)
  | .branch l =>
    let s := splitEntries false r l
    (.branch s.1, .branch s.2)

/-- One step of the loop of `chooseLeastEnlargement`: the accumulator is
`none` while `j == -1`, otherwise `(j, jenlargement, jarea)`. -/
def cleStep (ir : rect N) (i : Nat) (r : rect N) :
    Option (Nat × N × N) → Option (Nat × N × N)
  | none => some (i, r.unionedArea ir - r.area, r.area)
  | some (j, jenlargement, jarea) =>
    let enlargement := r.unionedArea ir - r.area
    if enlargement < jenlargement ∨ (¬ enlargement > jenlargement ∧ r.area < jarea) then
      some (i, enlargement, r.area)
    else some (j, jenlargement, jarea)

/-- The loop of `chooseLeastEnlargement` over the remaining rects, `i` being
the index of the head. -/
def cleGo (ir : rect N) : List (rect N) → Nat → Option (Nat × N × N) → Option (Nat × N × N)
  | [], _, acc => acc
  | r :: rs, i, acc => cleGo ir rs (i + 1) (cleStep ir i r acc)

/-- Source: `func (n *node[N,T]) chooseLeastEnlargement(ir) (index int)`.
On an empty list the source returns `-1`, which the caller would use to index
out of range; the model returns `0` on that dead path. -/
def chooseLeastEnlargement (l : List (rect N)) (ir : rect N) : Nat :=
  match cleGo ir l 0 none with
  | some (j, _, _) => j
  | none => 0

/-- One step of the containing-child scan of `nodeInsert` (with
`quickChooser = false`): accumulator `none` while `index == -1`, else
`(index, narea)`. -/
def containStep (ir : rect N) (i : Nat) (r : rect N) (acc : Option (Nat × N)) :
    Option (Nat × N) :=
  if r.contains ir then
    match acc with
    | none => some (i, r.area)
    | some (j, narea) =>
      if r.area < narea then some (i, r.area) else some (j, narea)
  else acc

/-- The containing-child loop of `nodeInsert` over the remaining rects, `i`
being the index of the head. -/
def containScan (ir : rect N) : List (rect N) → Nat → Option (Nat × N) → Option (Nat × N)
  | [], _, acc => acc
  | r :: rs, i, acc => containScan ir rs (i + 1) (containStep ir i r acc)

/-- The subtree choice of `nodeInsert` at a branch: first scan for containing
children (smallest area, first occurrence), else least enlargement. -/
def chooseIdx (rects : List (rect N)) (ir : rect N) : Nat :=
  match containScan ir rects 0 none with
  | some (i, _) => i
  | none => chooseLeastEnlargement rects ir

/-- `node.sort()`: quicksort the node's own entries by `min[0]`. -/
def node.sortTop : node N T → node N T
  | .leaf l => .leaf (sortMin0 l)
  | .branch l => .branch (sortMin0 l)

/-- The `if split` block of the branch case of `nodeInsert`: split the child
at `index₂` (full with `maxEntries` entries), store the recomputed left MBR in
its slot, insert the right sibling just after it, then restore the local
order: swap the pair if out of order and bubble the right one rightwards
(`orderBranches` path; otherwise the sibling is appended at the end). -/
def splitFixup (cs₂ : List (rect N × node N T)) (index₂ : Nat) :
    List (rect N × node N T) :=
  match cs₂[index₂]? with
  | some (rL, left) =>
    let sp := splitNode rL left
    let cs' := cs₂.set index₂ (sp.1.rectOf, sp.1)
    if orderBranches then
      let cs'' := insertAt (index₂ + 1) (sp.2.rectOf, sp.2) cs'
      let cs''' :=
        match cs''[index₂]?, cs''[index₂ + 1]? with
        | some a, some b =>
          if a.1.min0 > b.1.min0 then swapAt cs'' (index₂ + 1) index₂ else cs''
        | _, _ => cs''
      (orderToRight cs''' (index₂ + 1)).1
    else cs' ++ [(sp.2.rectOf, sp.2)]
  | none => cs₂

/-- Source: `func (tr *RTreeG2[N,T]) nodeInsert(nr, cn, ir, data) (grown)`.
`nr` is the parent-stored rect of `n`; the result is the updated node and the
`grown` flag.  The `cowLoad` at entry only manages physical sharing and has no
logical effect. -/
def nodeInsert : rect N → node N T → rect N → T → node N T × Bool
  | nr, .leaf l, ir, data =>
    let index := if orderLeaves then rsearch ir.min0 l else l.length
    (.leaf (insertAt index (ir, data) l), !(nr.contains ir))
  | nr, .branch cs, ir, data =>
    let index := chooseIdx (rectsOf cs) ir
    if h : index < cs.length then
      let c := cs.get ⟨index, h⟩
      let res := nodeInsert c.1 c.2 ir data
      let split := res.1.length == maxEntries
      let st :=
        if res.2 then
          let cs₁ := cs.set index (c.1.expand ir, res.1)
          let ol := if orderBranches then orderToLeft cs₁ index else (cs₁, index)
          (ol.1, ol.2, !(nr.contains ir))
        else (cs.set index (c.1, res.1), index, false)
      let final := if split then splitFixup st.1 st.2.1 else st.1
      (.branch final, st.2.2)
    else (.branch cs, false)
termination_by _ n _ _ => sizeOf n
decreasing_by
  have h1 : sizeOf (cs.get ⟨chooseIdx (rectsOf cs) ir, h⟩) < sizeOf cs :=
    List.sizeOf_lt_of_mem (List.get_mem cs _ h)
  have h2 : sizeOf (cs.get ⟨chooseIdx (rectsOf cs) ir, h⟩).2 <
      sizeOf (cs.get ⟨chooseIdx (rectsOf cs) ir, h⟩) := by
    rcases cs.get ⟨chooseIdx (rectsOf cs) ir, h⟩ with ⟨cr, cn⟩
    simp
  simp only [List.get_eq_getElem] at h1 h2
  simp
  omega

/-- Source: `type RTreeG2[N number, T any] struct`.  The `cow` version tag and
the `empty T` zero value are omitted: the former only controls physical
sharing, the latter only refills vacated array slots, which the list model
drops. -/
structure RTreeG2 (N : Type) (T : Type) where
  count : Int
  rect : rect N
  root : Option (node N T)

/-- The Go zero value `RTreeG2[N,T]{}`: a fresh empty tree. -/
def emptyTree : RTreeG2 N T := ⟨0, zeroRect, none⟩

/-- All stored entries of the tree in traversal order. -/
def treeEntries (tr : RTreeG2 N T) : List (rect N × T) :=
  match tr.root with
  | none => []
  | some r => Entries r

namespace RTreeG2

/-- Source: `func (tr *RTreeG2[N,T]) Len() int`. -/
def Len (tr : RTreeG2 N T) : Int := tr.count

/-- Source: `func (tr *RTreeG2[N,T]) Bounds() (min, max [2]N)`, returned as
the rect `{min, max}`. -/
def Bounds (tr : RTreeG2 N T) : RTree.rect N := tr.rect

/-- Source: `func (tr *RTreeG2[N,T]) Copy() *RTreeG2[N,T]`.  The clone shares
the root, count and rect; the two fresh `cow` tags it assigns govern physical
sharing only, so the logical clone is the tree itself. -/
def Copy (tr : RTreeG2 N T) : RTreeG2 N T := tr

/-- Source: `func (tr *RTreeG2[N,T]) Insert(min, max [2]N, data T)` with
`ir = rect{min, max}`. -/
def Insert (tr : RTreeG2 N T) (ir : RTree.rect N) (data : T) : RTreeG2 N T :=
  let st :=
    match tr.root with
    | none => ((node.leaf ([] : List (RTree.rect N × T))), ir)
    | some r => (r, tr.rect)
  let ins := nodeInsert st.2 st.1 ir data
  let grown := ins.2
  let split := ins.1.length == maxEntries
  let rect₁ := if grown then st.2.expand ir else st.2
  let root₁ :=
    if split then
      let sp := splitNode rect₁ ins.1
      node.branch [(sp.1.rectOf, sp.1), (sp.2.rectOf, sp.2)]
    else ins.1
  let root₂ :=
    if orderBranches && !root₁.isLeaf && (grown || split) then root₁.sortTop else root₁
  { count := tr.count + 1, rect := rect₁, root := some root₂ }

end RTreeG2

/-- Source: `func compare[T any](a, b T) bool`: Go boxes both payloads into
`interface{}` and applies `==`; modelled as decidable value equality. -/
def compare (a b : T) : Bool := decide (a = b)

/-- The leaf scan of `nodeDelete`: the first entry whose rect is contained in
`ir` and whose payload equals `data`, split as (prefix, entry, suffix). -/
def findRemove (ir : rect N) (data : T) :
    List (rect N × T) → Option (List (rect N × T) × (rect N × T) × List (rect N × T))
  | [] => none
  | e :: es =>
    if ir.contains e.1 && compare e.2 data then some ([], e, es)
    else
      match findRemove ir data es with
      | none => none
      | some (pre, x, post) => some (e :: pre, x, post)

mutual

/-- Source: `func (tr *RTreeG2[N,T]) nodeDelete(nr, cn, ir, data, reinsert)
(removed, shrunk bool)`.  The result bundles the updated `*nr`, the updated
node, `removed`, `shrunk`, and the nodes appended to `*reinsert`.  With
`orderLeaves`/`orderBranches` true, removal shifts the tail left. -/
def nodeDelete (nr : rect N) (n : node N T) (ir : rect N) (data : T) :
    rect N × node N T × Bool × Bool × List (node N T) :=
  match n with
  | .leaf l =>
    match findRemove ir data l with
    | none => (nr, .leaf l, false, false, [])
    | some (pre, _, post) =>
      let shrunk := ir.onedge nr
      let nr₁ := if shrunk then nrect (rectsOf (pre ++ post)) else nr
      (nr₁, .leaf (pre ++ post), true, shrunk, [])
  | .branch cs => nodeDeleteGo nr ir data [] cs

/-- The branch loop of `nodeDelete`: `pre` holds the slots already passed,
`rest` the ones still to scan (`i = pre.length`). -/
def nodeDeleteGo (nr : rect N) (ir : rect N) (data : T)
    (pre rest : List (rect N × node N T)) :
    rect N × node N T × Bool × Bool × List (node N T) :=
  match rest with
  | [] => (nr, .branch pre, false, false, [])
  | c :: rest₁ =>
    if c.1.contains ir then
      let res := nodeDelete c.1 c.2 ir data
      if res.2.2.1 then
        let child := res.2.1
        let rs := res.2.2.2.2
        if child.length < minEntries then
          let cs₁ := pre ++ rest₁
          (nrect (rectsOf cs₁), .branch cs₁, true, true, rs ++ [child])
        else
          if res.2.2.2.1 then
            let shrunk₂ := !(res.1.equals c.1)
            let cs₁ := pre ++ (res.1, child) :: rest₁
            let nr₁ := if shrunk₂ then nrect (rectsOf cs₁) else nr
            let cs₂ := if orderBranches then (orderToRight cs₁ pre.length).1 else cs₁
            (nr₁, .branch cs₂, true, shrunk₂, rs)
          else
            (nr, .branch (pre ++ (res.1, child) :: rest₁), true, false, rs)
      else nodeDeleteGo nr ir data (pre ++ [c]) rest₁
    else nodeDeleteGo nr ir data (pre ++ [c]) rest₁

end

/-- The root-collapse loop of `delete`:
`for !tr.root.leaf() && tr.root.count == 1 { tr.root = children[0] }`. -/
def collapseRoot : node N T → node N T
  | .branch [c] => collapseRoot c.2
  | n => n

mutual

/-- Source: `func (tr *RTreeG2[N,T]) nodeReinsert(n)`: insert every leaf
entry below `n` through `Insert`, in traversal order. -/
def nodeReinsert (tr : RTreeG2 N T) : node N T → RTreeG2 N T
  | .leaf l => l.foldl (fun acc e => acc.Insert e.1 e.2) tr
  | .branch cs => nodeReinsertL tr cs

/-- `nodeReinsert` folded over a branch's children, in order. -/
def nodeReinsertL (tr : RTreeG2 N T) : List (rect N × node N T) → RTreeG2 N T
  | [] => tr
  | c :: cs => nodeReinsertL (nodeReinsert tr c.2) cs

end

namespace RTreeG2

/-- Source: `func (tr *RTreeG2[N,T]) delete(min, max [2]N, data T) bool` with
`ir = rect{min, max}`; result is the updated tree and the removal flag. -/
def delete (tr : RTreeG2 N T) (ir : RTree.rect N) (data : T) : RTreeG2 N T × Bool :=
  match tr.root with
  | none => (tr, false)
  | some root =>
    if !(tr.rect.contains ir) then (tr, false)
    else
      let res := nodeDelete tr.rect root ir data
      if !res.2.2.1 then ({ count := tr.count, rect := res.1, root := some res.2.1 }, false)
      else
        let reinsert := res.2.2.2.2
        let count₁ := tr.count - 1 - (reinsert.map (fun n => (deepCount n : Int))).sum
        let tr₁ :=
          if count₁ = 0 then
            ({ count := count₁, rect := zeroRect, root := none } : RTreeG2 N T)
          else
            { count := count₁, rect := res.1, root := some (collapseRoot res.2.1) }
        (reinsert.foldl nodeReinsert tr₁, true)

/-- Source: `func (tr *RTreeG2[N,T]) Delete(min, max [2]N, data T)`. -/
def Delete (tr : RTreeG2 N T) (ir : RTree.rect N) (data : T) : RTreeG2 N T :=
  (tr.delete ir data).1

/-- Source: `func (tr *RTreeG2[N,T]) Replace(...)`: delete the old entry and,
iff that succeeded, insert the new one. -/
def Replace (tr : RTreeG2 N T) (oldR : RTree.rect N) (oldData : T)
    (newR : RTree.rect N) (newData : T) : RTreeG2 N T :=
  let d := tr.delete oldR oldData
  if d.2 then d.1.Insert newR newData else d.1

end RTreeG2

/-- The leaf iteration of `node.search`: visit each entry whose rect
intersects the target until the visitor returns false; the result collects
the entries passed to `iter` in call order, with the continue flag. -/
def visitLeaf (target : rect N) (p : rect N → T → Bool) :
    List (rect N × T) → List (rect N × T) × Bool
  | [] => ([], true)
  | e :: es =>
    if e.1.intersects target then
      if p e.1 e.2 then
        let v := visitLeaf target p es
        (e :: v.1, v.2)
      else ([e], false)
    else visitLeaf target p es

mutual

/-- Source: `func (n *node[N,T]) search(target, iter) bool`, instrumented to
return the entries passed to `iter` in call order next to the returned
continue flag. -/
def searchNode (target : rect N) (p : rect N → T → Bool) :
    node N T → List (rect N × T) × Bool
  | .leaf l => visitLeaf target p l
  | .branch cs => searchKids target p cs

/-- The branch iteration of `node.search` over the remaining children. -/
def searchKids (target : rect N) (p : rect N → T → Bool) :
    List (rect N × node N T) → List (rect N × T) × Bool
  | [] => ([], true)
  | c :: cs =>
    if target.intersects c.1 then
      let v := searchNode target p c.2
      if v.2 then
        let w := searchKids target p cs
        (v.1 ++ w.1, w.2)
      else (v.1, false)
    else searchKids target p cs

end

/-- The leaf iteration of `node.scan`: every entry is visited until the
visitor declines. -/
def scanLeaf (p : rect N → T → Bool) :
    List (rect N × T) → List (rect N × T) × Bool
  | [] => ([], true)
  | e :: es =>
    if p e.1 e.2 then
      let v := scanLeaf p es
      (e :: v.1, v.2)
    else ([e], false)

mutual

/-- Source: `func (n *node[N,T]) scan(iter) bool`, instrumented like
`searchNode`. -/
def scanNode (p : rect N → T → Bool) : node N T → List (rect N × T) × Bool
  | .leaf l => scanLeaf p l
  | .branch cs => scanKids p cs

/-- The branch iteration of `node.scan`. -/
def scanKids (p : rect N → T → Bool) :
    List (rect N × node N T) → List (rect N × T) × Bool
  | [] => ([], true)
  | c :: cs =>
    if (scanNode p c.2).2 then
      ((scanNode p c.2).1 ++ (scanKids p cs).1, (scanKids p cs).2)
    else ((scanNode p c.2).1, false)

end

namespace RTreeG2

/-- Source: `func (tr *RTreeG2[N,T]) Search(min, max, iter)`, instrumented to
return the entries passed to `iter`. -/
def Search (tr : RTreeG2 N T) (target : RTree.rect N)
    (p : RTree.rect N → T → Bool) : List (RTree.rect N × T) :=
  match tr.root with
  | none => []
  | some root => if target.intersects tr.rect then (searchNode target p root).1 else []

/-- Source: `func (tr *RTreeG2[N,T]) Scan(iter)`, instrumented to return the
entries passed to `iter`. -/
def Scan (tr : RTreeG2 N T) (p : RTree.rect N → T → Bool) : List (RTree.rect N × T) :=
  match tr.root with
  | none => []
  | some root => (scanNode p root).1

end RTreeG2

theorem minEntries_eq : minEntries = 6 := rfl

theorem maxEntries_eq : maxEntries = 64 := rfl

theorem entriesL_append (l₁ l₂ : List (rect N × node N T)) :
    entriesL (l₁ ++ l₂) = entriesL l₁ ++ entriesL l₂ := by
  induction l₁ with
  | nil => simp [entriesL]
  | cons c cs ih => simp [entriesL, ih]

theorem entriesL_perm {cs cs' : List (rect N × node N T)} (h : cs.Perm cs') :
    (entriesL cs).Perm (entriesL cs') := by
  induction h with
  | nil => exact List.Perm.refl _
  | cons x _ ih =>
    rw [entriesL, entriesL]
    exact ih.append_left (Entries x.2)
  | swap x y l =>
    rw [entriesL, entriesL, entriesL, entriesL, ← List.append_assoc, ← List.append_assoc]
    exact (List.perm_append_comm.append_right (entriesL l))
  | trans _ _ ih₁ ih₂ => exact ih₁.trans ih₂

mutual

theorem deepCount_eq (n : node N T) : deepCount n = (Entries n).length := by
  match n with
  | .leaf l => rw [deepCount, Entries]
  | .branch cs => rw [deepCount, Entries]; exact deepCountL_eq cs

theorem deepCountL_eq (cs : List (rect N × node N T)) :
    deepCountL cs = (entriesL cs).length := by
  match cs with
  | [] => rw [deepCountL, entriesL]; rfl
  | c :: cs =>
    rw [deepCountL, entriesL, List.length_append, deepCount_eq c.2, deepCountL_eq cs]

end

theorem scanLeaf_true (l : List (rect N × T)) :
    scanLeaf (fun _ _ => true) l = (l, true) := by
  induction l with
  | nil => rw [scanLeaf]
  | cons e es ih => rw [scanLeaf, ih]; simp

mutual

theorem scanNode_true (n : node N T) : scanNode (fun _ _ => true) n = (Entries n, true) := by
  match n with
  | .leaf l => rw [scanNode, Entries]; exact scanLeaf_true l
  | .branch cs => rw [scanNode, Entries]; exact scanKids_true cs

theorem scanKids_true (cs : List (rect N × node N T)) :
    scanKids (fun _ _ => true) cs = (entriesL cs, true) := by
  match cs with
  | [] => rw [scanKids, entriesL]
  | c :: cs =>
    rw [scanKids, entriesL, scanNode_true c.2, scanKids_true cs]
    simp

end

theorem moveTailUntil_spec (src into : List (rect N × α)) :
    ((moveTailUntil src into).1 ++ (moveTailUntil src into).2).Perm (src ++ into) ∧
    (moveTailUntil src into).2.length =
      max into.length (min minEntries (into.length + src.length)) ∧
    (moveTailUntil src into).1.length + (moveTailUntil src into).2.length =
      src.length + into.length := by
  induction src, into using moveTailUntil.induct with
  | case1 src into h ih =>
    rw [moveTailUntil, dif_pos h]
    obtain ⟨ihp, ihl, ihs⟩ := ih
    have hsrc : src.dropLast ++ [src.getLast (List.length_pos.mp h.2)] = src :=
      List.dropLast_append_getLast _
    have hlen : src.dropLast.length = src.length - 1 := List.length_dropLast src
    refine ⟨?_, ?_, ?_⟩
    · refine ihp.trans ?_
      calc src.dropLast ++ (into ++ [src.getLast (List.length_pos.mp h.2)])
          |>.Perm (src.dropLast ++ ([src.getLast (List.length_pos.mp h.2)] ++ into)) :=
            List.Perm.append_left _ List.perm_append_comm
        _ = (src.dropLast ++ [src.getLast (List.length_pos.mp h.2)]) ++ into := by
            rw [List.append_assoc]
        _ = src ++ into := by rw [hsrc]
    · rw [ihl]
      simp only [List.length_append, List.length_singleton, hlen]
      have h1 := h.1
      have h2 := h.2
      rw [minEntries_eq] at *
      omega
    · rw [ihs]
      simp only [List.length_append, List.length_singleton, hlen]
      have h2 := h.2
      omega
  | case2 src into h =>
    rw [moveTailUntil, dif_neg h]
    rw [not_and_or] at h
    refine ⟨List.Perm.refl _, ?_, rfl⟩
    show into.length = max into.length (min minEntries (into.length + src.length))
    rw [minEntries_eq]
    rcases h with h | h
    · push_neg at h
      rw [minEntries_eq] at h
      omega
    · push_neg at h
      omega

/-- The two sides of `splitEntries` on a full node: a partition of the 64
entries with both counts in `[minEntries, 58]`, each side sorted by
`min[0]`. -/
theorem splitEntries_spec (isleaf : Bool) (r : rect N) (l : List (rect N × α))
    (h64 : l.length = 64) :
    ((splitEntries isleaf r l).1 ++ (splitEntries isleaf r l).2).Perm l ∧
    minEntries ≤ (splitEntries isleaf r l).1.length ∧
    (splitEntries isleaf r l).1.length ≤ 58 ∧
    minEntries ≤ (splitEntries isleaf r l).2.length ∧
    (splitEntries isleaf r l).2.length ≤ 58 ∧
    sortedMin0 (splitEntries isleaf r l).1 ∧ sortedMin0 (splitEntries isleaf r l).2 := by
  rw [splitEntries]
  have hcond : (orderBranches && !isleaf || orderLeaves && isleaf) = true := by
    cases isleaf <;> rfl
  rw [if_pos hcond]
  set axis := r.largestAxis with haxis
  set dist := l.partition
    (fun e => e.1.minAx axis - r.minAx axis < r.maxAx axis - e.1.maxAx axis) with hdist
  have hdp : (dist.1 ++ dist.2).Perm l := by
    rw [hdist, List.partition_eq_filter_filter]
    exact List.filter_append_perm _ l
  have hdl : dist.1.length + dist.2.length = 64 := by
    have := hdp.length_eq
    simp only [List.length_append] at this
    omega
  set rep :=
    if dist.1.length < minEntries then
      Prod.swap (moveTailUntil (qsortBy (ltRevAx false axis) dist.2) dist.1)
    else if dist.2.length < minEntries then
      moveTailUntil (qsortBy (ltRevAx true axis) dist.1) dist.2
    else dist with hrep
  have hrepspec : (rep.1 ++ rep.2).Perm l ∧ minEntries ≤ rep.1.length ∧
      rep.1.length ≤ 58 ∧ minEntries ≤ rep.2.length ∧ rep.2.length ≤ 58 := by
    rw [hrep]
    by_cases h₁ : dist.1.length < minEntries
    · rw [if_pos h₁]
      simp only [Prod.fst_swap, Prod.snd_swap]
      obtain ⟨hp, hl2, hls⟩ := moveTailUntil_spec (qsortBy (ltRevAx false axis) dist.2) dist.1
      have hq : (qsortBy (ltRevAx false axis) dist.2).length = dist.2.length :=
        (qsortBy_perm _ _).length_eq
      have hperm : ((moveTailUntil (qsortBy (ltRevAx false axis) dist.2) dist.1).2 ++
          (moveTailUntil (qsortBy (ltRevAx false axis) dist.2) dist.1).1).Perm l := by
        refine List.perm_append_comm.trans ?_
        refine hp.trans ?_
        refine (List.Perm.append (qsortBy_perm _ _) (List.Perm.refl _)).trans ?_
        exact List.perm_append_comm.trans hdp
      refine ⟨hperm, ?_, ?_, ?_, ?_⟩ <;>
        · rw [minEntries_eq] at *
          rw [hq] at hl2 hls
          omega
    · rw [if_neg h₁]
      by_cases h₂ : dist.2.length < minEntries
      · rw [if_pos h₂]
        obtain ⟨hp, hl2, hls⟩ := moveTailUntil_spec (qsortBy (ltRevAx true axis) dist.1) dist.2
        have hq : (qsortBy (ltRevAx true axis) dist.1).length = dist.1.length :=
          (qsortBy_perm _ _).length_eq
        have hperm : ((moveTailUntil (qsortBy (ltRevAx true axis) dist.1) dist.2).1 ++
            (moveTailUntil (qsortBy (ltRevAx true axis) dist.1) dist.2).2).Perm l := by
          refine hp.trans ?_
          refine (List.Perm.append (qsortBy_perm _ _) (List.Perm.refl _)).trans hdp
        refine ⟨hperm, ?_, ?_, ?_, ?_⟩ <;>
          · rw [minEntries_eq] at *
            rw [hq] at hl2 hls
            omega
      · rw [if_neg h₂]
        rw [minEntries_eq] at *
        exact ⟨hdp, by omega, by omega, by omega, by omega⟩
  obtain ⟨hrp, ha, hb, hc, hd⟩ := hrepspec
  have hleft : (if issorted rep.1 then rep.1 else sortMin0 rep.1).Perm rep.1 := by
    split
    · exact List.Perm.refl _
    · exact sortMin0_perm rep.1
  have hleftS : sortedMin0 (if issorted rep.1 then rep.1 else sortMin0 rep.1) := by
    split
    · rename_i hs
      exact (issorted_iff rep.1).mp hs
    · exact sortMin0_sorted rep.1
  refine ⟨?_, ?_, ?_, ?_, ?_, hleftS, sortMin0_sorted rep.2⟩
  · exact (List.Perm.append hleft (sortMin0_perm rep.2)).trans hrp
  · rw [hleft.length_eq]; exact ha
  · rw [hleft.length_eq]; exact hb
  · rw [(sortMin0_perm rep.2).length_eq]; exact hc
  · rw [(sortMin0_perm rep.2).length_eq]; exact hd

/-- Invariant of the containing-child scan of `nodeInsert` after the rects in
`pre` have been processed: `none` while no child contains `ir`; otherwise the
first index of minimal area among the containing children seen so far. -/
def containInv (ir : rect N) (pre : List (rect N)) : Option (Nat × N) → Prop
  | none => ∀ (k : Nat) (x : rect N), pre[k]? = some x → x.contains ir = false
  | some (j, narea) =>
    ∃ x : rect N, pre[j]? = some x ∧ x.contains ir = true ∧ narea = x.area ∧
      (∀ (k : Nat) (y : rect N), pre[k]? = some y → y.contains ir = true → narea ≤ y.area) ∧
      (∀ (k : Nat) (y : rect N), k < j → pre[k]? = some y → y.contains ir = true →
        narea < y.area)

theorem getElem?_append_left_of_lt {l₁ l₂ : List α} {k : Nat} (h : k < l₁.length) :
    (l₁ ++ l₂)[k]? = l₁[k]? := by
  rw [List.getElem?_append, if_pos h]

theorem getElem?_snoc_cases {pre : List α} {r x : α} {k : Nat}
    (h : (pre ++ [r])[k]? = some x) :
    pre[k]? = some x ∨ (k = pre.length ∧ x = r) := by
  rcases Nat.lt_or_ge k pre.length with hk | hk
  · rw [getElem?_append_left_of_lt hk] at h
    exact Or.inl h
  · rcases Nat.eq_or_lt_of_le hk with hk | hk
    · subst hk
      have hr : (pre ++ [r])[pre.length]? = some r := by
        have := getElem?_append_cons_length pre ([] : List α) r
        simpa using this
      rw [hr] at h
      cases h
      exact Or.inr ⟨rfl, rfl⟩
    · rw [List.getElem?_eq_none (by simpa using hk)] at h
      cases h

theorem containStep_inv (ir : rect N) (pre : List (rect N)) (r : rect N)
    (acc : Option (Nat × N)) (h : containInv ir pre acc) :
    containInv ir (pre ++ [r]) (containStep ir pre.length r acc) := by
  have hr1 : (pre ++ [r])[pre.length]? = some r := by
    have := getElem?_append_cons_length pre ([] : List (rect N)) r
    simpa using this
  rw [containStep.eq_def]
  by_cases hc : r.contains ir = true
  · rw [if_pos hc]
    match acc, h with
    | none, h =>
      refine ⟨r, hr1, hc, rfl, ?_, ?_⟩
      · intro k y hky hcy
        rcases getElem?_snoc_cases hky with hky | ⟨hk, rfl⟩
        · exact absurd hcy (by rw [h k y hky]; simp)
        · exact le_refl _
      · intro k y hkj hky hcy
        rcases getElem?_snoc_cases hky with hky | ⟨hk, rfl⟩
        · exact absurd hcy (by rw [h k y hky]; simp)
        · omega
    | some (j, narea), h =>
      obtain ⟨x, hxj, hxc, hxa, hmin, hfirst⟩ := h
      have hjlt : j < pre.length := (List.getElem?_eq_some.mp hxj).1
      show containInv ir (pre ++ [r])
        (if r.area < narea then some (pre.length, r.area) else some (j, narea))
      by_cases hlt : r.area < narea
      · rw [if_pos hlt]
        refine ⟨r, hr1, hc, rfl, ?_, ?_⟩
        · intro k y hky hcy
          rcases getElem?_snoc_cases hky with hky | ⟨hk, rfl⟩
          · exact le_trans hlt.le (hmin k y hky hcy)
          · exact le_refl _
        · intro k y hkj hky hcy
          rcases getElem?_snoc_cases hky with hky | ⟨hk, rfl⟩
          · exact lt_of_lt_of_le hlt (hmin k y hky hcy)
          · omega
      · rw [if_neg hlt]
        refine ⟨x, by rw [getElem?_append_left_of_lt hjlt]; exact hxj, hxc, hxa, ?_, ?_⟩
        · intro k y hky hcy
          rcases getElem?_snoc_cases hky with hky | ⟨hk, rfl⟩
          · exact hmin k y hky hcy
          · exact le_of_not_lt hlt
        · intro k y hkj hky hcy
          have hk : k < pre.length := lt_trans hkj hjlt
          rw [getElem?_append_left_of_lt hk] at hky
          exact hfirst k y hkj hky hcy
  · rw [if_neg hc]
    match acc, h with
    | none, h =>
      intro k y hky
      rcases getElem?_snoc_cases hky with hky | ⟨hk, rfl⟩
      · exact h k y hky
      · simpa using hc
    | some (j, narea), h =>
      obtain ⟨x, hxj, hxc, hxa, hmin, hfirst⟩ := h
      have hjlt : j < pre.length := (List.getElem?_eq_some.mp hxj).1
      refine ⟨x, by rw [getElem?_append_left_of_lt hjlt]; exact hxj, hxc, hxa, ?_, ?_⟩
      · intro k y hky hcy
        rcases getElem?_snoc_cases hky with hky | ⟨hk, rfl⟩
        · exact hmin k y hky hcy
        · exact absurd hcy (by simpa using hc)
      · intro k y hkj hky hcy
        have hk : k < pre.length := lt_trans hkj hjlt
        rw [getElem?_append_left_of_lt hk] at hky
        exact hfirst k y hkj hky hcy

theorem containScan_inv (ir : rect N) (l : List (rect N)) :
    ∀ (pre : List (rect N)) (acc : Option (Nat × N)), containInv ir pre acc →
      containInv ir (pre ++ l) (containScan ir l pre.length acc) := by
  induction l with
  | nil =>
    intro pre acc h
    rw [containScan]
    simpa using h
  | cons r rs ih =>
    intro pre acc h
    rw [containScan]
    have hstep := containStep_inv ir pre r acc h
    have hgoal := ih (pre ++ [r]) _ hstep
    have hlen : (pre ++ [r]).length = pre.length + 1 := by simp
    rw [hlen] at hgoal
    have happ : pre ++ r :: rs = (pre ++ [r]) ++ rs := by simp
    rw [happ]
    exact hgoal

/-- Invariant of the `chooseLeastEnlargement` loop after processing `pre`:
the accumulator holds a lexicographic minimum of (enlargement, area), first
occurrence. -/
def cleInv (ir : rect N) (pre : List (rect N)) : Option (Nat × N × N) → Prop
  | none => pre = []
  | some (j, jenlargement, jarea) =>
    ∃ x : rect N, pre[j]? = some x ∧ jenlargement = x.unionedArea ir - x.area ∧
      jarea = x.area ∧
      (∀ (k : Nat) (y : rect N), pre[k]? = some y →
        jenlargement < y.unionedArea ir - y.area ∨
        (jenlargement = y.unionedArea ir - y.area ∧ jarea ≤ y.area))

theorem cleStep_inv (ir : rect N) (pre : List (rect N)) (r : rect N)
    (acc : Option (Nat × N × N)) (h : cleInv ir pre acc) :
    cleInv ir (pre ++ [r]) (cleStep ir pre.length r acc) := by
  have hr1 : (pre ++ [r])[pre.length]? = some r := by
    have := getElem?_append_cons_length pre ([] : List (rect N)) r
    simpa using this
  match acc, h with
  | none, h =>
    rw [cleStep]
    subst h
    refine ⟨r, hr1, rfl, rfl, ?_⟩
    intro k y hky
    rcases getElem?_snoc_cases hky with hky | ⟨hk, rfl⟩
    · simp at hky
    · exact Or.inr ⟨rfl, le_refl _⟩
  | some (j, jenlargement, jarea), h =>
    obtain ⟨x, hxj, hxe, hxa, hmin⟩ := h
    have hjlt : j < pre.length := (List.getElem?_eq_some.mp hxj).1
    rw [cleStep]
    by_cases hcond : r.unionedArea ir - r.area < jenlargement ∨
        (¬ r.unionedArea ir - r.area > jenlargement ∧ r.area < jarea)
    · rw [if_pos hcond]
      refine ⟨r, hr1, rfl, rfl, ?_⟩
      intro k y hky
      rcases getElem?_snoc_cases hky with hky | ⟨hk, rfl⟩
      · have hy := hmin k y hky
        rcases hcond with hlt | ⟨hle, harea⟩
        · rcases hy with hy | hy
          · exact Or.inl (lt_trans hlt hy)
          · exact Or.inl (lt_of_lt_of_le hlt (le_of_eq hy.1))
        · push_neg at hle
          rcases lt_or_eq_of_le hle with hlt | heq
          · rcases hy with hy | hy
            · exact Or.inl (lt_trans hlt hy)
            · exact Or.inl (lt_of_lt_of_le hlt (le_of_eq hy.1))
          · rcases hy with hy | hy
            · exact Or.inl (lt_of_le_of_lt (le_of_eq heq) hy)
            · exact Or.inr ⟨heq.trans hy.1, le_trans harea.le hy.2⟩
      · exact Or.inr ⟨rfl, le_refl _⟩
    · rw [if_neg hcond]
      push_neg at hcond
      refine ⟨x, by rw [getElem?_append_left_of_lt hjlt]; exact hxj, hxe, hxa, ?_⟩
      intro k y hky
      rcases getElem?_snoc_cases hky with hky | ⟨hk, rfl⟩
      · exact hmin k y hky
      · rcases lt_or_eq_of_le hcond.1 with hlt | heq
        · exact Or.inl hlt
        · refine Or.inr ⟨heq, ?_⟩
          rcases hcond.2 (le_of_eq heq.symm) with h2
          exact h2
  
theorem cleGo_inv (ir : rect N) (l : List (rect N)) :
    ∀ (pre : List (rect N)) (acc : Option (Nat × N × N)), cleInv ir pre acc →
      cleInv ir (pre ++ l) (cleGo ir l pre.length acc) := by
  induction l with
  | nil =>
    intro pre acc h
    rw [cleGo]
    simpa using h
  | cons r rs ih =>
    intro pre acc h
    rw [cleGo]
    have hstep := cleStep_inv ir pre r acc h
    have hgoal := ih (pre ++ [r]) _ hstep
    have hlen : (pre ++ [r]).length = pre.length + 1 := by simp
    rw [hlen] at hgoal
    have happ : pre ++ r :: rs = (pre ++ [r]) ++ rs := by simp
    rw [happ]
    exact hgoal

/-- `chooseLeastEnlargement` on a nonempty rect list picks an index whose
(enlargement, area) pair is a lexicographic minimum. -/
theorem chooseLeastEnlargement_spec (l : List (rect N)) (ir : rect N) (hne : l ≠ []) :
    ∃ x : rect N, l[chooseLeastEnlargement l ir]? = some x ∧
      ∀ (k : Nat) (y : rect N), l[k]? = some y →
        x.unionedArea ir - x.area < y.unionedArea ir - y.area ∨
        (x.unionedArea ir - x.area = y.unionedArea ir - y.area ∧ x.area ≤ y.area) := by
  have h := cleGo_inv ir l [] none rfl
  simp only [List.nil_append, List.length_nil] at h
  rw [chooseLeastEnlargement]
  rcases hgo : cleGo ir l 0 none with _ | ⟨j, jenlargement, jarea⟩
  · rw [hgo] at h
    exact absurd h hne
  · rw [hgo] at h
    obtain ⟨x, hxj, hxe, hxa, hmin⟩ := h
    refine ⟨x, hxj, ?_⟩
    intro k y hky
    have hy := hmin k y hky
    rw [hxe, hxa] at hy
    exact hy

/-- The subtree choice `chooseIdx` is in range on a nonempty child list. -/
theorem chooseIdx_lt (l : List (rect N)) (ir : rect N) (hne : l ≠ []) :
    chooseIdx l ir < l.length := by
  rw [chooseIdx]
  have h := containScan_inv ir l [] none (by intro k x hk; simp at hk)
  simp only [List.nil_append, List.length_nil] at h
  rcases hcs : containScan ir l 0 none with _ | ⟨j, narea⟩
  · rw [hcs] at h
    obtain ⟨x, hx, _⟩ := chooseLeastEnlargement_spec l ir hne
    exact (List.getElem?_eq_some.mp hx).1
  · rw [hcs] at h
    obtain ⟨x, hxj, _⟩ := h
    exact (List.getElem?_eq_some.mp hxj).1

mutual

/-- P1-tightness: in every branch, each stored rect equals the MBR of the
entries below its child, and every child holds at least one entry. -/
def tightB : node N T → Bool
  | .leaf _ => true
  | .branch cs => tightL cs

/-- `tightB` over a branch's child list. -/
def tightL : List (rect N × node N T) → Bool
  | [] => true
  | c :: cs =>
    (decide (c.1 = nrect (rectsOf (Entries c.2))) && !(Entries c.2).isEmpty && tightB c.2) &&
      tightL cs

end

mutual

/-- P5-order: every node's own entry list is non-decreasing by `min[0]`. -/
def allSortedB : node N T → Bool
  | .leaf l => issorted l
  | .branch cs => issorted cs && sortedKidsB cs

/-- `allSortedB` over a branch's child list. -/
def sortedKidsB : List (rect N × node N T) → Bool
  | [] => true
  | c :: cs => allSortedB c.2 && sortedKidsB cs

end

mutual

/-- Steady-state capacity: every node holds at most `maxEntries - 1`
entries. -/
def smallB : node N T → Bool
  | .leaf l => decide (l.length ≤ maxEntries - 1)
  | .branch cs => decide (cs.length ≤ maxEntries - 1) && smallKidsB cs

/-- `smallB` over a branch's child list. -/
def smallKidsB : List (rect N × node N T) → Bool
  | [] => true
  | c :: cs => smallB c.2 && smallKidsB cs

end

theorem tightL_iff (cs : List (rect N × node N T)) :
    tightL cs = true ↔ ∀ c ∈ cs,
      c.1 = nrect (rectsOf (Entries c.2)) ∧ Entries c.2 ≠ [] ∧ tightB c.2 = true := by
  induction cs with
  | nil => simp [tightL]
  | cons c cs ih =>
    rw [tightL]
    simp only [Bool.and_eq_true, decide_eq_true_eq, Bool.not_eq_true', List.mem_cons]
    constructor
    · rintro ⟨⟨⟨h1, h2⟩, h3⟩, h4⟩
      intro x hx
      rcases hx with rfl | hx
      · exact ⟨h1, by simpa using h2, h3⟩
      · exact (ih.mp h4) x hx
    · intro h
      obtain ⟨h1, h2, h3⟩ := h c (Or.inl rfl)
      exact ⟨⟨⟨h1, by simpa using h2⟩, h3⟩, ih.mpr (fun x hx => h x (Or.inr hx))⟩

theorem sortedKidsB_iff (cs : List (rect N × node N T)) :
    sortedKidsB cs = true ↔ ∀ c ∈ cs, allSortedB c.2 = true := by
  induction cs with
  | nil => simp [sortedKidsB]
  | cons c cs ih =>
    rw [sortedKidsB]
    simp only [Bool.and_eq_true, List.mem_cons]
    constructor
    · rintro ⟨h1, h2⟩ x hx
      rcases hx with rfl | hx
      · exact h1
      · exact (ih.mp h2) x hx
    · intro h
      exact ⟨h c (Or.inl rfl), ih.mpr (fun x hx => h x (Or.inr hx))⟩

theorem smallKidsB_iff (cs : List (rect N × node N T)) :
    smallKidsB cs = true ↔ ∀ c ∈ cs, smallB c.2 = true := by
  induction cs with
  | nil => simp [smallKidsB]
  | cons c cs ih =>
    rw [smallKidsB]
    simp only [Bool.and_eq_true, List.mem_cons]
    constructor
    · rintro ⟨h1, h2⟩ x hx
      rcases hx with rfl | hx
      · exact h1
      · exact (ih.mp h2) x hx
    · intro h
      exact ⟨h c (Or.inl rfl), ih.mpr (fun x hx => h x (Or.inr hx))⟩

theorem allSortedB_branch_iff (cs : List (rect N × node N T)) :
    allSortedB (.branch cs) = true ↔ sortedMin0 cs ∧ ∀ c ∈ cs, allSortedB c.2 = true := by
  rw [allSortedB, Bool.and_eq_true, issorted_iff, sortedKidsB_iff]

theorem tightB_branch_iff (cs : List (rect N × node N T)) :
    tightB (.branch cs) = true ↔ ∀ c ∈ cs,
      c.1 = nrect (rectsOf (Entries c.2)) ∧ Entries c.2 ≠ [] ∧ tightB c.2 = true := by
  rw [tightB, tightL_iff]

theorem smallB_branch_iff (cs : List (rect N × node N T)) :
    smallB (.branch cs) = true ↔ cs.length ≤ maxEntries - 1 ∧ ∀ c ∈ cs, smallB c.2 = true := by
  rw [smallB, Bool.and_eq_true, decide_eq_true_eq, smallKidsB_iff]

theorem entriesL_ne_nil {cs : List (rect N × node N T)} (ht : tightL cs = true)
    (hne : cs ≠ []) : entriesL cs ≠ [] := by
  cases cs with
  | nil => exact absurd rfl hne
  | cons c cs =>
    rw [entriesL]
    obtain ⟨_, h2, _⟩ := (tightL_iff _).mp ht c (List.mem_cons_self _ _)
    simp only [ne_eq, List.append_eq_nil]
    intro hc
    exact h2 hc.1

theorem rectsOf_ne_nil {l : List (rect N × α)} (h : l ≠ []) : rectsOf l ≠ [] := by
  rw [rectsOf]
  simpa using h

theorem rectsOf_cons (c : rect N × α) (l : List (rect N × α)) :
    rectsOf (c :: l) = c.1 :: rectsOf l := rfl

theorem rectsOf_append (l₁ l₂ : List (rect N × α)) :
    rectsOf (l₁ ++ l₂) = rectsOf l₁ ++ rectsOf l₂ := by
  simp [rectsOf]

/-- For a tight branch, the MBR of the stored child rects equals the MBR of
all entry rects below. -/
theorem nrect_top_eq {cs : List (rect N × node N T)} (ht : tightL cs = true)
    (hne : cs ≠ []) :
    nrect (rectsOf cs) = nrect (rectsOf (entriesL cs)) := by
  induction cs with
  | nil => exact absurd rfl hne
  | cons c cs ih =>
    obtain ⟨h1, h2, h3⟩ := (tightL_iff _).mp ht c (List.mem_cons_self _ _)
    have ht2 : tightL cs = true := by
      rw [tightL_iff]
      intro x hx
      exact (tightL_iff _).mp ht x (List.mem_cons_of_mem _ hx)
    cases cs with
    | nil =>
      have hl : nrect (rectsOf [c]) = c.1 := rfl
      rw [hl, entriesL, entriesL, List.append_nil, h1]
    | cons d ds =>
      rw [entriesL, rectsOf_cons, nrect_cons_ne c.1 (rectsOf_ne_nil (by simp)),
        ih ht2 (by simp), h1, rectsOf_append,
        nrect_append (rectsOf_ne_nil h2) (rectsOf_ne_nil (entriesL_ne_nil ht2 (by simp)))]

theorem set_append_cons (xs ys : List α) (c e : α) :
    (xs ++ c :: ys).set xs.length e = xs ++ e :: ys := by
  induction xs with
  | nil => rfl
  | cons x xs ih =>
    show x :: (xs ++ c :: ys).set xs.length e = x :: (xs ++ e :: ys)
    rw [ih]

theorem insertAt_append_succ (xs ys : List α) (b a : α) :
    insertAt (xs.length + 1) a (xs ++ b :: ys) = xs ++ b :: a :: ys := by
  induction xs with
  | nil => cases ys <;> rfl
  | cons x xs ih =>
    show x :: insertAt (xs.length + 1) a (xs ++ b :: ys) = x :: (xs ++ b :: a :: ys)
    rw [ih]

/-- `smallB` restricted to the strict subnodes. -/
def subSmallB : node N T → Bool
  | .leaf _ => true
  | .branch cs => smallKidsB cs

/-- `allSortedB` restricted to the strict subnodes. -/
def subSortedB : node N T → Bool
  | .leaf _ => true
  | .branch cs => sortedKidsB cs

theorem node_length_leaf (l : List (rect N × T)) : (node.leaf l : node N T).length = l.length := rfl

theorem node_length_branch (cs : List (rect N × node N T)) :
    (node.branch cs : node N T).length = cs.length := rfl

theorem Entries_leaf (l : List (rect N × T)) : Entries (node.leaf l) = l := rfl

theorem Entries_branch (cs : List (rect N × node N T)) :
    Entries (node.branch cs) = entriesL cs := rfl

theorem smallB_eq (n : node N T) :
    smallB n = (decide (n.length ≤ maxEntries - 1) && subSmallB n) := by
  cases n with
  | leaf l => rw [smallB, subSmallB, Bool.and_true, node_length_leaf]
  | branch cs => rw [smallB, subSmallB, node_length_branch]

theorem mem_entriesL_of_mem {c : rect N × node N T} {cs : List (rect N × node N T)}
    (hc : c ∈ cs) {e : rect N × T} (he : e ∈ Entries c.2) : e ∈ entriesL cs := by
  induction cs with
  | nil => cases hc
  | cons d ds ih =>
    rw [entriesL, List.mem_append]
    rcases List.mem_cons.mp hc with rfl | hc
    · exact Or.inl he
    · exact Or.inr (ih hc)

/-- The MBR of all entries below a tight branch contains each child's stored
rect. -/
theorem contains_top_of_mem {cs : List (rect N × node N T)} {c : rect N × node N T}
    (ht : tightL cs = true) (hc : c ∈ cs) :
    rect.contains (nrect (rectsOf (entriesL cs))) c.1 = true := by
  obtain ⟨h1, h2, _⟩ := (tightL_iff _).mp ht c hc
  rw [h1]
  refine contains_nrect_of_forall (rectsOf_ne_nil h2) ?_
  intro a ha
  rw [rectsOf] at ha
  obtain ⟨e, he, rfl⟩ := List.mem_map.mp ha
  exact nrect_contains_mem (List.mem_map.mpr ⟨e, mem_entriesL_of_mem hc he, rfl⟩)

theorem eq_take_get_drop (l : List α) (i : Nat) (h : i < l.length) :
    l = l.take i ++ l.get ⟨i, h⟩ :: l.drop (i + 1) := by
  induction l generalizing i with
  | nil => simp at h
  | cons x xs ih =>
    cases i with
    | zero => simp
    | succ j =>
      have hj : j < xs.length := by simpa using h
      show x :: xs = x :: (xs.take j ++ xs.get ⟨j, hj⟩ :: xs.drop (j + 1))
      rw [← ih j hj]

/-- Node-level split on a full node: entry-preserving, both sides within
`[minEntries, 58]`, tight, sorted, small, with recomputed MBRs. -/
theorem splitNode_spec (r : rect N) (n : node N T) (h64 : n.length = maxEntries)
    (htight : tightB n = true) (hsub : subSortedB n = true) (hsmall : subSmallB n = true) :
    (Entries (splitNode r n).1 ++ Entries (splitNode r n).2).Perm (Entries n) ∧
    tightB (splitNode r n).1 = true ∧ tightB (splitNode r n).2 = true ∧
    allSortedB (splitNode r n).1 = true ∧ allSortedB (splitNode r n).2 = true ∧
    smallB (splitNode r n).1 = true ∧ smallB (splitNode r n).2 = true ∧
    minEntries ≤ (splitNode r n).1.length ∧ minEntries ≤ (splitNode r n).2.length ∧
    (splitNode r n).1.length ≤ 58 ∧ (splitNode r n).2.length ≤ 58 ∧
    Entries (splitNode r n).1 ≠ [] ∧ Entries (splitNode r n).2 ≠ [] ∧
    (splitNode r n).1.rectOf = nrect (rectsOf (Entries (splitNode r n).1)) ∧
    (splitNode r n).2.rectOf = nrect (rectsOf (Entries (splitNode r n).2)) := by
  cases n with
  | leaf l =>
    rw [node_length_leaf] at h64
    obtain ⟨hp, ha1, ha2, hb1, hb2, hs1, hs2⟩ := splitEntries_spec true r l (by
      rw [h64]; rfl)
    rw [splitNode]
    refine ⟨hp, rfl, rfl, ?_, ?_, ?_, ?_, ha1, hb1, ha2, hb2, ?_, ?_, rfl, rfl⟩
    · rw [allSortedB, issorted_iff]; exact hs1
    · rw [allSortedB, issorted_iff]; exact hs2
    · rw [smallB, decide_eq_true_eq]; rw [maxEntries]; omega
    · rw [smallB, decide_eq_true_eq]; rw [maxEntries]; omega
    · intro h
      rw [Entries_leaf] at h
      rw [h] at ha1
      rw [minEntries_eq] at ha1
      simp at ha1
    · intro h
      rw [Entries_leaf] at h
      rw [h] at hb1
      rw [minEntries_eq] at hb1
      simp at hb1
  | branch cs =>
    rw [node_length_branch] at h64
    obtain ⟨hp, ha1, ha2, hb1, hb2, hs1, hs2⟩ := splitEntries_spec false r cs (by
      rw [h64]; rfl)
    rw [splitNode]
    rw [subSortedB] at hsub
    rw [subSmallB] at hsmall
    rw [tightB] at htight
    have hmem1 : ∀ c ∈ (splitEntries false r cs).1, c ∈ cs := by
      intro c hc
      exact hp.mem_iff.mp (List.mem_append.mpr (Or.inl hc))
    have hmem2 : ∀ c ∈ (splitEntries false r cs).2, c ∈ cs := by
      intro c hc
      exact hp.mem_iff.mp (List.mem_append.mpr (Or.inr hc))
    have htight1 : tightL (splitEntries false r cs).1 = true := by
      rw [tightL_iff]
      exact fun c hc => (tightL_iff cs).mp htight c (hmem1 c hc)
    have htight2 : tightL (splitEntries false r cs).2 = true := by
      rw [tightL_iff]
      exact fun c hc => (tightL_iff cs).mp htight c (hmem2 c hc)
    have hne1 : (splitEntries false r cs).1 ≠ [] := by
      intro h
      rw [h] at ha1
      rw [minEntries_eq] at ha1
      simp at ha1
    have hne2 : (splitEntries false r cs).2 ≠ [] := by
      intro h
      rw [h] at hb1
      rw [minEntries_eq] at hb1
      simp at hb1
    refine ⟨?_, htight1, htight2, ?_, ?_, ?_, ?_, ha1, hb1, ha2, hb2,
      entriesL_ne_nil htight1 hne1, entriesL_ne_nil htight2 hne2, ?_, ?_⟩
    · rw [Entries_branch, Entries_branch, Entries_branch, ← entriesL_append]
      exact entriesL_perm hp
    · rw [allSortedB, Bool.and_eq_true, issorted_iff, sortedKidsB_iff]
      exact ⟨hs1, fun c hc => (sortedKidsB_iff cs).mp hsub c (hmem1 c hc)⟩
    · rw [allSortedB, Bool.and_eq_true, issorted_iff, sortedKidsB_iff]
      exact ⟨hs2, fun c hc => (sortedKidsB_iff cs).mp hsub c (hmem2 c hc)⟩
    · rw [smallB, Bool.and_eq_true, decide_eq_true_eq, smallKidsB_iff]
      refine ⟨by rw [maxEntries]; omega, fun c hc => (smallKidsB_iff cs).mp hsmall c (hmem1 c hc)⟩
    · rw [smallB, Bool.and_eq_true, decide_eq_true_eq, smallKidsB_iff]
      refine ⟨by rw [maxEntries]; omega, fun c hc => (smallKidsB_iff cs).mp hsmall c (hmem2 c hc)⟩
    · rw [node.rectOf, Entries_branch]
      exact nrect_top_eq htight1 hne1
    · rw [node.rectOf, Entries_branch]
      exact nrect_top_eq htight2 hne2

theorem sortedMin0_append_iff {l₁ l₂ : List (rect N × α)} :
    sortedMin0 (l₁ ++ l₂) ↔ sortedMin0 l₁ ∧ sortedMin0 l₂ ∧
      ∀ a ∈ l₁, ∀ b ∈ l₂, a.1.min0 ≤ b.1.min0 := by
  rw [sortedMin0, List.pairwise_append, sortedMin0, sortedMin0]

theorem sortedMin0_sublist {l₁ l₂ : List (rect N × α)} (h : l₁.Sublist l₂)
    (hs : sortedMin0 l₂) : sortedMin0 l₁ :=
  List.Pairwise.sublist h hs

theorem sorted_head_le {l : List (rect N × α)} (hs : sortedMin0 l) {h : rect N × α}
    (hh : l.head? = some h) : ∀ b ∈ l, h.1.min0 ≤ b.1.min0 := by
  cases l with
  | nil => cases hh
  | cons x t =>
    simp only [List.head?_cons, Option.some.injEq] at hh
    subst hh
    intro b hb
    rcases List.mem_cons.mp hb with rfl | hb
    · exact le_refl _
    · exact ((sortedMin0_cons_iff).mp hs).1 b hb

theorem sorted_le_getLast {l : List (rect N × α)} (hs : sortedMin0 l) {x : rect N × α}
    (hx : l.getLast? = some x) : ∀ a ∈ l, a.1.min0 ≤ x.1.min0 := by
  induction l with
  | nil => cases hx
  | cons b t ih =>
    cases t with
    | nil =>
      simp only [List.getLast?_singleton, Option.some.injEq] at hx
      subst hx
      intro a ha
      rcases List.mem_singleton.mp ha with rfl
      exact le_refl _
    | cons u us =>
      rw [List.getLast?_cons_cons] at hx
      rw [sortedMin0_cons_iff] at hs
      intro a ha
      have hxm : x ∈ u :: us := by
        obtain ⟨hne2, hxeq⟩ := List.mem_getLast?_eq_getLast (Option.mem_def.mpr hx)
        rw [hxeq]
        exact List.getLast_mem hne2
      rcases List.mem_cons.mp ha with rfl | ha
      · exact hs.1 x hxm
      · exact ih hs.2 hx a ha

theorem getElem?_append_cons_cons_length_succ (xs l : List α) (a b : α) :
    (xs ++ a :: b :: l)[xs.length + 1]? = some b := by
  have h : xs ++ a :: b :: l = (xs ++ [a]) ++ b :: l := by simp
  have hlen : xs.length + 1 = (xs ++ [a]).length := by simp
  rw [h, hlen]
  exact getElem?_append_cons_length _ _ _

/-- Full specification of `splitFixup` at the slot of a full child whose
stored rect is the MBR of its entries and whose siblings are `P` and `S`:
the result is a permutation of the old siblings plus the two split halves,
sorted whenever the input was, with both halves tight, sorted and small. -/
theorem splitFixup_spec (P S : List (rect N × node N T)) (erect : rect N)
    (child : node N T)
    (hsorted : sortedMin0 (P ++ (erect, child) :: S))
    (h64 : child.length = maxEntries)
    (htight : tightB child = true)
    (hchildS : allSortedB child = true)
    (hchildSm : subSmallB child = true)
    (herect : erect = nrect (rectsOf (Entries child))) :
    ∃ c₁ c₂ : rect N × node N T,
      (splitFixup (P ++ (erect, child) :: S) P.length).Perm (c₁ :: c₂ :: (P ++ S)) ∧
      sortedMin0 (splitFixup (P ++ (erect, child) :: S) P.length) ∧
      (Entries c₁.2 ++ Entries c₂.2).Perm (Entries child) ∧
      (∀ c : rect N × node N T, c = c₁ ∨ c = c₂ →
        c.1 = nrect (rectsOf (Entries c.2)) ∧ Entries c.2 ≠ [] ∧ tightB c.2 = true ∧
        allSortedB c.2 = true ∧ smallB c.2 = true) := by
  have hchildSub : subSortedB child = true := by
    cases child with
    | leaf l => rfl
    | branch cs =>
      rw [allSortedB, Bool.and_eq_true] at hchildS
      rw [subSortedB]
      exact hchildS.2
  obtain ⟨spPerm, spT1, spT2, spS1, spS2, spSm1, spSm2, spL1, spL2, spU1, spU2,
    spNe1, spNe2, spR1, spR2⟩ := splitNode_spec erect child h64 htight hchildSub hchildSm
  set L : rect N × node N T :=
    ((splitNode erect child).1.rectOf, (splitNode erect child).1) with hL
  set R : rect N × node N T :=
    ((splitNode erect child).2.rectOf, (splitNode erect child).2) with hR
  -- the two stored MBRs expand to the old stored rect
  have hexp : rect.expand L.1 R.1 = erect := by
    rw [hL, hR, spR1, spR2]
    rw [← nrect_append (rectsOf_ne_nil spNe1) (rectsOf_ne_nil spNe2), ← rectsOf_append]
    have h1 : (rectsOf (Entries (splitNode erect child).1 ++
        Entries (splitNode erect child).2)).Perm (rectsOf (Entries child)) :=
      spPerm.map Prod.fst
    rw [nrect_perm h1]
    exact herect.symm
  have hmin : min L.1.min0 R.1.min0 = erect.min0 := by
    rw [← hexp, rect.expand_def]
  -- unfold splitFixup
  have hEe : (P ++ (erect, child) :: S)[P.length]? = some (erect, child) :=
    getElem?_append_cons_length _ _ _
  rw [splitFixup.eq_def, hEe]
  simp only []
  have hob : orderBranches = true := rfl
  rw [if_pos hob]
  rw [set_append_cons, insertAt_append_succ]
  have hgl : (P ++ L :: R :: S)[P.length]? = some L := getElem?_append_cons_length _ _ _
  have hgr : (P ++ L :: R :: S)[P.length + 1]? = some R :=
    getElem?_append_cons_cons_length_succ _ _ _ _
  rw [hgl, hgr]
  simp only []
  -- the ordered pair (F, Sd) with F.1.min0 = erect.min0 ≤ Sd.1.min0
  have key : ∃ F Sd : rect N × node N T,
      (if L.1.min0 > R.1.min0 then swapAt (P ++ L :: R :: S) (P.length + 1) P.length
        else P ++ L :: R :: S) = P ++ F :: Sd :: S ∧
      (F = L ∧ Sd = R ∨ F = R ∧ Sd = L) ∧ F.1.min0 = erect.min0 ∧
      F.1.min0 ≤ Sd.1.min0 := by
    by_cases hsw : L.1.min0 > R.1.min0
    · refine ⟨R, L, ?_, Or.inr ⟨rfl, rfl⟩, ?_, ?_⟩
      · rw [if_pos hsw, swapAt_comm _ _ _ (by omega), swapAt_append_cons₂]
      · rw [← hmin, min_eq_right hsw.le]
      · exact hsw.le
    · refine ⟨L, R, ?_, Or.inl ⟨rfl, rfl⟩, ?_, ?_⟩
      · rw [if_neg hsw]
      · rw [← hmin, min_eq_left (le_of_not_lt hsw)]
      · exact le_of_not_lt hsw
  obtain ⟨F, Sd, hFSd, hcases, hkeyF, hFle⟩ := key
  rw [hFSd]
  -- sortedness facts of the input
  have hsp := sortedMin0_append_iff.mp hsorted
  obtain ⟨hsP, hseS, hPeS⟩ := hsp
  rw [sortedMin0_cons_iff] at hseS
  obtain ⟨heS, hsS⟩ := hseS
  have hPe : ∀ a ∈ P, a.1.min0 ≤ erect.min0 :=
    fun a ha => hPeS a ha (erect, child) (List.mem_cons_self _ _)
  have hPS : ∀ a ∈ P, ∀ b ∈ S, a.1.min0 ≤ b.1.min0 :=
    fun a ha b hb => hPeS a ha b (List.mem_cons_of_mem _ hb)
  -- run orderToRight
  have hassoc : P ++ F :: Sd :: S = (P ++ [F]) ++ Sd :: S := by simp
  have hlen1 : P.length + 1 = (P ++ [F]).length := by simp
  rw [hassoc, hlen1]
  obtain ⟨S₁, S₂, hS12, hores, hallS1, hheadS2⟩ := orderToRight_spec (P ++ [F]) S Sd
  rw [hores]
  -- entry facts about the two halves
  have hpairs : ∀ c : rect N × node N T, c = L ∨ c = R →
      c.1 = nrect (rectsOf (Entries c.2)) ∧ Entries c.2 ≠ [] ∧ tightB c.2 = true ∧
      allSortedB c.2 = true ∧ smallB c.2 = true := by
    rintro c (rfl | rfl)
    · exact ⟨spR1, spNe1, spT1, spS1, spSm1⟩
    · exact ⟨spR2, spNe2, spT2, spS2, spSm2⟩
  have hFSd_pairs : ∀ c : rect N × node N T, c = F ∨ c = Sd →
      c.1 = nrect (rectsOf (Entries c.2)) ∧ Entries c.2 ≠ [] ∧ tightB c.2 = true ∧
      allSortedB c.2 = true ∧ smallB c.2 = true := by
    have hLp := hpairs L (Or.inl rfl)
    have hRp := hpairs R (Or.inr rfl)
    rintro c (rfl | rfl)
    · rcases hcases with ⟨hF, _⟩ | ⟨hF, _⟩
      · rw [hF]; exact hLp
      · rw [hF]; exact hRp
    · rcases hcases with ⟨_, hSd⟩ | ⟨_, hSd⟩
      · rw [hSd]; exact hRp
      · rw [hSd]; exact hLp
  refine ⟨F, Sd, ?_, ?_, ?_, hFSd_pairs⟩
  · -- permutation
    refine List.perm_middle.trans ?_
    have h1 : ((P ++ [F]) ++ S₁) ++ S₂ = (P ++ [F]) ++ S := by
      rw [List.append_assoc, ← hS12]
    rw [h1]
    have h2 : (P ++ [F]) ++ S = P ++ F :: S := by simp
    rw [h2]
    refine (List.Perm.cons Sd List.perm_middle).trans ?_
    exact List.Perm.swap F Sd (P ++ S)
  · -- sortedness
    have hS1le : ∀ b ∈ S₁, b.1.min0 < Sd.1.min0 := hallS1
    have hS1S : ∀ b ∈ S₁, b ∈ S := fun b hb => hS12 ▸ List.mem_append.mpr (Or.inl hb)
    have hS2S : ∀ b ∈ S₂, b ∈ S := fun b hb => hS12 ▸ List.mem_append.mpr (Or.inr hb)
    have hsS1 : sortedMin0 S₁ := sortedMin0_sublist (hS12 ▸ List.sublist_append_left S₁ S₂) hsS
    have hsS2 : sortedMin0 S₂ := sortedMin0_sublist (hS12 ▸ List.sublist_append_right S₁ S₂) hsS
    have hS1S2 : ∀ a ∈ S₁, ∀ b ∈ S₂, a.1.min0 ≤ b.1.min0 := by
      have := sortedMin0_append_iff.mp (hS12 ▸ hsS)
      exact this.2.2
    have hSdS2 : ∀ b ∈ S₂, Sd.1.min0 ≤ b.1.min0 := by
      cases S₂ with
      | nil => intro b hb; simp at hb
      | cons h2 t2 =>
        have hhead : ¬ h2.1.min0 < Sd.1.min0 := hheadS2 h2 rfl
        intro b hb
        refine le_trans (le_of_not_lt hhead) ?_
        exact sorted_head_le hsS2 rfl b hb
    rw [sortedMin0_append_iff]
    refine ⟨?_, ?_, ?_⟩
    · -- (P ++ [F]) ++ S₁ sorted
      rw [sortedMin0_append_iff]
      refine ⟨?_, hsS1, ?_⟩
      · rw [sortedMin0_append_iff]
        refine ⟨hsP, by rw [sortedMin0]; simp, ?_⟩
        intro a ha b hb
        rcases List.mem_singleton.mp hb with rfl
        rw [hkeyF]
        exact hPe a ha
      · intro a ha b hb
        rcases List.mem_append.mp ha with ha | ha
        · exact hPS a ha b (hS1S b hb)
        · rcases List.mem_singleton.mp ha with rfl
          rw [hkeyF]
          exact heS b (hS1S b hb)
    · rw [sortedMin0_cons_iff]
      exact ⟨hSdS2, hsS2⟩
    · intro a ha b hb
      have hSdb : Sd.1.min0 ≤ b.1.min0 := by
        rcases List.mem_cons.mp hb with rfl | hb
        · exact le_refl _
        · exact hSdS2 b hb
      rcases List.mem_append.mp ha with ha | ha
      · rcases List.mem_append.mp ha with ha | ha
        · exact le_trans (le_trans (hPe a ha) (hkeyF ▸ hFle)) hSdb
        · rcases List.mem_singleton.mp ha with rfl
          exact le_trans hFle hSdb
      · exact le_trans (hS1le a ha).le hSdb
  · -- entries of the two halves
    rcases hcases with ⟨hF, hSd⟩ | ⟨hF, hSd⟩
    · rw [hF, hSd]
      exact spPerm
    · rw [hF, hSd]
      exact List.perm_append_comm.trans spPerm

/-- All conditions a branch slot must satisfy: stored rect is the MBR of the
entries below, nonempty, tight, sorted and small. -/
def pairOK (a : rect N × node N T) : Prop :=
  a.1 = nrect (rectsOf (Entries a.2)) ∧ Entries a.2 ≠ [] ∧ tightB a.2 = true ∧
  allSortedB a.2 = true ∧ smallB a.2 = true

theorem tightL_of_ok {l : List (rect N × node N T)} (h : ∀ a ∈ l, pairOK a) :
    tightL l = true := by
  rw [tightL_iff]
  intro c hc
  obtain ⟨h1, h2, h3, _, _⟩ := h c hc
  exact ⟨h1, h2, h3⟩

theorem sortedKidsB_of_ok {l : List (rect N × node N T)} (h : ∀ a ∈ l, pairOK a) :
    sortedKidsB l = true := by
  rw [sortedKidsB_iff]
  exact fun c hc => (h c hc).2.2.2.1

theorem smallKidsB_of_ok {l : List (rect N × node N T)} (h : ∀ a ∈ l, pairOK a) :
    smallKidsB l = true := by
  rw [smallKidsB_iff]
  exact fun c hc => (h c hc).2.2.2.2

/-- MBR of an entry list permuted from a cons: expanding the tail's MBR by
the head rect. -/
theorem nrect_entries_cons_perm {l l' : List (rect N × T)} {ir : rect N} {data : T}
    (h : l'.Perm ((ir, data) :: l)) (hne : l ≠ []) :
    nrect (rectsOf l') = rect.expand (nrect (rectsOf l)) ir := by
  have hperm : (rectsOf l').Perm (ir :: rectsOf l) := h.map Prod.fst
  rw [nrect_perm hperm, nrect_cons_ne ir (rectsOf_ne_nil hne), rect.expand_comm]

/-- The post-state of `nodeInsert` at a branch:
`final = if split then splitFixup (P ++ e :: S) P.length else P ++ e :: S`. -/
theorem branchFinal_spec (P S : List (rect N × node N T)) (erect : rect N)
    (child : node N T) (sp : Bool)
    (hsorted : sortedMin0 (P ++ (erect, child) :: S))
    (hPSok : ∀ a ∈ P ++ S, pairOK a)
    (herect : erect = nrect (rectsOf (Entries child)))
    (hcne : Entries child ≠ [])
    (hctight : tightB child = true)
    (hcsorted : allSortedB child = true)
    (hcsub : subSmallB child = true)
    (hsp1 : sp = true → child.length = maxEntries)
    (hsp2 : sp = false → child.length ≤ maxEntries - 1) :
    (entriesL (if sp then splitFixup (P ++ (erect, child) :: S) P.length
        else P ++ (erect, child) :: S)).Perm (Entries child ++ entriesL (P ++ S)) ∧
    tightL (if sp then splitFixup (P ++ (erect, child) :: S) P.length
        else P ++ (erect, child) :: S) = true ∧
    sortedMin0 (if sp then splitFixup (P ++ (erect, child) :: S) P.length
        else P ++ (erect, child) :: S) ∧
    sortedKidsB (if sp then splitFixup (P ++ (erect, child) :: S) P.length
        else P ++ (erect, child) :: S) = true ∧
    smallKidsB (if sp then splitFixup (P ++ (erect, child) :: S) P.length
        else P ++ (erect, child) :: S) = true ∧
    (if sp then splitFixup (P ++ (erect, child) :: S) P.length
        else P ++ (erect, child) :: S).length ≤ (P ++ S).length + 2 := by
  cases sp with
  | false =>
    rw [if_neg (by simp)]
    have hok : ∀ a ∈ P ++ (erect, child) :: S, pairOK a := by
      intro a ha
      rcases List.mem_append.mp ha with ha | ha
      · exact hPSok a (List.mem_append.mpr (Or.inl ha))
      · rcases List.mem_cons.mp ha with rfl | ha
        · refine ⟨herect, hcne, hctight, hcsorted, ?_⟩
          rw [smallB_eq, Bool.and_eq_true, decide_eq_true_eq]
          exact ⟨hsp2 rfl, hcsub⟩
        · exact hPSok a (List.mem_append.mpr (Or.inr ha))
    refine ⟨?_, tightL_of_ok hok, hsorted, sortedKidsB_of_ok hok, smallKidsB_of_ok hok, ?_⟩
    · refine (entriesL_perm List.perm_middle).trans ?_
      rw [entriesL]
    · simp only [List.length_append, List.length_cons]
      omega
  | true =>
    rw [if_pos rfl]
    obtain ⟨c₁, c₂, hpermF, hsortF, hEnt, hnew⟩ :=
      splitFixup_spec P S erect child hsorted (hsp1 rfl) hctight hcsorted hcsub herect
    have hok : ∀ a ∈ splitFixup (P ++ (erect, child) :: S) P.length, pairOK a := by
      intro a ha
      have ham := hpermF.mem_iff.mp ha
      rcases List.mem_cons.mp ham with rfl | ham
      · obtain ⟨h1, h2, h3, h4, h5⟩ := hnew a (Or.inl rfl)
        exact ⟨h1, h2, h3, h4, h5⟩
      · rcases List.mem_cons.mp ham with rfl | ham
        · obtain ⟨h1, h2, h3, h4, h5⟩ := hnew a (Or.inr rfl)
          exact ⟨h1, h2, h3, h4, h5⟩
        · exact hPSok a ham
    refine ⟨?_, tightL_of_ok hok, hsortF, sortedKidsB_of_ok hok, smallKidsB_of_ok hok, ?_⟩
    · refine (entriesL_perm hpermF).trans ?_
      rw [entriesL, entriesL, ← List.append_assoc]
      exact List.Perm.append hEnt (List.Perm.refl _)
    · rw [hpermF.length_eq]
      simp

theorem sorted_insert_mid {xs₁ xs₂ ys : List (rect N × node N T)} {e : rect N × node N T}
    (hsplit : sortedMin0 ((xs₁ ++ xs₂) ++ ys))
    (hey : ∀ y ∈ ys, e.1.min0 ≤ y.1.min0)
    (hall : ∀ a ∈ xs₂, e.1.min0 < a.1.min0)
    (hlast : ∀ a, xs₁.getLast? = some a → ¬ e.1.min0 < a.1.min0) :
    sortedMin0 (xs₁ ++ e :: (xs₂ ++ ys)) := by
  obtain ⟨hx12, hys, hcross⟩ := sortedMin0_append_iff.mp hsplit
  obtain ⟨hx1, hx2, hc12⟩ := sortedMin0_append_iff.mp hx12
  have hx1e : ∀ a ∈ xs₁, a.1.min0 ≤ e.1.min0 := by
    intro a ha
    cases hgl : xs₁.getLast? with
    | none =>
      rw [List.getLast?_eq_none_iff] at hgl
      rw [hgl] at ha
      cases ha
    | some x =>
      exact le_trans (sorted_le_getLast hx1 hgl a ha) (le_of_not_lt (hlast x hgl))
  rw [sortedMin0_append_iff]
  refine ⟨hx1, ?_, ?_⟩
  · rw [sortedMin0_cons_iff]
    refine ⟨?_, ?_⟩
    · intro b hb
      rcases List.mem_append.mp hb with hb | hb
      · exact (hall b hb).le
      · exact hey b hb
    · rw [sortedMin0_append_iff]
      exact ⟨hx2, hys, fun a ha b hb => hcross a (List.mem_append.mpr (Or.inr ha)) b hb⟩
  · intro a ha b hb
    rcases List.mem_cons.mp hb with rfl | hb
    · exact hx1e a ha
    · rcases List.mem_append.mp hb with hb | hb
      · exact hc12 a ha b hb
      · exact hcross a (List.mem_append.mpr (Or.inl ha)) b hb

theorem sortedMin0_replace_child {xs ys : List (rect N × node N T)}
    {c : rect N × node N T} {x : node N T} (hs : sortedMin0 (xs ++ c :: ys)) :
    sortedMin0 (xs ++ (c.1, x) :: ys) := by
  obtain ⟨h1, h2, h3⟩ := sortedMin0_append_iff.mp hs
  rw [sortedMin0_cons_iff] at h2
  rw [sortedMin0_append_iff]
  refine ⟨h1, ?_, ?_⟩
  · rw [sortedMin0_cons_iff]
    exact ⟨h2.1, h2.2⟩
  · intro a ha b hb
    rcases List.mem_cons.mp hb with rfl | hb
    · exact h3 a ha c (List.mem_cons_self _ _)
    · exact h3 a ha b (List.mem_cons_of_mem _ hb)

theorem nodeInsert_branch_grown (nr : rect N) (cs : List (rect N × node N T)) (ir : rect N)
    (data : T) (hidx : chooseIdx (rectsOf cs) ir < cs.length)
    (hg : (nodeInsert (cs.get ⟨chooseIdx (rectsOf cs) ir, hidx⟩).1
      (cs.get ⟨chooseIdx (rectsOf cs) ir, hidx⟩).2 ir data).2 = true) :
    nodeInsert nr (.branch cs) ir data =
      (node.branch (if (nodeInsert (cs.get ⟨chooseIdx (rectsOf cs) ir, hidx⟩).1
          (cs.get ⟨chooseIdx (rectsOf cs) ir, hidx⟩).2 ir data).1.length == maxEntries then
          splitFixup
            (orderToLeft (cs.set (chooseIdx (rectsOf cs) ir)
              ((cs.get ⟨chooseIdx (rectsOf cs) ir, hidx⟩).1.expand ir,
               (nodeInsert (cs.get ⟨chooseIdx (rectsOf cs) ir, hidx⟩).1
                 (cs.get ⟨chooseIdx (rectsOf cs) ir, hidx⟩).2 ir data).1))
              (chooseIdx (rectsOf cs) ir)).1
            (orderToLeft (cs.set (chooseIdx (rectsOf cs) ir)
              ((cs.get ⟨chooseIdx (rectsOf cs) ir, hidx⟩).1.expand ir,
               (nodeInsert (cs.get ⟨chooseIdx (rectsOf cs) ir, hidx⟩).1
                 (cs.get ⟨chooseIdx (rectsOf cs) ir, hidx⟩).2 ir data).1))
              (chooseIdx (rectsOf cs) ir)).2
        else
          (orderToLeft (cs.set (chooseIdx (rectsOf cs) ir)
            ((cs.get ⟨chooseIdx (rectsOf cs) ir, hidx⟩).1.expand ir,
             (nodeInsert (cs.get ⟨chooseIdx (rectsOf cs) ir, hidx⟩).1
               (cs.get ⟨chooseIdx (rectsOf cs) ir, hidx⟩).2 ir data).1))
            (chooseIdx (rectsOf cs) ir)).1),
       !(nr.contains ir)) := by
  rw [nodeInsert, dif_pos hidx]
  simp only [hg, if_true]
  rfl

theorem nodeInsert_branch_ungrown (nr : rect N) (cs : List (rect N × node N T)) (ir : rect N)
    (data : T) (hidx : chooseIdx (rectsOf cs) ir < cs.length)
    (hg : (nodeInsert (cs.get ⟨chooseIdx (rectsOf cs) ir, hidx⟩).1
      (cs.get ⟨chooseIdx (rectsOf cs) ir, hidx⟩).2 ir data).2 = false) :
    nodeInsert nr (.branch cs) ir data =
      (node.branch (if (nodeInsert (cs.get ⟨chooseIdx (rectsOf cs) ir, hidx⟩).1
          (cs.get ⟨chooseIdx (rectsOf cs) ir, hidx⟩).2 ir data).1.length == maxEntries then
          splitFixup
            (cs.set (chooseIdx (rectsOf cs) ir)
              ((cs.get ⟨chooseIdx (rectsOf cs) ir, hidx⟩).1,
               (nodeInsert (cs.get ⟨chooseIdx (rectsOf cs) ir, hidx⟩).1
                 (cs.get ⟨chooseIdx (rectsOf cs) ir, hidx⟩).2 ir data).1))
            (chooseIdx (rectsOf cs) ir)
        else
          cs.set (chooseIdx (rectsOf cs) ir)
            ((cs.get ⟨chooseIdx (rectsOf cs) ir, hidx⟩).1,
             (nodeInsert (cs.get ⟨chooseIdx (rectsOf cs) ir, hidx⟩).1
               (cs.get ⟨chooseIdx (rectsOf cs) ir, hidx⟩).2 ir data).1)),
       false) := by
  rw [nodeInsert, dif_pos hidx]
  simp only [hg, Bool.false_eq_true, if_false]

/-- Packaging `allSortedB` for a branch from its two components. -/
theorem allSortedB_branch_of (cs : List (rect N × node N T)) (h1 : sortedMin0 cs)
    (h2 : sortedKidsB cs = true) : allSortedB (node.branch cs) = true := by
  rw [allSortedB, Bool.and_eq_true, issorted_iff]
  exact ⟨h1, h2⟩

/-- The branch step of the master insert lemma, with the recursive call's
conclusions taken as hypotheses about an abstract result pair `res`. -/
theorem nodeInsert_branch_spec (nr : rect N) (cs : List (rect N × node N T)) (ir : rect N)
    (data : T) (hidx : chooseIdx (rectsOf cs) ir < cs.length)
    (htight : tightB (node.branch cs) = true) (hsorted : allSortedB (node.branch cs) = true)
    (hsmall : smallB (node.branch cs) = true)
    (hnr : nr = nrect (rectsOf (entriesL cs)))
    (res : node N T × Bool)
    (hres : nodeInsert (cs.get ⟨chooseIdx (rectsOf cs) ir, hidx⟩).1
      (cs.get ⟨chooseIdx (rectsOf cs) ir, hidx⟩).2 ir data = res)
    (ihPerm : (Entries res.1).Perm
      ((ir, data) :: Entries (cs.get ⟨chooseIdx (rectsOf cs) ir, hidx⟩).2))
    (ihTight : tightB res.1 = true)
    (ihSorted : allSortedB res.1 = true)
    (ihGrown : res.2 = !(rect.contains (cs.get ⟨chooseIdx (rectsOf cs) ir, hidx⟩).1 ir))
    (ihLen : res.1.length ≤ maxEntries)
    (ihSub : subSmallB res.1 = true) :
    (Entries (nodeInsert nr (node.branch cs) ir data).1).Perm ((ir, data) :: entriesL cs) ∧
    tightB (nodeInsert nr (node.branch cs) ir data).1 = true ∧
    allSortedB (nodeInsert nr (node.branch cs) ir data).1 = true ∧
    (nodeInsert nr (node.branch cs) ir data).2 = !(rect.contains nr ir) ∧
    (nodeInsert nr (node.branch cs) ir data).1.length ≤ maxEntries ∧
    subSmallB (nodeInsert nr (node.branch cs) ir data).1 = true ∧
    (nodeInsert nr (node.branch cs) ir data).1.isLeaf = false := by
  obtain ⟨c, hc⟩ : ∃ d, cs.get ⟨chooseIdx (rectsOf cs) ir, hidx⟩ = d := ⟨_, rfl⟩
  have hcmem : c ∈ cs := hc ▸ List.get_mem cs _ hidx
  rw [hc] at hres ihPerm ihGrown
  obtain ⟨hc1, hcne2, _⟩ := (tightB_branch_iff cs).mp htight c hcmem
  have htL : tightL cs = true := htight
  have hsortcs : sortedMin0 cs := ((allSortedB_branch_iff cs).mp hsorted).1
  have hOK : ∀ a ∈ cs, pairOK a := by
    intro a ha
    obtain ⟨x1, x2, x3⟩ := (tightB_branch_iff cs).mp htight a ha
    exact ⟨x1, x2, x3, ((allSortedB_branch_iff cs).mp hsorted).2 a ha,
      ((smallB_branch_iff cs).mp hsmall).2 a ha⟩
  have hEresne : Entries res.1 ≠ [] := by
    intro h0
    have hl := ihPerm.length_eq
    rw [h0] at hl
    simp at hl
  have hsp1 : (res.1.length == maxEntries) = true → res.1.length = maxEntries :=
    fun h => by simpa using h
  have hsp2 : (res.1.length == maxEntries) = false → res.1.length ≤ maxEntries - 1 := by
    intro h
    have h64 : res.1.length ≠ maxEntries := by
      intro he
      rw [he] at h
      simp at h
    rw [maxEntries_eq] at ihLen h64 ⊢
    omega
  obtain ⟨xs, ys, hcseq, hxslen⟩ :
      ∃ xs ys, cs = xs ++ c :: ys ∧ xs.length = chooseIdx (rectsOf cs) ir :=
    ⟨cs.take _, cs.drop _, by rw [← hc]; exact eq_take_get_drop cs _ hidx,
      by rw [List.length_take]; exact min_eq_left hidx.le⟩
  have hlensum : xs.length + ys.length + 1 ≤ maxEntries - 1 := by
    have h0 := ((smallB_branch_iff cs).mp hsmall).1
    rw [hcseq] at h0
    rw [maxEntries_eq] at h0 ⊢
    simp only [List.length_append, List.length_cons] at h0
    omega
  by_cases hg : res.2 = true
  · -- the child reported growth: its slot rect expands and is bubbled left
    have hout := nodeInsert_branch_grown nr cs ir data hidx (by rw [hc, hres]; exact hg)
    rw [hc, hres] at hout
    have hset : cs.set (chooseIdx (rectsOf cs) ir) (rect.expand c.1 ir, res.1) =
        xs ++ (rect.expand c.1 ir, res.1) :: ys := by
      conv_lhs => rw [← hxslen, hcseq]
      exact set_append_cons xs ys c _
    rw [hset, ← hxslen] at hout
    obtain ⟨xs₁, xs₂, hxs12, hOL, hall, hlast⟩ :=
      orderToLeft_spec xs ys (rect.expand c.1 ir, res.1)
    have hOL1 : (orderToLeft (xs ++ (rect.expand c.1 ir, res.1) :: ys) xs.length).1 =
        xs₁ ++ (rect.expand c.1 ir, res.1) :: (xs₂ ++ ys) := by rw [hOL]
    have hOL2 : (orderToLeft (xs ++ (rect.expand c.1 ir, res.1) :: ys) xs.length).2 =
        xs₁.length := by rw [hOL]
    rw [hOL1, hOL2] at hout
    have hemem : ∀ y ∈ ys, (rect.expand c.1 ir).min0 ≤ y.1.min0 := by
      intro y hy
      have h1 : (rect.expand c.1 ir).min0 ≤ c.1.min0 := by
        rw [rect.expand_def]
        exact min_le_left _ _
      have h2 : c.1.min0 ≤ y.1.min0 := by
        have hs2 := (sortedMin0_append_iff.mp (hcseq ▸ hsortcs)).2.1
        exact (sortedMin0_cons_iff.mp hs2).1 y hy
      exact le_trans h1 h2
    have hsortmid : sortedMin0 (xs₁ ++ (rect.expand c.1 ir, res.1) :: (xs₂ ++ ys)) := by
      refine sorted_insert_mid ?_ hemem hall hlast
      rw [← hxs12]
      exact sortedMin0_sublist ((List.sublist_cons_self c ys).append_left xs) (hcseq ▸ hsortcs)
    have hPSok : ∀ a ∈ xs₁ ++ (xs₂ ++ ys), pairOK a := by
      intro a ha
      refine hOK a ?_
      rw [hcseq, hxs12]
      rcases List.mem_append.mp ha with h | h
      · exact List.mem_append_left _ (List.mem_append_left _ h)
      · rcases List.mem_append.mp h with h | h
        · exact List.mem_append_left _ (List.mem_append_right _ h)
        · exact List.mem_append_right _ (List.mem_cons_of_mem _ h)
    have herect : rect.expand c.1 ir = nrect (rectsOf (Entries res.1)) := by
      rw [nrect_entries_cons_perm ihPerm hcne2, ← hc1]
    obtain ⟨bPerm, bTight, bSorted, bKids, bSmall, bLen⟩ :=
      branchFinal_spec xs₁ (xs₂ ++ ys) (rect.expand c.1 ir) res.1
        (res.1.length == maxEntries) hsortmid hPSok herect hEresne ihTight ihSorted ihSub
        hsp1 hsp2
    have hreorg : (((ir, data) :: Entries c.2) ++ entriesL (xs₁ ++ (xs₂ ++ ys))).Perm
        ((ir, data) :: entriesL cs) := by
      rw [hcseq, hxs12]
      simp only [entriesL_append, entriesL]
      rw [← Multiset.coe_eq_coe]
      simp only [← Multiset.coe_add, ← Multiset.cons_coe, ← Multiset.singleton_add]
      ac_rfl
    rw [hout]
    refine ⟨bPerm.trans ((ihPerm.append_right _).trans hreorg), bTight,
      allSortedB_branch_of _ bSorted bKids, rfl, ?_, bSmall, rfl⟩
    refine le_trans bLen ?_
    have hx : xs.length = xs₁.length + xs₂.length := by rw [hxs12, List.length_append]
    rw [maxEntries_eq] at hlensum ⊢
    simp only [List.length_append]
    omega
  · -- the child fitted: same slot rect, plain write-back
    have hgf : res.2 = false := by
      cases h2 : res.2 with
      | false => rfl
      | true => exact absurd h2 hg
    have hcont : rect.contains c.1 ir = true := by
      rw [hgf] at ihGrown
      cases h3 : rect.contains c.1 ir with
      | false => rw [h3] at ihGrown; simp at ihGrown
      | true => rfl
    have hout := nodeInsert_branch_ungrown nr cs ir data hidx (by rw [hc, hres]; exact hgf)
    rw [hc, hres] at hout
    have hset : cs.set (chooseIdx (rectsOf cs) ir) (c.1, res.1) =
        xs ++ (c.1, res.1) :: ys := by
      conv_lhs => rw [← hxslen, hcseq]
      exact set_append_cons xs ys c _
    rw [hset, ← hxslen] at hout
    have hsortmid : sortedMin0 (xs ++ (c.1, res.1) :: ys) :=
      sortedMin0_replace_child (hcseq ▸ hsortcs)
    have hPSok : ∀ a ∈ xs ++ ys, pairOK a := by
      intro a ha
      refine hOK a ?_
      rw [hcseq]
      rcases List.mem_append.mp ha with h | h
      · exact List.mem_append_left _ h
      · exact List.mem_append_right _ (List.mem_cons_of_mem _ h)
    have herect : c.1 = nrect (rectsOf (Entries res.1)) := by
      rw [nrect_entries_cons_perm ihPerm hcne2, ← hc1, rect.expand_eq_of_contains hcont]
    obtain ⟨bPerm, bTight, bSorted, bKids, bSmall, bLen⟩ :=
      branchFinal_spec xs ys c.1 res.1
        (res.1.length == maxEntries) hsortmid hPSok herect hEresne ihTight ihSorted ihSub
        hsp1 hsp2
    have hreorg : (((ir, data) :: Entries c.2) ++ entriesL (xs ++ ys)).Perm
        ((ir, data) :: entriesL cs) := by
      rw [hcseq]
      simp only [entriesL_append, entriesL]
      rw [← Multiset.coe_eq_coe]
      simp only [← Multiset.coe_add, ← Multiset.cons_coe, ← Multiset.singleton_add]
      ac_rfl
    have hnrcont : rect.contains nr ir = true := by
      rw [hnr]
      exact rect.contains_trans (contains_top_of_mem htL hcmem) hcont
    rw [hout]
    refine ⟨bPerm.trans ((ihPerm.append_right _).trans hreorg), bTight,
      allSortedB_branch_of _ bSorted bKids, by rw [hnrcont]; rfl, ?_, bSmall, rfl⟩
    refine le_trans bLen ?_
    rw [maxEntries_eq] at hlensum ⊢
    simp only [List.length_append]
    omega

/-- Master insert lemma: on a tight, sorted, steady-state node carrying its
correct MBR, `nodeInsert` adds exactly the new entry, preserves tightness and
sortedness, reports growth exactly when the incoming MBR missed the new rect,
ends at most full with a steady strict subtree, and keeps the node kind. -/
theorem nodeInsert_spec (nr : rect N) (n : node N T) (ir : rect N) (data : T)
    (htight : tightB n = true) (hsorted : allSortedB n = true)
    (hsmall : smallB n = true) (hne : Entries n ≠ [])
    (hnr : nr = nrect (rectsOf (Entries n))) :
    (Entries (nodeInsert nr n ir data).1).Perm ((ir, data) :: Entries n) ∧
    tightB (nodeInsert nr n ir data).1 = true ∧
    allSortedB (nodeInsert nr n ir data).1 = true ∧
    (nodeInsert nr n ir data).2 = !(rect.contains nr ir) ∧
    (nodeInsert nr n ir data).1.length ≤ maxEntries ∧
    subSmallB (nodeInsert nr n ir data).1 = true ∧
    (nodeInsert nr n ir data).1.isLeaf = n.isLeaf := by
  cases hn : n with
  | leaf l =>
    have hout : nodeInsert nr (.leaf l) ir data =
        (.leaf (insertAt (rsearch ir.min0 l) (ir, data) l), !(rect.contains nr ir)) := by
      rw [nodeInsert]
      rfl
    rw [hn] at htight hsorted hsmall hne hnr
    rw [hout]
    have hperm : (insertAt (rsearch ir.min0 l) (ir, data) l).Perm ((ir, data) :: l) :=
      insertAt_perm _ _ _
    refine ⟨hperm, rfl, ?_, rfl, ?_, rfl, rfl⟩
    · rw [allSortedB, issorted_iff] at hsorted ⊢
      exact insertAt_rsearch_sorted hsorted ir data
    · rw [smallB, decide_eq_true_eq, maxEntries_eq] at hsmall
      rw [node_length_leaf, hperm.length_eq, List.length_cons, maxEntries_eq]
      omega
  | branch cs =>
    rw [hn] at htight hsorted hsmall hne hnr
    have hcsne : cs ≠ [] := by
      intro hc
      rw [hc] at hne
      exact hne rfl
    have hidx : chooseIdx (rectsOf cs) ir < cs.length := by
      have h := chooseIdx_lt (rectsOf cs) ir (rectsOf_ne_nil hcsne)
      rwa [rectsOf, List.length_map] at h
    have hcmem := List.get_mem cs (chooseIdx (rectsOf cs) ir) hidx
    obtain ⟨hc1, hcne2, hctight⟩ := (tightB_branch_iff cs).mp htight _ hcmem
    have IH := nodeInsert_spec (cs.get ⟨chooseIdx (rectsOf cs) ir, hidx⟩).1
      (cs.get ⟨chooseIdx (rectsOf cs) ir, hidx⟩).2 ir data hctight
      (((allSortedB_branch_iff cs).mp hsorted).2 _ hcmem)
      (((smallB_branch_iff cs).mp hsmall).2 _ hcmem) hcne2 hc1
    exact nodeInsert_branch_spec nr cs ir data hidx htight hsorted hsmall hnr
      (nodeInsert (cs.get ⟨chooseIdx (rectsOf cs) ir, hidx⟩).1
        (cs.get ⟨chooseIdx (rectsOf cs) ir, hidx⟩).2 ir data) rfl IH.1 IH.2.1 IH.2.2.1
      IH.2.2.2.1 IH.2.2.2.2.1 IH.2.2.2.2.2.1
termination_by sizeOf n
decreasing_by
  have h1 : sizeOf (cs.get ⟨chooseIdx (rectsOf cs) ir, hidx⟩) < sizeOf cs :=
    List.sizeOf_lt_of_mem (List.get_mem cs _ hidx)
  have h2 : sizeOf (cs.get ⟨chooseIdx (rectsOf cs) ir, hidx⟩).2 <
      sizeOf (cs.get ⟨chooseIdx (rectsOf cs) ir, hidx⟩) := by
    rcases cs.get ⟨chooseIdx (rectsOf cs) ir, hidx⟩ with ⟨cr, cn⟩
    simp
  simp only [List.get_eq_getElem] at h1 h2
  subst hn
  simp
  omega

theorem subSortedB_of_allSortedB {n : node N T} (h : allSortedB n = true) :
    subSortedB n = true := by
  cases n with
  | leaf l => rfl
  | branch cs =>
    rw [allSortedB, Bool.and_eq_true] at h
    rw [subSortedB]
    exact h.2

/-- `sortTop` permutes the top list by `min[0]`: entries are preserved up to
permutation, tightness, steadiness and child sortedness survive, and the top
list becomes sorted. -/
theorem sortTop_spec (n : node N T) (ht : tightB n = true) (hsub : subSortedB n = true)
    (hm : smallB n = true) :
    (Entries n.sortTop).Perm (Entries n) ∧ tightB n.sortTop = true ∧
    allSortedB n.sortTop = true ∧ smallB n.sortTop = true := by
  cases n with
  | leaf l =>
    refine ⟨sortMin0_perm l, rfl, ?_, ?_⟩
    · rw [node.sortTop, allSortedB, issorted_iff]
      exact sortMin0_sorted l
    · rw [smallB, decide_eq_true_eq] at hm
      rw [node.sortTop, smallB, decide_eq_true_eq, (sortMin0_perm l).length_eq]
      exact hm
  | branch cs =>
    have hperm := sortMin0_perm cs
    rw [subSortedB] at hsub
    refine ⟨entriesL_perm hperm, ?_, ?_, ?_⟩
    · rw [tightB, tightL_iff] at ht
      rw [node.sortTop, tightB, tightL_iff]
      exact fun c hc => ht c (hperm.subset hc)
    · rw [node.sortTop, allSortedB, Bool.and_eq_true, issorted_iff]
      refine ⟨sortMin0_sorted cs, ?_⟩
      rw [sortedKidsB_iff] at hsub ⊢
      exact fun c hc => hsub c (hperm.subset hc)
    · rw [smallB, Bool.and_eq_true, decide_eq_true_eq, smallKidsB_iff] at hm
      rw [node.sortTop, smallB, Bool.and_eq_true, decide_eq_true_eq, smallKidsB_iff]
      exact ⟨by rw [hperm.length_eq]; exact hm.1, fun c hc => hm.2 c (hperm.subset hc)⟩

/-- The steady-state invariant of a tree value: the cached count equals the
number of entries, an absent root keeps the zero rect, and a present root is
tight, fully sorted, within steady capacity, non-empty, with the cached tree
rect equal to the MBR of all entries. -/
def Inv (tr : RTreeG2 N T) : Prop :=
  tr.count = ((treeEntries tr).length : Int) ∧
  (tr.root = none → tr.rect = zeroRect) ∧
  ∀ r, tr.root = some r → tightB r = true ∧ allSortedB r = true ∧ smallB r = true ∧
    Entries r ≠ [] ∧ tr.rect = nrect (rectsOf (Entries r))

/-- Closed form of `Insert` on a non-empty tree, with the insertion result,
grown rect and pre-order root abstracted. -/
theorem Insert_some_eq (tr : RTreeG2 N T) (ir : rect N) (data : T) (r : node N T)
    (hroot : tr.root = some r) (ins : node N T × Bool)
    (hins : nodeInsert tr.rect r ir data = ins) (rq : rect N)
    (hrq : (if ins.2 then rect.expand tr.rect ir else tr.rect) = rq)
    (rt : node N T)
    (hrt : (if ins.1.length == maxEntries then
        node.branch [((splitNode rq ins.1).1.rectOf, (splitNode rq ins.1).1),
          ((splitNode rq ins.1).2.rectOf, (splitNode rq ins.1).2)]
      else ins.1) = rt) :
    tr.Insert ir data =
      { count := tr.count + 1, rect := rq,
        root := some (if orderBranches && !rt.isLeaf && (ins.2 || (ins.1.length == maxEntries))
          then rt.sortTop else rt) } := by
  rw [RTreeG2.Insert]
  simp only [hroot, hins, hrq, hrt]

/-- `Insert` preserves the steady-state invariant and adds exactly the new
entry (up to order). -/
theorem Insert_spec (tr : RTreeG2 N T) (ir : rect N) (data : T) (hinv : Inv tr) :
    Inv (tr.Insert ir data) ∧
    (treeEntries (tr.Insert ir data)).Perm ((ir, data) :: treeEntries tr) := by
  obtain ⟨hcount, hzero, hsome⟩ := hinv
  rcases hroot : tr.root with _ | r
  · -- empty tree: the insert lands in a fresh singleton leaf
    have hnil : treeEntries tr = [] := by rw [treeEntries, hroot]
    have hstep : nodeInsert ir (node.leaf ([] : List (RTree.rect N × T))) ir data =
        (node.leaf [(ir, data)], false) := by
      rw [nodeInsert]
      simp [rsearch, insertAt, rect.contains_refl]
    have hIeq : tr.Insert ir data = ⟨tr.count + 1, ir, some (node.leaf [(ir, data)])⟩ := by
      rw [RTreeG2.Insert]
      simp only [hroot, hstep]
      rfl
    rw [hIeq]
    have hE : treeEntries (⟨tr.count + 1, ir, some (node.leaf [(ir, data)])⟩ : RTreeG2 N T) =
        [(ir, data)] := rfl
    refine ⟨⟨?_, ?_, ?_⟩, ?_⟩
    · rw [hE]
      show tr.count + 1 = (([(ir, data)] : List (RTree.rect N × T)).length : Int)
      rw [hcount, hnil]
      simp
    · intro h
      exact Option.noConfusion h
    · intro r' hr'
      have hr2 : node.leaf [(ir, data)] = r' := Option.some_inj.mp hr'
      subst hr2
      refine ⟨rfl, rfl, rfl, by simp [Entries], rfl⟩
    · rw [hE, hnil]
  · -- non-empty tree
    obtain ⟨ht, hs, hm, hne, hrect⟩ := hsome r hroot
    have htreeE : treeEntries tr = Entries r := by rw [treeEntries, hroot]
    obtain ⟨ins, hins⟩ : ∃ p, nodeInsert tr.rect r ir data = p := ⟨_, rfl⟩
    have master := nodeInsert_spec tr.rect r ir data ht hs hm hne hrect
    rw [hins] at master
    obtain ⟨mPerm, mTight, mSorted, mGrown, mLen, mSub, mLeaf⟩ := master
    obtain ⟨rq, hrq⟩ : ∃ q, (if ins.2 then rect.expand tr.rect ir else tr.rect) = q := ⟨_, rfl⟩
    have hrqMBR : rq = nrect (rectsOf (Entries ins.1)) := by
      rw [nrect_entries_cons_perm mPerm hne, ← hrect, ← hrq]
      cases hg2 : ins.2 with
      | false =>
        simp only [Bool.false_eq_true, if_false]
        have hcont : rect.contains tr.rect ir = true := by
          rw [hg2] at mGrown
          cases h3 : rect.contains tr.rect ir with
          | false => rw [h3] at mGrown; simp at mGrown
          | true => rfl
        rw [rect.expand_eq_of_contains hcont]
      | true =>
        simp only [if_true]
    obtain ⟨rt, hrt⟩ : ∃ m, (if ins.1.length == maxEntries then
        node.branch [((splitNode rq ins.1).1.rectOf, (splitNode rq ins.1).1),
          ((splitNode rq ins.1).2.rectOf, (splitNode rq ins.1).2)]
      else ins.1) = m := ⟨_, rfl⟩
    have hIeq := Insert_some_eq tr ir data r hroot ins hins rq hrq rt hrt
    have hrtP : (Entries rt).Perm ((ir, data) :: Entries r) ∧ tightB rt = true ∧
        subSortedB rt = true ∧ smallB rt = true ∧
        ((orderBranches && !rt.isLeaf && (ins.2 || (ins.1.length == maxEntries))) = false →
          allSortedB rt = true) := by
      cases hsp : (ins.1.length == maxEntries) with
      | false =>
        rw [hsp] at hrt
        simp only [Bool.false_eq_true, if_false] at hrt
        subst hrt
        refine ⟨mPerm, mTight, subSortedB_of_allSortedB mSorted, ?_, fun _ => mSorted⟩
        rw [smallB_eq, Bool.and_eq_true, decide_eq_true_eq]
        refine ⟨?_, mSub⟩
        have h64 : ins.1.length ≠ maxEntries := by
          intro he
          rw [he] at hsp
          simp at hsp
        rw [maxEntries_eq] at mLen h64 ⊢
        omega
      | true =>
        have h64 : ins.1.length = maxEntries := by simpa using hsp
        obtain ⟨sPerm, sT1, sT2, sS1, sS2, sM1, sM2, _, _, _, _, sNe1, sNe2, sR1, sR2⟩ :=
          splitNode_spec rq ins.1 h64 mTight (subSortedB_of_allSortedB mSorted) mSub
        rw [hsp] at hrt
        simp only [if_true] at hrt
        subst hrt
        refine ⟨?_, ?_, ?_, ?_, ?_⟩
        · rw [Entries_branch]
          simp only [entriesL, List.append_nil]
          exact sPerm.trans mPerm
        · rw [tightB, tightL_iff]
          intro cpair hc
          rcases List.mem_cons.mp hc with rfl | hc
          · exact ⟨sR1, sNe1, sT1⟩
          rcases List.mem_cons.mp hc with rfl | hc
          · exact ⟨sR2, sNe2, sT2⟩
          · cases hc
        · rw [subSortedB, sortedKidsB_iff]
          intro cpair hc
          rcases List.mem_cons.mp hc with rfl | hc
          · exact sS1
          rcases List.mem_cons.mp hc with rfl | hc
          · exact sS2
          · cases hc
        · rw [smallB, Bool.and_eq_true, decide_eq_true_eq, smallKidsB_iff]
          refine ⟨by simp [maxEntries_eq], ?_⟩
          intro cpair hc
          rcases List.mem_cons.mp hc with rfl | hc
          · exact sM1
          rcases List.mem_cons.mp hc with rfl | hc
          · exact sM2
          · cases hc
        · intro hcondf
          exfalso
          simp [orderBranches, node.isLeaf] at hcondf
    obtain ⟨hrtPerm, hrtTight, hrtSub, hrtSmall, hrtSortF⟩ := hrtP
    obtain ⟨rf, hrf⟩ : ∃ f,
        (if orderBranches && !rt.isLeaf && (ins.2 || (ins.1.length == maxEntries))
          then rt.sortTop else rt) = f := ⟨_, rfl⟩
    have hrfP : (Entries rf).Perm ((ir, data) :: Entries r) ∧ tightB rf = true ∧
        allSortedB rf = true ∧ smallB rf = true := by
      cases hcond : (orderBranches && !rt.isLeaf && (ins.2 || (ins.1.length == maxEntries))) with
      | false =>
        rw [hcond] at hrf
        simp only [Bool.false_eq_true, if_false] at hrf
        subst hrf
        exact ⟨hrtPerm, hrtTight, hrtSortF hcond, hrtSmall⟩
      | true =>
        rw [hcond] at hrf
        simp only [if_true] at hrf
        subst hrf
        obtain ⟨p1, p2, p3, p4⟩ := sortTop_spec rt hrtTight hrtSub hrtSmall
        exact ⟨p1.trans hrtPerm, p2, p3, p4⟩
    obtain ⟨hfPerm, hfTight, hfSorted, hfSmall⟩ := hrfP
    rw [hrf] at hIeq
    rw [hIeq]
    have hEtree : treeEntries ({ count := tr.count + 1, rect := rq, root := some rf } :
        RTreeG2 N T) = Entries rf := rfl
    have hfne : Entries rf ≠ [] := by
      intro h0
      have hl := hfPerm.length_eq
      rw [h0] at hl
      simp at hl
    refine ⟨⟨?_, ?_, ?_⟩, ?_⟩
    · rw [hEtree]
      show tr.count + 1 = ((Entries rf).length : Int)
      have hlen := hfPerm.length_eq
      rw [List.length_cons] at hlen
      rw [hlen, hcount, htreeE]
      push_cast
      ring
    · intro h
      exact Option.noConfusion h
    · intro r' hr'
      have hr2 : rf = r' := Option.some_inj.mp hr'
      subst hr2
      refine ⟨hfTight, hfSorted, hfSmall, hfne, ?_⟩
      show rq = nrect (rectsOf (Entries rf))
      exact hrqMBR.trans (nrect_perm ((hfPerm.trans mPerm.symm).map Prod.fst)).symm
    · rw [hEtree, htreeE]
      exact hfPerm

/-- Entries below a list of reinserted subtrees, in order. -/
def entriesN : List (node N T) → List (rect N × T)
  | [] => []
  | n :: ns => Entries n ++ entriesN ns

mutual

/-- The entry `delete` removes, by the spec's restricted-descent rule: in a
leaf, the first entry whose rect is contained in the target with a
value-equal payload; in a branch, try each child whose stored rect contains
the target, in order, and take the first hit. -/
def findDel (ir : rect N) (data : T) : node N T → Option (rect N × T)
  | .leaf l => l.find? (fun p => rect.contains ir p.1 && compare p.2 data)
  | .branch cs => findDelL ir data cs

/-- `findDel` over a branch's child list. -/
def findDelL (ir : rect N) (data : T) : List (rect N × node N T) → Option (rect N × T)
  | [] => none
  | c :: cs =>
    if rect.contains c.1 ir then
      match findDel ir data c.2 with
      | some e => some e
      | none => findDelL ir data cs
    else findDelL ir data cs

end

theorem entriesN_append (l₁ l₂ : List (node N T)) :
    entriesN (l₁ ++ l₂) = entriesN l₁ ++ entriesN l₂ := by
  induction l₁ with
  | nil => simp [entriesN]
  | cons n ns ih => simp [entriesN, ih]

/-- `findRemove` finding nothing is exactly `find?` finding nothing. -/
theorem findRemove_none {ir : rect N} {data : T} {l : List (rect N × T)} :
    findRemove ir data l = none ↔
      l.find? (fun p => rect.contains ir p.1 && compare p.2 data) = none := by
  induction l with
  | nil => simp [findRemove]
  | cons e es ih =>
    rw [findRemove]
    by_cases hp : (rect.contains ir e.1 && compare e.2 data) = true
    · rw [if_pos hp,
        @List.find?_cons_of_pos _ (fun p => rect.contains ir p.1 && compare p.2 data) e es hp]
      simp
    · rw [if_neg hp,
        @List.find?_cons_of_neg _ (fun p => rect.contains ir p.1 && compare p.2 data) e es hp,
        ← ih]
      rcases hfr : findRemove ir data es with _ | ⟨pre, x, post⟩ <;> simp

/-- A successful `findRemove` splits the list at the first `find?` hit. -/
theorem findRemove_some {ir : rect N} {data : T} {l pre post : List (rect N × T)}
    {e : rect N × T} (h : findRemove ir data l = some (pre, e, post)) :
    l = pre ++ e :: post ∧ (rect.contains ir e.1 && compare e.2 data) = true ∧
    l.find? (fun p => rect.contains ir p.1 && compare p.2 data) = some e := by
  induction l generalizing pre with
  | nil => rw [findRemove] at h; cases h
  | cons a es ih =>
    rw [findRemove] at h
    by_cases hp : (rect.contains ir a.1 && compare a.2 data) = true
    · rw [if_pos hp] at h
      obtain ⟨rfl, rfl, rfl⟩ : pre = [] ∧ a = e ∧ es = post := by
        cases h
        exact ⟨rfl, rfl, rfl⟩
      exact ⟨rfl, hp,
        @List.find?_cons_of_pos _ (fun p => rect.contains ir p.1 && compare p.2 data) a es hp⟩
    · rw [if_neg hp] at h
      rcases hfr : findRemove ir data es with _ | ⟨pre₁, x, post₁⟩
      · rw [hfr] at h; cases h
      · rw [hfr] at h
        obtain ⟨rfl, rfl, rfl⟩ : pre = a :: pre₁ ∧ x = e ∧ post₁ = post := by
          cases h
          exact ⟨rfl, rfl, rfl⟩
        obtain ⟨h1, h2, h3⟩ := ih hfr
        refine ⟨by rw [h1]; rfl, h2, ?_⟩
        rw [@List.find?_cons_of_neg _ (fun p => rect.contains ir p.1 && compare p.2 data) a es hp,
          h3]

/-- A tight node with a non-empty top list has entries below it. -/
theorem Entries_ne_of_tight {n : node N T} (ht : tightB n = true) (hl : 0 < n.length) :
    Entries n ≠ [] := by
  cases n with
  | leaf l =>
    rw [node_length_leaf] at hl
    rw [Entries_leaf]
    exact List.ne_nil_of_length_pos hl
  | branch cs =>
    rw [node_length_branch] at hl
    rw [Entries_branch]
    exact entriesL_ne_nil ht (List.ne_nil_of_length_pos hl)

/-- Removing an entry strictly inside the MBR leaves the MBR unchanged: the
deleted rect sits inside the target, which touches no edge of the MBR, so
every extreme is still attained by a surviving entry. -/
theorem nrect_remove_interior {l₁ l₂ : List (rect N × α)} {e : rect N × α} {ir nr : rect N}
    (hnr : nr = nrect (rectsOf (l₁ ++ e :: l₂))) (hcont : rect.contains ir e.1 = true)
    (hedge : rect.onedge ir nr = false) (hne : l₁ ++ l₂ ≠ []) :
    nr = nrect (rectsOf (l₁ ++ l₂)) := by
  have hperm : (rectsOf (l₁ ++ e :: l₂)).Perm (e.1 :: rectsOf (l₁ ++ l₂)) :=
    List.perm_middle.map Prod.fst
  have hA : nr = rect.expand e.1 (nrect (rectsOf (l₁ ++ l₂))) := by
    rw [hnr, nrect_perm hperm, nrect_cons_ne e.1 (rectsOf_ne_nil hne)]
  obtain ⟨he1, he2, he3, he4⟩ := (rect.onedge_false_iff ir nr).mp hedge
  obtain ⟨hc1, hc2, hc3, hc4⟩ := (rect.contains_iff ir e.1).mp hcont
  rw [rect.expand_def] at hA
  have ha : nr.min0 = min e.1.min0 (nrect (rectsOf (l₁ ++ l₂))).min0 := by rw [hA]
  have hb : nr.min1 = min e.1.min1 (nrect (rectsOf (l₁ ++ l₂))).min1 := by rw [hA]
  have hc : nr.max0 = max e.1.max0 (nrect (rectsOf (l₁ ++ l₂))).max0 := by rw [hA]
  have hd : nr.max1 = max e.1.max1 (nrect (rectsOf (l₁ ++ l₂))).max1 := by rw [hA]
  have h1 : nr.min0 = (nrect (rectsOf (l₁ ++ l₂))).min0 := by
    rcases le_total e.1.min0 (nrect (rectsOf (l₁ ++ l₂))).min0 with h | h
    · rw [min_eq_left h] at ha
      exact absurd (ha ▸ lt_of_lt_of_le he1 hc1) (lt_irrefl _)
    · rw [min_eq_right h] at ha
      exact ha
  have h2 : nr.min1 = (nrect (rectsOf (l₁ ++ l₂))).min1 := by
    rcases le_total e.1.min1 (nrect (rectsOf (l₁ ++ l₂))).min1 with h | h
    · rw [min_eq_left h] at hb
      exact absurd (hb ▸ lt_of_lt_of_le he2 hc3) (lt_irrefl _)
    · rw [min_eq_right h] at hb
      exact hb
  have h3 : nr.max0 = (nrect (rectsOf (l₁ ++ l₂))).max0 := by
    rcases le_total e.1.max0 (nrect (rectsOf (l₁ ++ l₂))).max0 with h | h
    · rw [max_eq_right h] at hc
      exact hc
    · rw [max_eq_left h] at hc
      exact absurd (hc ▸ lt_of_le_of_lt hc2 he3) (lt_irrefl _)
  have h4 : nr.max1 = (nrect (rectsOf (l₁ ++ l₂))).max1 := by
    rcases le_total e.1.max1 (nrect (rectsOf (l₁ ++ l₂))).max1 with h | h
    · rw [max_eq_right h] at hd
      exact hd
    · rw [max_eq_left h] at hd
      exact absurd (hd ▸ lt_of_le_of_lt hc4 he4) (lt_irrefl _)
  calc nr = ⟨nr.min0, nr.min1, nr.max0, nr.max1⟩ := rfl
    _ = nrect (rectsOf (l₁ ++ l₂)) := by rw [h1, h2, h3, h4]

/-- Restoring sortedness after a slot's key grew: the decomposition produced
by `orderToRight` is sorted. -/
theorem sorted_insert_right {xs ys₁ ys₂ : List (rect N × node N T)}
    {c e : rect N × node N T}
    (hsorted : sortedMin0 (xs ++ c :: (ys₁ ++ ys₂)))
    (hce : c.1.min0 ≤ e.1.min0)
    (hall : ∀ b ∈ ys₁, b.1.min0 < e.1.min0)
    (hhead : ∀ b, ys₂.head? = some b → ¬ b.1.min0 < e.1.min0) :
    sortedMin0 ((xs ++ ys₁) ++ e :: ys₂) := by
  obtain ⟨hxs, hmid, hcross⟩ := sortedMin0_append_iff.mp hsorted
  rw [sortedMin0_cons_iff] at hmid
  obtain ⟨hcall, hys⟩ := hmid
  obtain ⟨hys₁, hys₂, hy12⟩ := sortedMin0_append_iff.mp hys
  have heys₂ : ∀ y ∈ ys₂, e.1.min0 ≤ y.1.min0 := by
    intro y hy
    cases hhd : ys₂.head? with
    | none =>
      rw [List.head?_eq_none_iff] at hhd
      rw [hhd] at hy
      cases hy
    | some b =>
      have hby : b.1.min0 ≤ y.1.min0 := by
        have hbmem := List.mem_of_mem_head? (Option.mem_def.mpr hhd)
        cases ys₂ with
        | nil => cases hy
        | cons z zs =>
          have hz : z = b := by
            rw [List.head?] at hhd
            cases hhd
            rfl
          subst hz
          rcases List.mem_cons.mp hy with rfl | hy
          · exact le_refl _
          · exact (sortedMin0_cons_iff.mp hys₂).1 y hy
      exact le_trans (le_of_not_lt (hhead b hhd)) hby
  rw [sortedMin0_append_iff]
  refine ⟨?_, ?_, ?_⟩
  · rw [sortedMin0_append_iff]
    exact ⟨hxs, hys₁, fun a ha b hb =>
      hcross a ha b (List.mem_cons_of_mem _ (List.mem_append_left _ hb))⟩
  · rw [sortedMin0_cons_iff]
    exact ⟨heys₂, hys₂⟩
  · intro a ha b hb
    have hae : a.1.min0 ≤ e.1.min0 := by
      rcases List.mem_append.mp ha with h | h
      · exact le_trans (hcross a h c (List.mem_cons_self _ _)) hce
      · exact (hall a h).le
    rcases List.mem_cons.mp hb with rfl | hb
    · exact hae
    · exact le_trans hae (heys₂ b hb)

theorem findDelL_cons_nocontain {ir : rect N} {data : T} {c : rect N × node N T}
    {cs : List (rect N × node N T)} (hcc : rect.contains c.1 ir = false) :
    findDelL ir data (c :: cs) = findDelL ir data cs := by
  rw [findDelL, if_neg (by simp [hcc])]

theorem findDelL_cons_hit {ir : rect N} {data : T} {c : rect N × node N T}
    {cs : List (rect N × node N T)} {e₀ : rect N × T}
    (hcc : rect.contains c.1 ir = true) (hfd : findDel ir data c.2 = some e₀) :
    findDelL ir data (c :: cs) = some e₀ := by
  rw [findDelL, if_pos hcc, hfd]

theorem findDelL_cons_miss {ir : rect N} {data : T} {c : rect N × node N T}
    {cs : List (rect N × node N T)}
    (hcc : rect.contains c.1 ir = true) (hfd : findDel ir data c.2 = none) :
    findDelL ir data (c :: cs) = findDelL ir data cs := by
  rw [findDelL, if_pos hcc, hfd]

theorem nodeDeleteGo_cons_nocontain (nr : rect N) (ir : rect N) (data : T)
    (pre : List (rect N × node N T)) (c : rect N × node N T)
    (rest₁ : List (rect N × node N T)) (hcc : rect.contains c.1 ir = false) :
    nodeDeleteGo nr ir data pre (c :: rest₁) = nodeDeleteGo nr ir data (pre ++ [c]) rest₁ := by
  rw [nodeDeleteGo, if_neg (by simp [hcc])]

theorem nodeDeleteGo_cons_norem (nr : rect N) (ir : rect N) (data : T)
    (pre : List (rect N × node N T)) (c : rect N × node N T)
    (rest₁ : List (rect N × node N T)) (hcc : rect.contains c.1 ir = true)
    (res : rect N × node N T × Bool × Bool × List (node N T))
    (hres : nodeDelete c.1 c.2 ir data = res) (hrem : res.2.2.1 = false) :
    nodeDeleteGo nr ir data pre (c :: rest₁) = nodeDeleteGo nr ir data (pre ++ [c]) rest₁ := by
  rw [nodeDeleteGo, if_pos hcc, hres]
  simp only [hrem, Bool.false_eq_true, if_false]

theorem nodeDeleteGo_cons_hit (nr : rect N) (ir : rect N) (data : T)
    (pre : List (rect N × node N T)) (c : rect N × node N T)
    (rest₁ : List (rect N × node N T)) (hcc : rect.contains c.1 ir = true)
    (res : rect N × node N T × Bool × Bool × List (node N T))
    (hres : nodeDelete c.1 c.2 ir data = res) (hrem : res.2.2.1 = true) :
    nodeDeleteGo nr ir data pre (c :: rest₁) =
      if res.2.1.length < minEntries then
        (nrect (rectsOf (pre ++ rest₁)), .branch (pre ++ rest₁), true, true,
          res.2.2.2.2 ++ [res.2.1])
      else if res.2.2.2.1 then
        ((if !(rect.equals res.1 c.1) then nrect (rectsOf (pre ++ (res.1, res.2.1) :: rest₁))
            else nr),
         .branch (orderToRight (pre ++ (res.1, res.2.1) :: rest₁) pre.length).1, true,
         !(rect.equals res.1 c.1), res.2.2.2.2)
      else (nr, .branch (pre ++ (res.1, res.2.1) :: rest₁), true, false, res.2.2.2.2) := by
  rw [nodeDeleteGo, if_pos hcc, hres]
  simp only [hrem, if_true]
  rfl

mutual

/-- Master delete lemma: on a tight, sorted, steady node carrying its correct
MBR, `nodeDelete` removes exactly the entry selected by the restricted-descent
rule `findDel` (or nothing), preserves tightness, sortedness and steadiness,
keeps the incoming MBR when not shrunk, and recomputes it correctly when the
result is non-empty. -/
theorem nodeDelete_spec (nr : rect N) (n : node N T) (ir : rect N) (data : T)
    (htight : tightB n = true) (hsorted : allSortedB n = true) (hsmall : smallB n = true)
    (hnr : nr = nrect (rectsOf (Entries n))) :
    (findDel ir data n = none → nodeDelete nr n ir data = (nr, n, false, false, [])) ∧
    (∀ e, findDel ir data n = some e →
      (nodeDelete nr n ir data).2.2.1 = true ∧
      rect.contains ir e.1 = true ∧ compare e.2 data = true ∧
      (Entries n).Perm (e :: (Entries (nodeDelete nr n ir data).2.1 ++
        entriesN (nodeDelete nr n ir data).2.2.2.2)) ∧
      tightB (nodeDelete nr n ir data).2.1 = true ∧
      allSortedB (nodeDelete nr n ir data).2.1 = true ∧
      smallB (nodeDelete nr n ir data).2.1 = true ∧
      ((nodeDelete nr n ir data).2.2.2.1 = false → (nodeDelete nr n ir data).1 = nr) ∧
      (Entries (nodeDelete nr n ir data).2.1 ≠ [] →
        (nodeDelete nr n ir data).1 =
          nrect (rectsOf (Entries (nodeDelete nr n ir data).2.1)))) := by
  cases hn : n with
  | leaf l =>
    rw [hn] at htight hsorted hsmall hnr
    constructor
    · intro hnone
      rw [findDel] at hnone
      have hfr : findRemove ir data l = none := findRemove_none.mpr hnone
      rw [nodeDelete, hfr]
    · intro e he
      rw [findDel] at he
      rcases hfr : findRemove ir data l with _ | ⟨⟨pre, x, post⟩⟩
      · rw [findRemove_none.mp hfr] at he
        cases he
      · obtain ⟨hsplit, hmatch, hfind⟩ := findRemove_some hfr
        have hex : e = x := by
          rw [hfind] at he
          cases he
          rfl
        subst hex
        rw [nodeDelete, hfr]
        rw [Bool.and_eq_true] at hmatch
        have hlen : l.length = pre.length + post.length + 1 := by
          rw [hsplit]
          simp only [List.length_append, List.length_cons]
          omega
        refine ⟨rfl, hmatch.1, hmatch.2, ?_, rfl, ?_, ?_, ?_, ?_⟩
        · show l.Perm (e :: ((pre ++ post) ++ entriesN ([] : List (node N T))))
          rw [hsplit]
          show (pre ++ e :: post).Perm (e :: ((pre ++ post) ++ []))
          rw [List.append_nil]
          exact List.perm_middle
        · show allSortedB (node.leaf (pre ++ post)) = true
          rw [allSortedB, issorted_iff]
          rw [allSortedB, issorted_iff, hsplit] at hsorted
          exact sortedMin0_sublist ((List.sublist_cons_self e post).append_left pre) hsorted
        · show smallB (node.leaf (pre ++ post)) = true
          rw [smallB, decide_eq_true_eq]
          rw [smallB, decide_eq_true_eq] at hsmall
          rw [List.length_append]
          omega
        · intro hsh
          have hsh2 : rect.onedge ir nr = false := hsh
          show (if rect.onedge ir nr = true then nrect (rectsOf (pre ++ post)) else nr) = nr
          rw [hsh2]
          simp
        · intro hne2
          have hne3 : pre ++ post ≠ [] := hne2
          show (if rect.onedge ir nr = true then nrect (rectsOf (pre ++ post)) else nr) =
            nrect (rectsOf (pre ++ post))
          cases hsh : rect.onedge ir nr with
          | true => simp
          | false =>
            simp only [Bool.false_eq_true, if_false]
            rw [hsplit] at hnr
            exact nrect_remove_interior hnr hmatch.1 hsh hne3
  | branch cs =>
    rw [hn] at htight hsorted hsmall hnr
    have hOK : ∀ a ∈ ([] : List (rect N × node N T)) ++ cs, pairOK a := by
      intro a ha
      rw [List.nil_append] at ha
      obtain ⟨x1, x2, x3⟩ := (tightB_branch_iff cs).mp htight a ha
      exact ⟨x1, x2, x3, ((allSortedB_branch_iff cs).mp hsorted).2 a ha,
        ((smallB_branch_iff cs).mp hsmall).2 a ha⟩
    have hsorted0 : sortedMin0 (([] : List (rect N × node N T)) ++ cs) := by
      rw [List.nil_append]
      exact ((allSortedB_branch_iff cs).mp hsorted).1
    have hlen0 : (([] : List (rect N × node N T)) ++ cs).length ≤ maxEntries - 1 := by
      rw [List.nil_append]
      exact ((smallB_branch_iff cs).mp hsmall).1
    have hnr0 : nr = nrect (rectsOf (entriesL (([] : List (rect N × node N T)) ++ cs))) := hnr
    have hGo := nodeDeleteGo_spec nr ir data [] cs hOK hsorted0 hlen0 hnr0
    constructor
    · intro hnone
      rw [findDel] at hnone
      rw [nodeDelete]
      exact hGo.1 hnone
    · intro e he
      rw [findDel] at he
      rw [nodeDelete]
      exact hGo.2 e he
termination_by sizeOf n
decreasing_by
  subst hn
  simp

/-- The loop of `nodeDelete` over a branch's children: `pre` are the slots
already scanned (kept verbatim), `rest` those still to scan. -/
theorem nodeDeleteGo_spec (nr : rect N) (ir : rect N) (data : T)
    (pre rest : List (rect N × node N T))
    (hOK : ∀ a ∈ pre ++ rest, pairOK a)
    (hsorted : sortedMin0 (pre ++ rest))
    (hlen : (pre ++ rest).length ≤ maxEntries - 1)
    (hnr : nr = nrect (rectsOf (entriesL (pre ++ rest)))) :
    (findDelL ir data rest = none →
      nodeDeleteGo nr ir data pre rest = (nr, .branch (pre ++ rest), false, false, [])) ∧
    (∀ e, findDelL ir data rest = some e →
      (nodeDeleteGo nr ir data pre rest).2.2.1 = true ∧
      rect.contains ir e.1 = true ∧ compare e.2 data = true ∧
      (entriesL (pre ++ rest)).Perm (e :: (Entries (nodeDeleteGo nr ir data pre rest).2.1 ++
        entriesN (nodeDeleteGo nr ir data pre rest).2.2.2.2)) ∧
      tightB (nodeDeleteGo nr ir data pre rest).2.1 = true ∧
      allSortedB (nodeDeleteGo nr ir data pre rest).2.1 = true ∧
      smallB (nodeDeleteGo nr ir data pre rest).2.1 = true ∧
      ((nodeDeleteGo nr ir data pre rest).2.2.2.1 = false →
        (nodeDeleteGo nr ir data pre rest).1 = nr) ∧
      (Entries (nodeDeleteGo nr ir data pre rest).2.1 ≠ [] →
        (nodeDeleteGo nr ir data pre rest).1 =
          nrect (rectsOf (Entries (nodeDeleteGo nr ir data pre rest).2.1)))) := by
  cases hr : rest with
  | nil =>
    constructor
    · intro _
      rw [nodeDeleteGo, List.append_nil]
    · intro e he
      rw [findDelL] at he
      cases he
  | cons c rest₁ =>
    rw [hr] at hOK hsorted hlen hnr
    have hpc : (pre ++ [c]) ++ rest₁ = pre ++ c :: rest₁ := by simp
    have hcP : pairOK c := hOK c (List.mem_append_right _ (List.mem_cons_self _ _))
    obtain ⟨hc1, hcne, hctight, hcsorted, hcsmall⟩ := hcP
    cases hcc : rect.contains c.1 ir with
    | false =>
      have hskip := nodeDeleteGo_cons_nocontain nr ir data pre c rest₁ hcc
      have hIH := nodeDeleteGo_spec nr ir data (pre ++ [c]) rest₁
        (by rw [hpc]; exact hOK) (by rw [hpc]; exact hsorted) (by rw [hpc]; exact hlen)
        (by rw [hpc]; exact hnr)
      rw [hpc] at hIH
      rw [hskip, findDelL_cons_nocontain hcc]
      exact hIH
    | true =>
      have hD := nodeDelete_spec c.1 c.2 ir data hctight hcsorted hcsmall hc1
      obtain ⟨res, hres⟩ : ∃ p, nodeDelete c.1 c.2 ir data = p := ⟨_, rfl⟩
      rw [hres] at hD
      obtain ⟨cNone, cSome⟩ := hD
      rcases hfd : findDel ir data c.2 with _ | e₀
      · have hres2 : res = (c.1, c.2, false, false, []) := cNone hfd
        have hskip := nodeDeleteGo_cons_norem nr ir data pre c rest₁ hcc res hres
          (by rw [hres2])
        have hIH := nodeDeleteGo_spec nr ir data (pre ++ [c]) rest₁
          (by rw [hpc]; exact hOK) (by rw [hpc]; exact hsorted) (by rw [hpc]; exact hlen)
          (by rw [hpc]; exact hnr)
        rw [hpc] at hIH
        rw [hskip, findDelL_cons_miss hcc hfd]
        exact hIH
      · obtain ⟨cRem, cCont, cCmp, cPerm, cTight, cSorted, cSmall, cShr, cMBR⟩ :=
          cSome e₀ hfd
        have hout := nodeDeleteGo_cons_hit nr ir data pre c rest₁ hcc res hres cRem
        have hfdl : findDelL ir data (c :: rest₁) = some e₀ := findDelL_cons_hit hcc hfd
        have hOKpr : ∀ a ∈ pre ++ rest₁, pairOK a := by
          intro a ha
          refine hOK a ?_
          rcases List.mem_append.mp ha with h | h
          · exact List.mem_append_left _ h
          · exact List.mem_append_right _ (List.mem_cons_of_mem _ h)
        have hsortedpr : sortedMin0 (pre ++ rest₁) :=
          sortedMin0_sublist ((List.sublist_cons_self c rest₁).append_left pre) hsorted
        have hlenpr : (pre ++ rest₁).length ≤ (pre ++ c :: rest₁).length := by
          simp only [List.length_append, List.length_cons]
          omega
        have hEfull : entriesL (pre ++ c :: rest₁) =
            entriesL pre ++ (Entries c.2 ++ entriesL rest₁) := by
          rw [entriesL_append, entriesL]
        rw [hout]
        constructor
        · intro hnone
          rw [hfdl] at hnone
          cases hnone
        · intro e he
          rw [hfdl] at he
          have he2 : e₀ = e := by
            cases he
            rfl
          subst he2
          by_cases hul : res.2.1.length < minEntries
          · -- underflow: drop the slot, schedule the child for reinsertion
            rw [if_pos hul]
            have htL1 : tightL (pre ++ rest₁) = true := tightL_of_ok hOKpr
            refine ⟨rfl, cCont, cCmp, ?_, ?_, ?_, ?_, ?_, ?_⟩
            · show (entriesL (pre ++ c :: rest₁)).Perm
                (e₀ :: (entriesL (pre ++ rest₁) ++ entriesN (res.2.2.2.2 ++ [res.2.1])))
              have step1 : (entriesL (pre ++ c :: rest₁)).Perm
                  (entriesL pre ++ ((e₀ :: (Entries res.2.1 ++ entriesN res.2.2.2.2)) ++
                    entriesL rest₁)) := by
                rw [hEfull]
                exact (cPerm.append_right _).append_left _
              refine step1.trans ?_
              simp only [entriesL_append, entriesN_append, entriesN, List.append_nil]
              rw [← Multiset.coe_eq_coe]
              simp only [← Multiset.coe_add, ← Multiset.cons_coe, ← Multiset.singleton_add]
              ac_rfl
            · show tightB (node.branch (pre ++ rest₁)) = true
              rw [tightB]
              exact htL1
            · show allSortedB (node.branch (pre ++ rest₁)) = true
              rw [allSortedB, Bool.and_eq_true, issorted_iff]
              exact ⟨hsortedpr, sortedKidsB_of_ok hOKpr⟩
            · show smallB (node.branch (pre ++ rest₁)) = true
              rw [smallB, Bool.and_eq_true, decide_eq_true_eq]
              exact ⟨le_trans hlenpr hlen, smallKidsB_of_ok hOKpr⟩
            · intro h
              exact Bool.noConfusion h
            · intro hne2
              have hprne : pre ++ rest₁ ≠ [] := by
                intro h0
                apply hne2
                show entriesL (pre ++ rest₁) = []
                rw [h0]
                rfl
              show nrect (rectsOf (pre ++ rest₁)) = nrect (rectsOf (entriesL (pre ++ rest₁)))
              exact nrect_top_eq htL1 hprne
          · -- no underflow: write the updated slot back
            rw [if_neg hul]
            have hul2 : minEntries ≤ res.2.1.length := le_of_not_lt hul
            have hEchild : Entries res.2.1 ≠ [] :=
              Entries_ne_of_tight cTight (by rw [minEntries_eq] at hul2; omega)
            have hres1 : res.1 = nrect (rectsOf (Entries res.2.1)) := cMBR hEchild
            have hsubE : ∀ x ∈ Entries res.2.1, x ∈ Entries c.2 := by
              intro x hx
              exact cPerm.symm.subset
                (List.mem_cons_of_mem _ (List.mem_append_left _ hx))
            have hcr : rect.contains c.1 res.1 = true := by
              rw [hres1, hc1]
              refine contains_nrect_of_forall (rectsOf_ne_nil hEchild) ?_
              intro a ha
              obtain ⟨x, hx, rfl⟩ := List.mem_map.mp ha
              exact nrect_contains_mem (List.mem_map.mpr ⟨x, hsubE x hx, rfl⟩)
            have hminle : c.1.min0 ≤ res.1.min0 := ((rect.contains_iff c.1 res.1).mp hcr).1
            have hOKcs₁ : ∀ a ∈ pre ++ (res.1, res.2.1) :: rest₁, pairOK a := by
              intro a ha
              rcases List.mem_append.mp ha with h | h
              · exact hOK a (List.mem_append_left _ h)
              · rcases List.mem_cons.mp h with rfl | h
                · exact ⟨hres1, hEchild, cTight, cSorted, cSmall⟩
                · exact hOK a (List.mem_append_right _ (List.mem_cons_of_mem _ h))
            have hlencs₁ : (pre ++ (res.1, res.2.1) :: rest₁).length =
                (pre ++ c :: rest₁).length := by
              simp only [List.length_append, List.length_cons]
            have hEcs₁ : entriesL (pre ++ (res.1, res.2.1) :: rest₁) =
                entriesL pre ++ (Entries res.2.1 ++ entriesL rest₁) := by
              rw [entriesL_append, entriesL]
            have hpermBase : (entriesL (pre ++ c :: rest₁)).Perm
                (e₀ :: (entriesL (pre ++ (res.1, res.2.1) :: rest₁) ++
                  entriesN res.2.2.2.2)) := by
              rw [hEfull, hEcs₁]
              refine ((cPerm.append_right _).append_left _).trans ?_
              rw [← Multiset.coe_eq_coe]
              simp only [← Multiset.coe_add, ← Multiset.cons_coe, ← Multiset.singleton_add]
              ac_rfl
            have htL1 : tightL (pre ++ (res.1, res.2.1) :: rest₁) = true :=
              tightL_of_ok hOKcs₁
            have htL0 : tightL (pre ++ c :: rest₁) = true := tightL_of_ok hOK
            by_cases hsh2 : res.2.2.2.1 = true
            · -- the child's rect shrank: restore order on the right
              rw [if_pos hsh2]
              obtain ⟨ys₁, ys₂, hys, hOR, hallR, hheadR⟩ :=
                orderToRight_spec pre rest₁ (res.1, res.2.1)
              have hOR1 : (orderToRight (pre ++ (res.1, res.2.1) :: rest₁) pre.length).1 =
                  (pre ++ ys₁) ++ (res.1, res.2.1) :: ys₂ := by rw [hOR]
              rw [hOR1]
              have hpermTop : ((pre ++ ys₁) ++ (res.1, res.2.1) :: ys₂).Perm
                  (pre ++ (res.1, res.2.1) :: rest₁) := by
                rw [hys]
                rw [← Multiset.coe_eq_coe]
                simp only [← Multiset.coe_add, ← Multiset.cons_coe, ← Multiset.singleton_add]
                ac_rfl
              have hOKcs₂ : ∀ a ∈ (pre ++ ys₁) ++ (res.1, res.2.1) :: ys₂, pairOK a :=
                fun a ha => hOKcs₁ a (hpermTop.subset ha)
              refine ⟨rfl, cCont, cCmp, ?_, ?_, ?_, ?_, ?_, ?_⟩
              · refine hpermBase.trans ?_
                have hE2 : (entriesL ((pre ++ ys₁) ++ (res.1, res.2.1) :: ys₂)).Perm
                    (entriesL (pre ++ (res.1, res.2.1) :: rest₁)) := entriesL_perm hpermTop
                exact ((hE2.symm.append_right _).cons e₀)
              · show tightB (node.branch ((pre ++ ys₁) ++ (res.1, res.2.1) :: ys₂)) = true
                rw [tightB]
                exact tightL_of_ok hOKcs₂
              · show allSortedB (node.branch ((pre ++ ys₁) ++ (res.1, res.2.1) :: ys₂)) = true
                rw [allSortedB, Bool.and_eq_true, issorted_iff]
                refine ⟨?_, sortedKidsB_of_ok hOKcs₂⟩
                refine sorted_insert_right ?_ hminle hallR hheadR
                rw [← hys]
                exact hsorted
              · show smallB (node.branch ((pre ++ ys₁) ++ (res.1, res.2.1) :: ys₂)) = true
                rw [smallB, Bool.and_eq_true, decide_eq_true_eq]
                refine ⟨?_, smallKidsB_of_ok hOKcs₂⟩
                rw [hpermTop.length_eq, hlencs₁]
                exact hlen
              · intro h
                cases heq : rect.equals res.1 c.1 with
                | true => simp
                | false =>
                  rw [heq] at h
                  exact Bool.noConfusion h
              · intro hne2
                cases heq : rect.equals res.1 c.1 with
                | false =>
                  have hgoal : nrect (rectsOf (pre ++ (res.1, res.2.1) :: rest₁)) =
                      nrect (rectsOf (entriesL ((pre ++ ys₁) ++ (res.1, res.2.1) :: ys₂))) := by
                    rw [nrect_top_eq htL1 (by simp)]
                    exact nrect_perm ((entriesL_perm hpermTop.symm).map Prod.fst)
                  exact hgoal
                | true =>
                  have hc1res : res.1 = c.1 := (rect.equals_iff res.1 c.1).mp heq
                  have hrects : rectsOf (pre ++ (res.1, res.2.1) :: rest₁) =
                      rectsOf (pre ++ c :: rest₁) := by
                    simp only [rectsOf, List.map_append, List.map_cons]
                    rw [hc1res]
                  have hstep : nr =
                      nrect (rectsOf (entriesL (pre ++ (res.1, res.2.1) :: rest₁))) := by
                    rw [← nrect_top_eq htL1 (by simp), hrects, hnr,
                      nrect_top_eq htL0 (by simp)]
                  exact hstep.trans
                    (nrect_perm ((entriesL_perm hpermTop).map Prod.fst)).symm
            · -- the child's rect is unchanged: plain write-back
              rw [if_neg hsh2]
              have hshf : res.2.2.2.1 = false := by
                cases h2 : res.2.2.2.1 with
                | false => rfl
                | true => exact absurd h2 hsh2
              have hc1res : res.1 = c.1 := cShr hshf
              refine ⟨rfl, cCont, cCmp, hpermBase, ?_, ?_, ?_, ?_, ?_⟩
              · show tightB (node.branch (pre ++ (res.1, res.2.1) :: rest₁)) = true
                rw [tightB]
                exact htL1
              · show allSortedB (node.branch (pre ++ (res.1, res.2.1) :: rest₁)) = true
                rw [allSortedB, Bool.and_eq_true, issorted_iff]
                refine ⟨?_, sortedKidsB_of_ok hOKcs₁⟩
                rw [hc1res]
                exact sortedMin0_replace_child hsorted
              · show smallB (node.branch (pre ++ (res.1, res.2.1) :: rest₁)) = true
                rw [smallB, Bool.and_eq_true, decide_eq_true_eq]
                refine ⟨?_, smallKidsB_of_ok hOKcs₁⟩
                rw [hlencs₁]
                exact hlen
              · intro _
                rfl
              · intro hne2
                have hrects : rectsOf (pre ++ (res.1, res.2.1) :: rest₁) =
                    rectsOf (pre ++ c :: rest₁) := by
                  simp only [rectsOf, List.map_append, List.map_cons]
                  rw [hc1res]
                show nr = nrect (rectsOf (entriesL (pre ++ (res.1, res.2.1) :: rest₁)))
                rw [← nrect_top_eq htL1 (by simp), hrects, hnr,
                  nrect_top_eq htL0 (by simp)]
termination_by sizeOf rest
decreasing_by
  all_goals subst hr
  all_goals rcases c with ⟨cr, cn⟩
  all_goals simp
  all_goals omega

end

theorem collapseRoot_eq_self {n : node N T}
    (h : ∀ c : rect N × node N T, n = node.branch [c] → False) :
    collapseRoot n = n := by
  cases n with
  | leaf l => rfl
  | branch cs =>
    cases cs with
    | nil => rfl
    | cons c cs' =>
      cases cs' with
      | nil => exact absurd rfl (h c)
      | cons d ds => rfl

/-- The root-collapse loop keeps the entries and all structural invariants. -/
theorem collapseRoot_spec (n : node N T) (ht : tightB n = true) (hs : allSortedB n = true)
    (hm : smallB n = true) :
    Entries (collapseRoot n) = Entries n ∧ tightB (collapseRoot n) = true ∧
    allSortedB (collapseRoot n) = true ∧ smallB (collapseRoot n) = true := by
  induction n using collapseRoot.induct with
  | case1 c ih =>
    obtain ⟨hc1, hcne, hctight⟩ := (tightB_branch_iff [c]).mp ht c (List.mem_cons_self _ _)
    have hcsorted := ((allSortedB_branch_iff [c]).mp hs).2 c (List.mem_cons_self _ _)
    have hcsmall := ((smallB_branch_iff [c]).mp hm).2 c (List.mem_cons_self _ _)
    have hcr : collapseRoot (node.branch [c]) = collapseRoot c.2 := by rw [collapseRoot]
    rw [hcr]
    obtain ⟨e1, e2, e3, e4⟩ := ih hctight hcsorted hcsmall
    refine ⟨?_, e2, e3, e4⟩
    rw [e1, Entries_branch, entriesL, entriesL, List.append_nil]
  | case2 n h =>
    rw [collapseRoot_eq_self h]
    exact ⟨rfl, ht, hs, hm⟩

/-- Folding `Insert` over an entry list preserves the invariant and appends
exactly those entries. -/
theorem foldl_Insert_spec (l : List (rect N × T)) : ∀ tr : RTreeG2 N T, Inv tr →
    Inv (l.foldl (fun acc e => acc.Insert e.1 e.2) tr) ∧
    (treeEntries (l.foldl (fun acc e => acc.Insert e.1 e.2) tr)).Perm
      (l ++ treeEntries tr) := by
  induction l with
  | nil =>
    intro tr h
    exact ⟨h, by simp⟩
  | cons e es ih =>
    intro tr h
    obtain ⟨h1, h2⟩ := Insert_spec tr e.1 e.2 h
    obtain ⟨h3, h4⟩ := ih _ h1
    refine ⟨h3, ?_⟩
    exact h4.trans ((h2.append_left es).trans List.perm_middle)

mutual

/-- `nodeReinsert` preserves the invariant and appends the subtree's
entries. -/
theorem nodeReinsert_spec (n : node N T) : ∀ tr : RTreeG2 N T, Inv tr →
    Inv (nodeReinsert tr n) ∧
    (treeEntries (nodeReinsert tr n)).Perm (Entries n ++ treeEntries tr) := by
  match n with
  | .leaf l =>
    intro tr h
    exact foldl_Insert_spec l tr h
  | .branch cs =>
    intro tr h
    exact nodeReinsertL_spec cs tr h

/-- `nodeReinsert` folded over a branch's children. -/
theorem nodeReinsertL_spec (cs : List (rect N × node N T)) : ∀ tr : RTreeG2 N T, Inv tr →
    Inv (nodeReinsertL tr cs) ∧
    (treeEntries (nodeReinsertL tr cs)).Perm (entriesL cs ++ treeEntries tr) := by
  match cs with
  | [] =>
    intro tr h
    refine ⟨h, ?_⟩
    show (treeEntries tr).Perm ([] ++ treeEntries tr)
    simp
  | c :: cs' =>
    intro tr h
    obtain ⟨h1, h2⟩ := nodeReinsert_spec c.2 tr h
    obtain ⟨h3, h4⟩ := nodeReinsertL_spec cs' (nodeReinsert tr c.2) h1
    refine ⟨h3, ?_⟩
    refine h4.trans ?_
    refine (h2.append_left (entriesL cs')).trans ?_
    show (entriesL cs' ++ (Entries c.2 ++ treeEntries tr)).Perm
      ((Entries c.2 ++ entriesL cs') ++ treeEntries tr)
    rw [← Multiset.coe_eq_coe]
    simp only [← Multiset.coe_add]
    ac_rfl

end

/-- Folding `nodeReinsert` over the scheduled subtrees. -/
theorem foldl_reinsert_spec (rs : List (node N T)) : ∀ tr : RTreeG2 N T, Inv tr →
    Inv (rs.foldl nodeReinsert tr) ∧
    (treeEntries (rs.foldl nodeReinsert tr)).Perm (entriesN rs ++ treeEntries tr) := by
  induction rs with
  | nil =>
    intro tr h
    refine ⟨h, ?_⟩
    show (treeEntries tr).Perm (entriesN [] ++ treeEntries tr)
    simp [entriesN]
  | cons n ns ih =>
    intro tr h
    obtain ⟨h1, h2⟩ := nodeReinsert_spec n tr h
    obtain ⟨h3, h4⟩ := ih _ h1
    refine ⟨h3, ?_⟩
    refine h4.trans ?_
    refine (h2.append_left (entriesN ns)).trans ?_
    show (entriesN ns ++ (Entries n ++ treeEntries tr)).Perm
      ((Entries n ++ entriesN ns) ++ treeEntries tr)
    rw [← Multiset.coe_eq_coe]
    simp only [← Multiset.coe_add]
    ac_rfl

/-- The deep-count decrement of `delete` counts exactly the entries below the
scheduled subtrees. -/
theorem deepCount_sum (rs : List (node N T)) :
    (rs.map (fun n => ((deepCount n : Nat) : Int))).sum = ((entriesN rs).length : Int) := by
  induction rs with
  | nil => simp [entriesN]
  | cons n ns ih =>
    rw [List.map_cons, List.sum_cons, ih, deepCount_eq]
    show (((Entries n).length : Int) + ((entriesN ns).length : Int)) =
      ((entriesN (n :: ns)).length : Int)
    rw [entriesN, List.length_append]
    push_cast
    ring

theorem delete_none_eq (tr : RTreeG2 N T) (ir : RTree.rect N) (data : T)
    (hroot : tr.root = none) : tr.delete ir data = (tr, false) := by
  rw [RTreeG2.delete]
  simp only [hroot]

theorem delete_nocontain_eq (tr : RTreeG2 N T) (ir : RTree.rect N) (data : T) (r : node N T)
    (hroot : tr.root = some r) (hcont : rect.contains tr.rect ir = false) :
    tr.delete ir data = (tr, false) := by
  rw [RTreeG2.delete]
  simp only [hroot, hcont, Bool.not_false, if_true]

theorem delete_norem_eq (tr : RTreeG2 N T) (ir : RTree.rect N) (data : T) (r : node N T)
    (hroot : tr.root = some r) (hcont : rect.contains tr.rect ir = true)
    (res : rect N × node N T × Bool × Bool × List (node N T))
    (hres : nodeDelete tr.rect r ir data = res) (hrem : res.2.2.1 = false) :
    tr.delete ir data =
      ({ count := tr.count, rect := res.1, root := some res.2.1 }, false) := by
  rw [RTreeG2.delete]
  simp only [hroot, hcont, Bool.not_true, Bool.false_eq_true, if_false, hres, hrem,
    Bool.not_false, if_true]

theorem delete_rem_eq (tr : RTreeG2 N T) (ir : RTree.rect N) (data : T) (r : node N T)
    (hroot : tr.root = some r) (hcont : rect.contains tr.rect ir = true)
    (res : rect N × node N T × Bool × Bool × List (node N T))
    (hres : nodeDelete tr.rect r ir data = res) (hrem : res.2.2.1 = true) :
    tr.delete ir data =
      (res.2.2.2.2.foldl nodeReinsert
        (if tr.count - 1 - ((res.2.2.2.2.map (fun n => (deepCount n : Int))).sum) = 0 then
          ({ count := tr.count - 1 - ((res.2.2.2.2.map (fun n => (deepCount n : Int))).sum),
             rect := zeroRect, root := none } : RTreeG2 N T)
         else
          { count := tr.count - 1 - ((res.2.2.2.2.map (fun n => (deepCount n : Int))).sum),
            rect := res.1, root := some (collapseRoot res.2.1) }), true) := by
  rw [RTreeG2.delete]
  simp only [hroot, hcont, Bool.not_true, Bool.false_eq_true, if_false, hres, hrem]

/-- Tree-level delete: the invariant is preserved; a `false` flag means the
tree is unchanged; the guards and the restricted-descent selection `findDel`
fully determine the outcome. -/
theorem delete_spec (tr : RTreeG2 N T) (ir : RTree.rect N) (data : T) (hinv : Inv tr) :
    Inv (tr.delete ir data).1 ∧
    ((tr.delete ir data).2 = false → (tr.delete ir data).1 = tr) ∧
    (tr.root = none → tr.delete ir data = (tr, false)) ∧
    (∀ r, tr.root = some r →
      (rect.contains tr.rect ir = false → tr.delete ir data = (tr, false)) ∧
      (rect.contains tr.rect ir = true → findDel ir data r = none →
        tr.delete ir data = (tr, false)) ∧
      (rect.contains tr.rect ir = true → ∀ e, findDel ir data r = some e →
        (tr.delete ir data).2 = true ∧ rect.contains ir e.1 = true ∧
        compare e.2 data = true ∧
        (treeEntries tr).Perm (e :: treeEntries (tr.delete ir data).1))) := by
  obtain ⟨hcount, hzero, hsome⟩ := hinv
  rcases hroot : tr.root with _ | r
  · have hdel := delete_none_eq tr ir data hroot
    rw [hdel]
    refine ⟨⟨hcount, hzero, hsome⟩, fun _ => rfl, fun _ => rfl, ?_⟩
    intro r hr
    cases hr
  · obtain ⟨ht, hs, hm, hne, hrect⟩ := hsome r hroot
    have htreeE : treeEntries tr = Entries r := by rw [treeEntries, hroot]
    cases hcont : rect.contains tr.rect ir with
    | false =>
      have hdel := delete_nocontain_eq tr ir data r hroot hcont
      rw [hdel]
      refine ⟨⟨hcount, hzero, hsome⟩, fun _ => rfl, fun _ => rfl, ?_⟩
      intro r' hr'
      refine ⟨fun _ => rfl, fun h _ => ?_, fun h e _ => ?_⟩
      · cases h
      · cases h
    | true =>
      have hD := nodeDelete_spec tr.rect r ir data ht hs hm hrect
      obtain ⟨res, hres⟩ : ∃ p, nodeDelete tr.rect r ir data = p := ⟨_, rfl⟩
      rw [hres] at hD
      obtain ⟨cNone, cSome⟩ := hD
      rcases hfd : findDel ir data r with _ | e₀
      · have hres2 : res = (tr.rect, r, false, false, []) := cNone hfd
        have hdel := delete_norem_eq tr ir data r hroot hcont res hres (by rw [hres2])
        have hid : ({ count := tr.count, rect := res.1, root := some res.2.1 } :
            RTreeG2 N T) = tr := by
          rw [hres2, ← hroot]
        rw [hdel, hid]
        refine ⟨⟨hcount, hzero, hsome⟩, fun _ => rfl, fun _ => rfl, ?_⟩
        intro r' hr'
        have hrr : r = r' := Option.some_inj.mp hr'
        subst hrr
        refine ⟨fun _ => rfl, fun _ _ => rfl, ?_⟩
        intro _ e hfd2
        rw [hfd] at hfd2
        cases hfd2
      · obtain ⟨cRem, cCont, cCmp, cPerm, cTight, cSorted, cSmall, cShr, cMBR⟩ :=
          cSome e₀ hfd
        have hdel := delete_rem_eq tr ir data r hroot hcont res hres cRem
        obtain ⟨cnt, hcnt⟩ : ∃ k,
            tr.count - 1 - ((res.2.2.2.2.map (fun n => (deepCount n : Int))).sum) = k :=
          ⟨_, rfl⟩
        rw [hcnt] at hdel
        have hS : (res.2.2.2.2.map (fun n => (deepCount n : Int))).sum =
            ((entriesN res.2.2.2.2).length : Int) := deepCount_sum _
        have hcount1 : cnt = ((Entries res.2.1).length : Int) := by
          rw [← hcnt, hS, hcount, htreeE, cPerm.length_eq]
          simp only [List.length_cons, List.length_append]
          push_cast
          ring
        by_cases hz : cnt = 0
        · -- the tree became empty before reinsertion: reset to zero
          have hE0 : Entries res.2.1 = [] := by
            rw [hcount1] at hz
            have hlz : (Entries res.2.1).length = 0 := by exact_mod_cast hz
            exact List.length_eq_zero.mp hlz
          rw [hdel, if_pos hz]
          have hInv1 : Inv ({ count := cnt, rect := zeroRect, root := none } : RTreeG2 N T) := by
            refine ⟨?_, fun _ => rfl, ?_⟩
            · exact hz
            · intro r' hr'
              cases hr'
          obtain ⟨hIf, hPf⟩ := foldl_reinsert_spec res.2.2.2.2 _ hInv1
          refine ⟨hIf, ?_, ?_, ?_⟩
          · intro h
            exact Bool.noConfusion h
          · intro h
            cases h
          · intro r' hr'
            have hrr : r = r' := Option.some_inj.mp hr'
            subst hrr
            refine ⟨fun h => ?_, fun _ h => ?_, ?_⟩
            · cases h
            · rw [hfd] at h
              cases h
            · intro _ e hfd2
              rw [hfd] at hfd2
              have hee : e₀ = e := by
                cases hfd2
                rfl
              subst hee
              refine ⟨rfl, cCont, cCmp, ?_⟩
              have h1 : (treeEntries tr).Perm (e₀ :: entriesN res.2.2.2.2) := by
                rw [htreeE]
                refine cPerm.trans ?_
                rw [hE0, List.nil_append]
              have h2 := hPf
              rw [show treeEntries ({ count := cnt, rect := zeroRect, root := none } :
                  RTreeG2 N T) = [] from rfl, List.append_nil] at h2
              exact h1.trans ((h2.symm).cons e₀)
        · -- survivors remain: collapse the root, then reinsert
          have hEne : Entries res.2.1 ≠ [] := by
            intro h0
            apply hz
            rw [hcount1, h0]
            rfl
          have hres1 := cMBR hEne
          obtain ⟨k1, k2, k3, k4⟩ := collapseRoot_spec res.2.1 cTight cSorted cSmall
          rw [hdel, if_neg hz]
          have hInv1 :
              Inv ({ count := cnt, rect := res.1, root := some (collapseRoot res.2.1) } : RTreeG2 N T) := by
            refine ⟨?_, fun h => Option.noConfusion h, ?_⟩
            · show cnt = ((Entries (collapseRoot res.2.1)).length : Int)
              rw [k1]
              exact hcount1
            · intro r' hr'
              have hrr : collapseRoot res.2.1 = r' := Option.some_inj.mp hr'
              subst hrr
              refine ⟨k2, k3, k4, ?_, ?_⟩
              · rw [k1]
                exact hEne
              · show res.1 = nrect (rectsOf (Entries (collapseRoot res.2.1)))
                rw [k1]
                exact hres1
          obtain ⟨hIf, hPf⟩ := foldl_reinsert_spec res.2.2.2.2 _ hInv1
          refine ⟨hIf, ?_, ?_, ?_⟩
          · intro h
            exact Bool.noConfusion h
          · intro h
            cases h
          · intro r' hr'
            have hrr : r = r' := Option.some_inj.mp hr'
            subst hrr
            refine ⟨fun h => ?_, fun _ h => ?_, ?_⟩
            · cases h
            · rw [hfd] at h
              cases h
            · intro _ e hfd2
              rw [hfd] at hfd2
              have hee : e₀ = e := by
                cases hfd2
                rfl
              subst hee
              refine ⟨rfl, cCont, cCmp, ?_⟩
              have h1 : (treeEntries tr).Perm
                  (e₀ :: (Entries res.2.1 ++ entriesN res.2.2.2.2)) := by
                rw [htreeE]
                exact cPerm
              refine h1.trans (List.Perm.cons e₀ ?_)
              refine List.Perm.trans ?_ hPf.symm
              have hT1 :
                  treeEntries ({ count := cnt, rect := res.1, root := some (collapseRoot res.2.1) } : RTreeG2 N T) =
                  Entries res.2.1 := by
                show Entries (collapseRoot res.2.1) = Entries res.2.1
                exact k1
              rw [hT1]
              exact List.perm_append_comm

/-- A `true` removal flag always comes with a witness entry matched by
containment and payload equality. -/
theorem delete_flag_spec (tr : RTreeG2 N T) (ir : RTree.rect N) (data : T) (hinv : Inv tr)
    (hfl : (tr.delete ir data).2 = true) :
    ∃ e, rect.contains ir e.1 = true ∧ compare e.2 data = true ∧
      (treeEntries tr).Perm (e :: treeEntries (tr.delete ir data).1) := by
  obtain ⟨_, _, hnone, hsome⟩ := delete_spec tr ir data hinv
  rcases hroot : tr.root with _ | r
  · rw [hnone hroot] at hfl
    cases hfl
  · obtain ⟨hnc, hmiss, hhit⟩ := hsome r hroot
    cases hcont : rect.contains tr.rect ir with
    | false =>
      rw [hnc hcont] at hfl
      cases hfl
    | true =>
      rcases hfd : findDel ir data r with _ | e₀
      · rw [hmiss hcont hfd] at hfl
        cases hfl
      · obtain ⟨_, h2, h3, h4⟩ := hhit hcont e₀ hfd
        exact ⟨e₀, h2, h3, h4⟩

theorem Replace_eq_of_removed (tr : RTreeG2 N T) (oldR : RTree.rect N) (oldData : T)
    (newR : RTree.rect N) (newData : T) (h : (tr.delete oldR oldData).2 = true) :
    tr.Replace oldR oldData newR newData = (tr.delete oldR oldData).1.Insert newR newData := by
  rw [RTreeG2.Replace]
  simp only [h, if_true]

theorem Replace_eq_of_kept (tr : RTreeG2 N T) (oldR : RTree.rect N) (oldData : T)
    (newR : RTree.rect N) (newData : T) (h : (tr.delete oldR oldData).2 = false) :
    tr.Replace oldR oldData newR newData = (tr.delete oldR oldData).1 := by
  rw [RTreeG2.Replace]
  simp only [h, Bool.false_eq_true, if_false]

/-- `Replace` preserves the invariant; it leaves the tree untouched exactly
when the delete found nothing, and otherwise swaps the removed entry for the
new one. -/
theorem Replace_spec (tr : RTreeG2 N T) (oldR : RTree.rect N) (oldData : T)
    (newR : RTree.rect N) (newData : T) (hinv : Inv tr) :
    Inv (tr.Replace oldR oldData newR newData) ∧
    ((tr.delete oldR oldData).2 = false → tr.Replace oldR oldData newR newData = tr) ∧
    ((tr.delete oldR oldData).2 = true → ∃ e, rect.contains oldR e.1 = true ∧
      compare e.2 oldData = true ∧
      (treeEntries tr).Perm (e :: treeEntries (tr.delete oldR oldData).1) ∧
      (treeEntries (tr.Replace oldR oldData newR newData)).Perm
        ((newR, newData) :: treeEntries (tr.delete oldR oldData).1)) := by
  obtain ⟨dInv, dFalse, _, _⟩ := delete_spec tr oldR oldData hinv
  cases hfl : (tr.delete oldR oldData).2 with
  | false =>
    have hrep := Replace_eq_of_kept tr oldR oldData newR newData hfl
    rw [hrep, dFalse hfl]
    refine ⟨hinv, fun _ => rfl, ?_⟩
    intro h
    cases h
  | true =>
    have hrep := Replace_eq_of_removed tr oldR oldData newR newData hfl
    obtain ⟨iInv, iPerm⟩ := Insert_spec (tr.delete oldR oldData).1 newR newData dInv
    obtain ⟨e, he1, he2, he3⟩ := delete_flag_spec tr oldR oldData hinv hfl
    rw [hrep]
    refine ⟨iInv, fun h => ?_, fun _ => ⟨e, he1, he2, he3, iPerm⟩⟩
    cases h

/-- The tree states reachable through the public API from the zero value. -/
inductive Reachable : RTreeG2 N T → Prop
  | empty : Reachable emptyTree
  | insert {tr : RTreeG2 N T} (ir : RTree.rect N) (data : T) :
      Reachable tr → Reachable (tr.Insert ir data)
  | delete {tr : RTreeG2 N T} (ir : RTree.rect N) (data : T) :
      Reachable tr → Reachable (tr.Delete ir data)
  | replace {tr : RTreeG2 N T} (oldR : RTree.rect N) (oldData : T)
      (newR : RTree.rect N) (newData : T) :
      Reachable tr → Reachable (tr.Replace oldR oldData newR newData)
  | copy {tr : RTreeG2 N T} : Reachable tr → Reachable tr.Copy

/-- Every reachable tree satisfies the steady-state invariant. -/
theorem reachable_inv {tr : RTreeG2 N T} (h : Reachable tr) : Inv tr := by
  induction h with
  | empty =>
    refine ⟨rfl, fun _ => rfl, ?_⟩
    intro r hr
    cases hr
  | insert ir data _ ih => exact (Insert_spec _ ir data ih).1
  | delete ir data _ ih => exact (delete_spec _ ir data ih).1
  | replace oldR oldData newR newData _ ih => exact (Replace_spec _ oldR oldData newR newData ih).1
  | copy _ ih => exact ih

/-- The visiting discipline the spec describes for search: go through the
matching entries in order and stop the whole traversal at the first `false`
from the visitor. -/
def visitPrefix (p : rect N → T → Bool) : List (rect N × T) → List (rect N × T) × Bool
  | [] => ([], true)
  | e :: es =>
    if p e.1 e.2 then ((e :: (visitPrefix p es).1), (visitPrefix p es).2)
    else ([e], false)

theorem visitPrefix_append (p : rect N → T → Bool) (l₁ l₂ : List (rect N × T)) :
    visitPrefix p (l₁ ++ l₂) =
      if (visitPrefix p l₁).2 then
        ((visitPrefix p l₁).1 ++ (visitPrefix p l₂).1, (visitPrefix p l₂).2)
      else ((visitPrefix p l₁).1, false) := by
  induction l₁ with
  | nil => simp [visitPrefix]
  | cons e es ih =>
    show visitPrefix p (e :: (es ++ l₂)) = _
    rw [visitPrefix, visitPrefix]
    by_cases hp : p e.1 e.2 = true
    · rw [if_pos hp, if_pos hp, ih]
      by_cases h2 : (visitPrefix p es).2 = true
      · simp [h2]
      · simp [h2]
    · rw [if_neg hp, if_neg hp]
      simp

theorem visitPrefix_true (l : List (rect N × T)) :
    visitPrefix (fun _ _ => true) l = (l, true) := by
  induction l with
  | nil => rfl
  | cons e es ih =>
    rw [visitPrefix, ih]
    simp

/-- The leaf walk of `search` visits exactly the intersecting entries, in
order, stopping at the first refusal. -/
theorem visitLeaf_eq (target : rect N) (p : rect N → T → Bool) (l : List (rect N × T)) :
    visitLeaf target p l =
      visitPrefix p (l.filter (fun e => rect.intersects e.1 target)) := by
  induction l with
  | nil => rfl
  | cons e es ih =>
    rw [visitLeaf]
    by_cases hi : rect.intersects e.1 target = true
    · rw [if_pos hi,
        @List.filter_cons_of_pos _ (fun e => rect.intersects e.1 target) e es hi,
        visitPrefix, ih]
    · rw [if_neg hi,
        @List.filter_cons_of_neg _ (fun e => rect.intersects e.1 target) e es hi, ih]

mutual

/-- On a tight node, `search` visits exactly the entries whose rects
intersect the target, in traversal order, stopping at the first refusal. -/
theorem searchNode_eq (n : node N T) (target : rect N) (p : rect N → T → Bool)
    (ht : tightB n = true) :
    searchNode target p n =
      visitPrefix p ((Entries n).filter (fun e => rect.intersects e.1 target)) := by
  match n with
  | .leaf l =>
    rw [searchNode]
    exact visitLeaf_eq target p l
  | .branch cs =>
    rw [searchNode, Entries_branch]
    exact searchKids_eq cs target p ht

/-- `searchNode_eq` over a branch's child list. -/
theorem searchKids_eq (cs : List (rect N × node N T)) (target : rect N)
    (p : rect N → T → Bool) (ht : tightL cs = true) :
    searchKids target p cs =
      visitPrefix p ((entriesL cs).filter (fun e => rect.intersects e.1 target)) := by
  match cs with
  | [] => rfl
  | c :: cs' =>
    obtain ⟨hc1, hcne, hctight⟩ := (tightL_iff _).mp ht c (List.mem_cons_self _ _)
    have htl' : tightL cs' = true :=
      (tightL_iff _).mpr fun a ha => (tightL_iff _).mp ht a (List.mem_cons_of_mem _ ha)
    have hEc : entriesL (c :: cs') = Entries c.2 ++ entriesL cs' := rfl
    rw [searchKids, hEc, List.filter_append, visitPrefix_append]
    by_cases hint : rect.intersects target c.1 = true
    · rw [if_pos hint, searchNode_eq c.2 target p hctight, searchKids_eq cs' target p htl']
    · rw [if_neg (by simp [hint])]
      rw [searchKids_eq cs' target p htl']
      have hnil : (Entries c.2).filter (fun e => rect.intersects e.1 target) = [] := by
        rw [List.filter_eq_nil_iff]
        intro e he hee
        have hcont : rect.contains c.1 e.1 = true := by
          rw [hc1]
          exact nrect_contains_mem (List.mem_map.mpr ⟨e, he, rfl⟩)
        have hx : rect.intersects c.1 target = true :=
          rect.intersects_of_contains hcont hee
        rw [rect.intersects_comm] at hx
        rw [hx] at hint
        exact hint rfl
      rw [hnil]
      simp [visitPrefix]

end

/-- `Scan` with a visitor that always continues yields every stored entry. -/
theorem Scan_true (tr : RTreeG2 N T) : tr.Scan (fun _ _ => true) = treeEntries tr := by
  rcases hroot : tr.root with _ | r
  · rw [RTreeG2.Scan, treeEntries, hroot]
  · rw [RTreeG2.Scan, treeEntries, hroot]
    show (scanNode (fun _ _ => true) r).1 = Entries r
    rw [scanNode_true r]

/-- Under the invariant, `Search` is the stop-at-first-refusal visit of the
intersecting entries. -/
theorem Search_eq (tr : RTreeG2 N T) (hinv : Inv tr) (target : RTree.rect N)
    (p : RTree.rect N → T → Bool) :
    tr.Search target p =
      (visitPrefix p ((treeEntries tr).filter (fun e => rect.intersects e.1 target))).1 := by
  obtain ⟨_, _, hsome⟩ := hinv
  rcases hroot : tr.root with _ | r
  · have hE : treeEntries tr = [] := by rw [treeEntries, hroot]
    have hm : tr.Search target p = [] := by
      rw [RTreeG2.Search]
      simp only [hroot]
    rw [hm, hE]
    rfl
  · obtain ⟨ht, _, _, hne, hrect⟩ := hsome r hroot
    have hE : treeEntries tr = Entries r := by rw [treeEntries, hroot]
    have hm : tr.Search target p =
        if rect.intersects target tr.rect then (searchNode target p r).1 else [] := by
      rw [RTreeG2.Search]
      simp only [hroot]
    rw [hm, hE]
    cases hint : rect.intersects target tr.rect with
    | true =>
      rw [if_pos rfl, searchNode_eq r target p ht]
    | false =>
      rw [if_neg (by simp)]
      have hnil : (Entries r).filter (fun e => rect.intersects e.1 target) = [] := by
        rw [List.filter_eq_nil_iff]
        intro e he hee
        have hcont : rect.contains tr.rect e.1 = true := by
          rw [hrect]
          exact nrect_contains_mem (List.mem_map.mpr ⟨e, he, rfl⟩)
        have hx : rect.intersects tr.rect target = true :=
          rect.intersects_of_contains hcont hee
        rw [rect.intersects_comm] at hx
        rw [hx] at hint
        cases hint
      rw [hnil]
      rfl

/-- A steady-state tree on which `delete` skips the first matching entry in
traversal order: the target is contained in the tree rect and matches an
entry of the first child, but that child's stored rect does not contain the
target, so the descent goes to the second child instead. -/
def t4ex : RTreeG2 Int Nat :=
  ⟨4, ⟨-8, -5, 15, 15⟩, some (node.branch
    [(⟨-8, 2, 9, 12⟩, node.leaf [(⟨-8, 5, 9, 12⟩, 1), (⟨1, 2, 2, 3⟩, 0)]),
     (⟨-5, -5, 15, 15⟩, node.leaf [(⟨-5, -5, 15, 15⟩, 1), (⟨3, 3, 4, 4⟩, 0)])])⟩

/-- A one-entry tree built through the API. -/
def t1ex : RTreeG2 Int Nat := RTreeG2.Insert emptyTree ⟨0, 0, 2, 2⟩ 0

/-- A tree emptied again through the API. -/
def t2ex : RTreeG2 Int Nat :=
  RTreeG2.Delete (RTreeG2.Insert emptyTree ⟨0, 0, 1, 1⟩ 0) ⟨0, 0, 1, 1⟩ 0

/-- Two nested entries; `Replace` of the outer one hits the inner one
first. -/
def t5ex : RTreeG2 Int Nat :=
  RTreeG2.Insert (RTreeG2.Insert emptyTree ⟨1, 1, 4, 4⟩ 0) ⟨1, 1, 2, 2⟩ 0

/-- A full leaf of 64 disjoint entries. -/
def L64ex : node Int Nat :=
  node.leaf ((List.range 64).map (fun (i : Nat) => ((⟨(i : Int), 0, (i : Int) + 1, 1⟩ : RTree.rect Int), i)))

theorem t1ex_root : t1ex.root = some (node.leaf [(⟨0, 0, 2, 2⟩, 0)]) := by
  simp [t1ex, RTreeG2.Insert, emptyTree, nodeInsert, rsearch, insertAt, rect.contains,
    maxEntries, node.isLeaf, orderBranches, orderLeaves, node.length]

/-- C1: on every reachable tree, `Search` visits, in traversal order, exactly
the stored entries whose rects intersect the target (stopping the whole
traversal at the visitor's first `false`), and with an always-true visitor it
yields exactly the intersecting entries. -/
theorem claim1_search_visits_intersecting {tr : RTreeG2 N T} (h : Reachable tr)
    (Q : RTree.rect N) (p : RTree.rect N → T → Bool) :
    tr.Search Q p =
      (visitPrefix p ((treeEntries tr).filter (fun e => rect.intersects e.1 Q))).1 ∧
    tr.Search Q (fun _ _ => true) =
      (treeEntries tr).filter (fun e => rect.intersects e.1 Q) := by
  have hinv := reachable_inv h
  refine ⟨Search_eq tr hinv Q p, ?_⟩
  rw [Search_eq tr hinv Q (fun _ _ => true), visitPrefix_true]

theorem claim1_witness :
    Reachable t1ex ∧
    (t1ex.Search ⟨1, 1, 3, 3⟩ (fun _ _ => true) =
      (visitPrefix (fun _ _ => true)
        ((treeEntries t1ex).filter (fun e => rect.intersects e.1 ⟨1, 1, 3, 3⟩))).1 ∧
     t1ex.Search ⟨1, 1, 3, 3⟩ (fun _ _ => true) =
      (treeEntries t1ex).filter (fun e => rect.intersects e.1 ⟨1, 1, 3, 3⟩)) :=
  ⟨Reachable.insert _ _ Reachable.empty,
   claim1_search_visits_intersecting (Reachable.insert _ _ Reachable.empty) _ _⟩

/-- C2: after any sequence of operations, `Len` equals the number of entries
an always-true `Scan` delivers. -/
theorem claim2_len_eq_scan_count {tr : RTreeG2 N T} (h : Reachable tr) :
    tr.Len = ((tr.Scan (fun _ _ => true)).length : Int) := by
  have hinv := reachable_inv h
  rw [RTreeG2.Len, Scan_true, hinv.1]

theorem claim2_witness :
    Reachable t2ex ∧ t2ex.Len = ((t2ex.Scan (fun _ _ => true)).length : Int) :=
  ⟨Reachable.delete _ _ (Reachable.insert _ _ Reachable.empty),
   claim2_len_eq_scan_count (Reachable.delete _ _ (Reachable.insert _ _ Reachable.empty))⟩

/-- C4 (amended): on a steady-state tree, `delete` is a no-op returning
`false` when the root is absent, when the tree rect does not contain the
target, or when the restricted descent (`findDel`: first hit trying, in
order, only children whose stored rect contains the target) finds nothing;
otherwise it removes exactly the entry `findDel` selects — matched by
rect-containment and payload value-equality — and returns `true`. -/
theorem claim4_delete_removes_restricted_first (tr : RTreeG2 N T) (ir : RTree.rect N)
    (data : T) (hinv : Inv tr) :
    (tr.root = none → tr.Delete ir data = tr) ∧
    (∀ r, tr.root = some r → rect.contains tr.rect ir = false → tr.Delete ir data = tr) ∧
    (∀ r, tr.root = some r → rect.contains tr.rect ir = true →
      (findDel ir data r = none →
        tr.Delete ir data = tr ∧ (tr.delete ir data).2 = false) ∧
      (∀ e, findDel ir data r = some e →
        (tr.delete ir data).2 = true ∧ rect.contains ir e.1 = true ∧
        compare e.2 data = true ∧
        (treeEntries tr).Perm (e :: treeEntries (tr.Delete ir data)))) := by
  obtain ⟨_, _, hnone, hsome⟩ := delete_spec tr ir data hinv
  refine ⟨?_, ?_, ?_⟩
  · intro h
    show (tr.delete ir data).1 = tr
    rw [hnone h]
  · intro r hr hc
    show (tr.delete ir data).1 = tr
    rw [(hsome r hr).1 hc]
  · intro r hr hc
    refine ⟨?_, ?_⟩
    · intro hfd
      have h := (hsome r hr).2.1 hc hfd
      constructor
      · show (tr.delete ir data).1 = tr
        rw [h]
      · rw [h]
    · intro e hfd
      exact (hsome r hr).2.2 hc e hfd

theorem claim4_witness :
    Inv t1ex ∧
    ((t1ex.root = none → t1ex.Delete ⟨0, 0, 1, 1⟩ 5 = t1ex) ∧
     (∀ r, t1ex.root = some r → rect.contains t1ex.rect ⟨0, 0, 1, 1⟩ = false →
        t1ex.Delete ⟨0, 0, 1, 1⟩ 5 = t1ex) ∧
     (∀ r, t1ex.root = some r → rect.contains t1ex.rect ⟨0, 0, 1, 1⟩ = true →
        (findDel ⟨0, 0, 1, 1⟩ 5 r = none →
          t1ex.Delete ⟨0, 0, 1, 1⟩ 5 = t1ex ∧ (t1ex.delete ⟨0, 0, 1, 1⟩ 5).2 = false) ∧
        (∀ e, findDel ⟨0, 0, 1, 1⟩ 5 r = some e →
          (t1ex.delete ⟨0, 0, 1, 1⟩ 5).2 = true ∧ rect.contains ⟨0, 0, 1, 1⟩ e.1 = true ∧
          compare e.2 5 = true ∧
          (treeEntries t1ex).Perm (e :: treeEntries (t1ex.Delete ⟨0, 0, 1, 1⟩ 5))))) :=
  ⟨reachable_inv (Reachable.insert _ _ Reachable.empty),
   claim4_delete_removes_restricted_first t1ex ⟨0, 0, 1, 1⟩ 5
     (reachable_inv (Reachable.insert _ _ Reachable.empty))⟩

/-- C4 (counterexample to the original wording): on the steady-state tree
`t4ex`, the first leaf entry in traversal order matching the target by
containment and payload is `(⟨1,2,2,3⟩, 0)`, yet `delete` removes the match
under the second child instead (the first child's stored rect does not
contain the target), so the claimed entry survives. -/
theorem claim4_counterexample :
    Inv t4ex ∧
    (treeEntries t4ex).find?
      (fun q => rect.contains ⟨0, 0, 10, 10⟩ q.1 && compare q.2 0) =
      some (⟨1, 2, 2, 3⟩, 0) ∧
    (t4ex.delete ⟨0, 0, 10, 10⟩ 0).2 = true ∧
    ((⟨1, 2, 2, 3⟩, 0) ∈ treeEntries (t4ex.Delete ⟨0, 0, 10, 10⟩ 0)) ∧
    ¬ ((⟨3, 3, 4, 4⟩, 0) ∈ treeEntries (t4ex.Delete ⟨0, 0, 10, 10⟩ 0)) := by
  have hE : treeEntries (t4ex.Delete ⟨0, 0, 10, 10⟩ 0) =
      [(⟨-8, 5, 9, 12⟩, 1), (⟨-5, -5, 15, 15⟩, 1), (⟨1, 2, 2, 3⟩, 0)] := by
    simp [t4ex, RTreeG2.Delete, RTreeG2.delete, nodeDelete, nodeDeleteGo, findRemove,
      compare, rect.contains, rect.onedge, rect.equals, minEntries, maxEntries, deepCount,
      deepCountL, collapseRoot, nodeReinsert, nodeReinsertL, RTreeG2.Insert, nodeInsert,
      rsearch, insertAt, orderLeaves, orderBranches, treeEntries, Entries, entriesL,
      node.length, nrect, rectsOf, rect.expand, rect.fmin, rect.fmax, node.isLeaf, zeroRect]
  refine ⟨⟨by decide, fun h => Option.noConfusion h, ?_⟩, ?_, ?_, ?_, ?_⟩
  · intro r hr
    injection hr with h
    subst h
    refine ⟨by decide, by decide, by decide, by decide, by decide⟩
  · decide
  · simp [t4ex, RTreeG2.delete, nodeDelete, nodeDeleteGo, findRemove, compare,
      rect.contains, rect.onedge, rect.equals, minEntries, maxEntries, node.length,
      nrect, rectsOf, rect.expand, rect.fmin, rect.fmax, deepCount, deepCountL]
  · rw [hE]
    decide
  · rw [hE]
    decide

/-- C5 (amended): `Replace` of an old entry for a new one is atomic relative
to the delete's own matching rule: when the delete finds nothing the tree is
completely unchanged; when it removes an entry — matched by rect-containment
and payload equality, not rect equality — the result holds exactly the new
entry plus the remaining entries. -/
theorem claim5_replace_atomic_on_removal (tr : RTreeG2 N T) (oldR : RTree.rect N)
    (oldData : T) (newR : RTree.rect N) (newData : T) (hinv : Inv tr) :
    ((tr.delete oldR oldData).2 = false → tr.Replace oldR oldData newR newData = tr) ∧
    ((tr.delete oldR oldData).2 = true → ∃ e, rect.contains oldR e.1 = true ∧
      compare e.2 oldData = true ∧
      (treeEntries tr).Perm (e :: treeEntries (tr.delete oldR oldData).1) ∧
      (treeEntries (tr.Replace oldR oldData newR newData)).Perm
        ((newR, newData) :: treeEntries (tr.delete oldR oldData).1)) := by
  obtain ⟨_, h2, h3⟩ := Replace_spec tr oldR oldData newR newData hinv
  exact ⟨h2, h3⟩

theorem claim5_witness :
    Inv t5ex ∧
    (((t5ex.delete ⟨1, 1, 4, 4⟩ 0).2 = false →
        t5ex.Replace ⟨1, 1, 4, 4⟩ 0 ⟨5, 5, 6, 6⟩ 1 = t5ex) ∧
     ((t5ex.delete ⟨1, 1, 4, 4⟩ 0).2 = true → ∃ e, rect.contains ⟨1, 1, 4, 4⟩ e.1 = true ∧
        compare e.2 0 = true ∧
        (treeEntries t5ex).Perm (e :: treeEntries (t5ex.delete ⟨1, 1, 4, 4⟩ 0).1) ∧
        (treeEntries (t5ex.Replace ⟨1, 1, 4, 4⟩ 0 ⟨5, 5, 6, 6⟩ 1)).Perm
          ((⟨5, 5, 6, 6⟩, 1) :: treeEntries (t5ex.delete ⟨1, 1, 4, 4⟩ 0).1))) :=
  ⟨reachable_inv (Reachable.insert _ _ (Reachable.insert _ _ Reachable.empty)),
   claim5_replace_atomic_on_removal t5ex ⟨1, 1, 4, 4⟩ 0 ⟨5, 5, 6, 6⟩ 1
     (reachable_inv (Reachable.insert _ _ (Reachable.insert _ _ Reachable.empty)))⟩

/-- C5 (counterexample to the original wording): in `t5ex` the old entry
`(⟨1,1,4,4⟩, 0)` is present, yet `Replace` of it leaves its count unchanged:
the delete phase matches by containment and removes the nested entry
`(⟨1,1,2,2⟩, 0)` instead, then inserts the new entry. -/
theorem claim5_counterexample :
    ((⟨1, 1, 4, 4⟩, 0) ∈ treeEntries t5ex) ∧
    (treeEntries t5ex).count (⟨1, 1, 4, 4⟩, 0) = 1 ∧
    (treeEntries (t5ex.Replace ⟨1, 1, 4, 4⟩ 0 ⟨5, 5, 6, 6⟩ 1)).count (⟨1, 1, 4, 4⟩, 0) = 1 ∧
    ((⟨5, 5, 6, 6⟩, 1) ∈ treeEntries (t5ex.Replace ⟨1, 1, 4, 4⟩ 0 ⟨5, 5, 6, 6⟩ 1)) := by
  have h1 : treeEntries t5ex = [(⟨1, 1, 2, 2⟩, 0), (⟨1, 1, 4, 4⟩, 0)] := by
    simp [t5ex, RTreeG2.Insert, emptyTree, nodeInsert, rsearch, insertAt, rect.contains,
      maxEntries, node.isLeaf, orderBranches, orderLeaves, node.length, treeEntries, Entries]
  have h2 : treeEntries (t5ex.Replace ⟨1, 1, 4, 4⟩ 0 ⟨5, 5, 6, 6⟩ 1) =
      [(⟨1, 1, 4, 4⟩, 0), (⟨5, 5, 6, 6⟩, 1)] := by
    simp [t5ex, RTreeG2.Replace, RTreeG2.delete, nodeDelete, nodeDeleteGo, findRemove,
      compare, rect.contains, rect.onedge, rect.equals, minEntries, maxEntries, deepCount,
      deepCountL, collapseRoot, nodeReinsert, nodeReinsertL, RTreeG2.Insert, emptyTree,
      nodeInsert, rsearch, insertAt, orderLeaves, orderBranches, treeEntries, Entries,
      entriesL, node.length, nrect, rectsOf, rect.expand, rect.fmin, rect.fmax,
      node.isLeaf, zeroRect]
  rw [h1, h2]
  refine ⟨by decide, by decide, by decide, by decide⟩

/-- C6: splitting a full node (64 entries) over any covering rect yields two
siblings that hold exactly the original entries between them, each with
between `minEntries = 6` and `maxEntries - 1 = 63` entries. -/
theorem claim6_split_sizes (r : RTree.rect N) (n : node N T) (h64 : n.length = maxEntries)
    (ht : tightB n = true) (hso : subSortedB n = true) (hsm : subSmallB n = true) :
    (Entries (splitNode r n).1 ++ Entries (splitNode r n).2).Perm (Entries n) ∧
    minEntries ≤ (splitNode r n).1.length ∧ (splitNode r n).1.length ≤ maxEntries - 1 ∧
    minEntries ≤ (splitNode r n).2.length ∧ (splitNode r n).2.length ≤ maxEntries - 1 := by
  obtain ⟨p, _, _, _, _, _, _, m1, m2, u1, u2, _, _, _, _⟩ := splitNode_spec r n h64 ht hso hsm
  refine ⟨p, m1, ?_, m2, ?_⟩
  · rw [maxEntries_eq]
    omega
  · rw [maxEntries_eq]
    omega

theorem claim6_witness :
    L64ex.length = maxEntries ∧
    ((Entries (splitNode ⟨0, 0, 64, 1⟩ L64ex).1 ++
        Entries (splitNode ⟨0, 0, 64, 1⟩ L64ex).2).Perm (Entries L64ex) ∧
      minEntries ≤ (splitNode ⟨0, 0, 64, 1⟩ L64ex).1.length ∧
      (splitNode ⟨0, 0, 64, 1⟩ L64ex).1.length ≤ maxEntries - 1 ∧
      minEntries ≤ (splitNode ⟨0, 0, 64, 1⟩ L64ex).2.length ∧
      (splitNode ⟨0, 0, 64, 1⟩ L64ex).2.length ≤ maxEntries - 1) :=
  ⟨by decide, claim6_split_sizes ⟨0, 0, 64, 1⟩ L64ex (by decide) rfl rfl rfl⟩

/-- C7: the subtree chosen at a branch during insert descent is, among
children containing the new rect, the first of least area; and when no child
contains it, a child minimising enlargement with ties broken by smaller
area. -/
theorem claim7_choose_subtree (rects : List (RTree.rect N)) (ir : RTree.rect N)
    (hne : rects ≠ []) :
    ((∃ (k : Nat) (x : RTree.rect N), rects[k]? = some x ∧ rect.contains x ir = true) →
      ∃ x, rects[chooseIdx rects ir]? = some x ∧ rect.contains x ir = true ∧
        (∀ (k : Nat) (y : RTree.rect N), rects[k]? = some y → rect.contains y ir = true →
          rect.area x ≤ rect.area y) ∧
        (∀ (k : Nat) (y : RTree.rect N), k < chooseIdx rects ir → rects[k]? = some y →
          rect.contains y ir = true → rect.area x < rect.area y)) ∧
    ((∀ (k : Nat) (x : RTree.rect N), rects[k]? = some x → rect.contains x ir = false) →
      ∃ x, rects[chooseIdx rects ir]? = some x ∧
        ∀ (k : Nat) (y : RTree.rect N), rects[k]? = some y →
          rect.unionedArea x ir - rect.area x < rect.unionedArea y ir - rect.area y ∨
          (rect.unionedArea x ir - rect.area x = rect.unionedArea y ir - rect.area y ∧
            rect.area x ≤ rect.area y)) := by
  have hinv := containScan_inv ir rects [] none (by intro k x hk; simp at hk)
  simp only [List.nil_append, List.length_nil] at hinv
  constructor
  · rintro ⟨k, x, hk, hx⟩
    rcases hcs : containScan ir rects 0 none with _ | ⟨j, narea⟩
    · rw [hcs] at hinv
      exfalso
      have h0 := hinv k x hk
      rw [h0] at hx
      cases hx
    · have hidx : chooseIdx rects ir = j := by rw [chooseIdx, hcs]
      rw [hcs] at hinv
      obtain ⟨y, hyj, hyc, hyarea, hmin, hstrict⟩ := hinv
      rw [hidx]
      refine ⟨y, hyj, hyc, ?_, ?_⟩
      · intro k z hkz hz
        have h1 := hmin k z hkz hz
        rw [hyarea] at h1
        exact h1
      · intro k z hkj hkz hz
        have h1 := hstrict k z hkj hkz hz
        rw [hyarea] at h1
        exact h1
  · intro hall
    rcases hcs : containScan ir rects 0 none with _ | ⟨j, narea⟩
    · have hidx : chooseIdx rects ir = chooseLeastEnlargement rects ir := by
        rw [chooseIdx, hcs]
      rw [hidx]
      exact chooseLeastEnlargement_spec rects ir hne
    · rw [hcs] at hinv
      obtain ⟨y, hyj, hyc, _⟩ := hinv
      rw [hall j y hyj] at hyc
      cases hyc

/-- Two rects, the smaller one second: the chooser's playground. -/
def rects7ex : List (RTree.rect Int) := [⟨0, 0, 4, 4⟩, ⟨0, 0, 1, 1⟩]

theorem claim7_witness :
    rects7ex ≠ [] ∧
    (((∃ (k : Nat) (x : RTree.rect Int), rects7ex[k]? = some x ∧
        rect.contains x ⟨0, 0, 1, 1⟩ = true) →
      ∃ x, rects7ex[chooseIdx rects7ex ⟨0, 0, 1, 1⟩]? = some x ∧
        rect.contains x ⟨0, 0, 1, 1⟩ = true ∧
        (∀ (k : Nat) (y : RTree.rect Int), rects7ex[k]? = some y →
          rect.contains y ⟨0, 0, 1, 1⟩ = true → rect.area x ≤ rect.area y) ∧
        (∀ (k : Nat) (y : RTree.rect Int), k < chooseIdx rects7ex ⟨0, 0, 1, 1⟩ →
          rects7ex[k]? = some y → rect.contains y ⟨0, 0, 1, 1⟩ = true →
          rect.area x < rect.area y)) ∧
     ((∀ (k : Nat) (x : RTree.rect Int), rects7ex[k]? = some x →
        rect.contains x ⟨0, 0, 1, 1⟩ = false) →
      ∃ x, rects7ex[chooseIdx rects7ex ⟨0, 0, 1, 1⟩]? = some x ∧
        ∀ (k : Nat) (y : RTree.rect Int), rects7ex[k]? = some y →
          rect.unionedArea x ⟨0, 0, 1, 1⟩ - rect.area x <
            rect.unionedArea y ⟨0, 0, 1, 1⟩ - rect.area y ∨
          (rect.unionedArea x ⟨0, 0, 1, 1⟩ - rect.area x =
            rect.unionedArea y ⟨0, 0, 1, 1⟩ - rect.area y ∧
            rect.area x ≤ rect.area y))) :=
  ⟨by simp [rects7ex], claim7_choose_subtree rects7ex ⟨0, 0, 1, 1⟩ (by simp [rects7ex])⟩

/-- C8: in every reachable tree, every node's stored rects are non-decreasing
by `min[0]` (`allSortedB` checks the root and, recursively, every node below
it). -/
theorem claim8_sibling_order {tr : RTreeG2 N T} (h : Reachable tr) :
    ∀ r, tr.root = some r → allSortedB r = true :=
  fun r hr => ((reachable_inv h).2.2 r hr).2.1

theorem claim8_witness :
    Reachable t1ex ∧ allSortedB (node.leaf [((⟨0, 0, 2, 2⟩ : RTree.rect Int), (0 : Nat))]) = true :=
  ⟨Reachable.insert _ _ Reachable.empty,
   claim8_sibling_order (Reachable.insert _ _ Reachable.empty) _ t1ex_root⟩

/-- C9: on every reachable tree, `Bounds` returns the MBR of all stored
entries, and the zero rectangle when the tree is empty. -/
theorem claim9_bounds {tr : RTreeG2 N T} (h : Reachable tr) :
    tr.Bounds = nrect (rectsOf (treeEntries tr)) ∧
    (treeEntries tr = [] → tr.Bounds = zeroRect) := by
  have hinv := reachable_inv h
  obtain ⟨hcount, hzero, hsome⟩ := hinv
  rcases hroot : tr.root with _ | r
  · have hE : treeEntries tr = [] := by rw [treeEntries, hroot]
    refine ⟨?_, fun _ => hzero hroot⟩
    rw [hE, RTreeG2.Bounds, hzero hroot]
    rfl
  · obtain ⟨_, _, _, hne, hrect⟩ := hsome r hroot
    have hE : treeEntries tr = Entries r := by rw [treeEntries, hroot]
    refine ⟨?_, fun h0 => ?_⟩
    · rw [hE, RTreeG2.Bounds, hrect]
    · rw [hE] at h0
      exact absurd h0 hne

theorem claim9_witness :
    Reachable t2ex ∧
    (t2ex.Bounds = nrect (rectsOf (treeEntries t2ex)) ∧
      (treeEntries t2ex = [] → t2ex.Bounds = zeroRect)) :=
  ⟨Reachable.delete _ _ (Reachable.insert _ _ Reachable.empty),
   claim9_bounds (Reachable.delete _ _ (Reachable.insert _ _ Reachable.empty))⟩

end RTree
